import Mathlib

/-!
# Agent assignment system

A shallow embedding of `assignmentsystem/assignment_system.go` and the properties of
its registry and selector, followed by the roster generator of `loadtest/funcs.go`.

Modelling conventions.

* A Go `map[string]V` is an association list `GoMap V`; `mapGet` is `m[k]` (with `none`
  for a missing key), `mapSet` is `m[k] = v`, and `mapModify` is a write through the
  pointer stored under `k`.
* A `*AgentWorkQueue` is the pair of the key under which the object is stored in
  `agentAssignments` (its address) and the object read through it.  A missing key reads
  as the nil pointer.  Every key holds its own object, as `NewAssignmentSystem` allocates
  them.
* A nil slice and an empty slice are both the empty list.
* Instants are integers (nanoseconds).  The clock is a function `clk : Nat → Int` giving
  the successive readings of `time.Now()`; the number of readings made so far is threaded
  through the operations as `tick`.
* A runtime panic (nil pointer dereference) is the result `none`.  Every panic of this
  code is raised before the call has written anything.
* The random draws of `math/rand` are a stream `rnd : Nat → Nat`, one value per call of
  `rand.Intn`, and `rand.Shuffle` is a function that rearranges its list.
-/

namespace assignmentsystem

/-! ## Go maps -/

/-- A Go `map[string]V`. -/
abbrev GoMap (V : Type) := List (String × V)

/-- The read `m[k]`; `none` when the key is missing. -/
def mapGet {V : Type} : GoMap V → String → Option V
  | [], _ => none
  | (k', v) :: rest, k => if k' = k then some v else mapGet rest k

/-- The write `m[k] = v`. -/
def mapSet {V : Type} : GoMap V → String → V → GoMap V
  | [], k, v => [(k, v)]
  | (k', v') :: rest, k, v =>
    if k' = k then (k', v) :: rest else (k', v') :: mapSet rest k v

/-- A write through the pointer stored under `k`: the object becomes `f` of itself. -/
def mapModify {V : Type} (f : V → V) : GoMap V → String → GoMap V
  | [], _ => []
  | (k', v) :: rest, k =>
    if k' = k then (k', f v) :: rest else (k', v) :: mapModify f rest k

/-! ## Data model -/

structure AgentWorkQueue where
  Limit : Int
  AgentName : String
  LastAssignmentTime : Option Int
  Queue : List String
  Account : String
  deriving DecidableEq, Repr

structure AssignmentSystem where
  accountAgents : GoMap (List String)
  agentAssignments : GoMap AgentWorkQueue
  deriving DecidableEq, Repr

structure AgentNameAndAccount where
  Name : String
  Account : String
  Limit : Int
  deriving DecidableEq, Repr

structure ConversationToAssign where
  ConversationID : String
  Account : String
  deriving DecidableEq, Repr

/-- The two error values the package builds with `fmt.Errorf`. -/
inductive GoError where
  | noAvailableAgents
  | failedToAssign (n : Nat)
  deriving DecidableEq, Repr

/-- The text of an error value. -/
def GoError.Error : GoError → String
  | .noAvailableAgents => "no available agents to take on work"
  | .failedToAssign n => "failed to assign " ++ toString n ++ " conversations"

structure conversationAssignmentError where
  conversation : ConversationToAssign
  Err : GoError
  deriving DecidableEq, Repr

/-- A non-nil `*AgentWorkQueue`: the key it is stored under and the object it points to. -/
abbrev WorkQueueRef := String × AgentWorkQueue

/-! ## Time -/

def maxDuration : Int := 2 ^ 63 - 1

def minDuration : Int := -(2 ^ 63)

/-- The value of `time.Since(t)` when the clock reads `now`: `now.Sub(t)`, which
saturates at the ends of the `Duration` range. -/
def timeSince (now t : Int) : Int := max minDuration (min maxDuration (now - t))

/-! ## Registry -/

/-- One iteration of the loop of `NewAssignmentSystem`. -/
def newStep (s : AssignmentSystem) (nameAndAccount : AgentNameAndAccount) : AssignmentSystem :=
  let agents := mapSet s.agentAssignments nameAndAccount.Name
    { AgentName := nameAndAccount.Name
      Limit := nameAndAccount.Limit
      LastAssignmentTime := none
      Queue := []
      Account := nameAndAccount.Account }
  let accounts :=
    match mapGet s.accountAgents nameAndAccount.Account with
    | some _ => s.accountAgents
    | none => mapSet s.accountAgents nameAndAccount.Account []
  { accountAgents :=
      mapSet accounts nameAndAccount.Account
        ((mapGet accounts nameAndAccount.Account).getD [] ++ [nameAndAccount.Name])
    agentAssignments := agents }

def NewAssignmentSystem (initData : List AgentNameAndAccount) : AssignmentSystem :=
  initData.foldl newStep { accountAgents := [], agentAssignments := [] }

/-- The method `SetLimit`: writes through `as.agentAssignments[agentName]`, which is the nil
pointer when the name is missing. -/
def SetLimit (s : AssignmentSystem) (agentName : String) (limit : Int) :
    Option AssignmentSystem :=
  match mapGet s.agentAssignments agentName with
  | none => none
  | some _ =>
    some { s with
      agentAssignments :=
        mapModify (fun wq => { wq with Limit := limit }) s.agentAssignments agentName }

/-! ## Selector -/

/-- The second loop of `getEligibleAgentWorkQueues`, over the pointers gathered by the first. -/
def filterAvailable : List (String × Option AgentWorkQueue) → Option (List WorkQueueRef)
  | [] => some []
  | (_, none) :: _ => none
  | (k, some wq) :: rest =>
    match filterAvailable rest with
    | none => none
    | some tl => if (wq.Queue.length : Int) = wq.Limit then some tl else some ((k, wq) :: tl)

def getEligibleAgentWorkQueues (accountAgents : GoMap (List String))
    (agentAssignments : GoMap AgentWorkQueue) (account : String) :
    Option (List WorkQueueRef) :=
  let agentsForAccount := (mapGet accountAgents account).getD []
  let agentWqs := agentsForAccount.map (fun agent => (agent, mapGet agentAssignments agent))
  filterAvailable agentWqs

/-- The loop of `getWorkqueuesWithLeastAmountOfWork`. -/
def leastLoop : List WorkQueueRef → Nat → List WorkQueueRef → List WorkQueueRef
  | [], _, found => found
  | wq :: rest, lowest, found =>
    if wq.2.Queue.length < lowest then leastLoop rest wq.2.Queue.length [wq]
    else if wq.2.Queue.length = lowest then leastLoop rest lowest (found ++ [wq])
    else leastLoop rest lowest found

def getWorkqueuesWithLeastAmountOfWork (workQueues : List WorkQueueRef) : List WorkQueueRef :=
  match workQueues with
  | [] => []
  | first :: _ => leastLoop workQueues first.2.Queue.length []

/-- The loop of `getWorkQueueWithTheLeastRecentAssignment`; each `time.Since` reads the
clock once. -/
def leastRecentLoop (clk : Nat → Int) :
    List WorkQueueRef → Nat → Int → Option WorkQueueRef → Option WorkQueueRef × Nat
  | [], tick, _, best => (best, tick)
  | wq :: rest, tick, highestDuration, best =>
    match wq.2.LastAssignmentTime with
    | none => (some wq, tick)
    | some last =>
      if timeSince (clk tick) last > highestDuration then
        leastRecentLoop clk rest (tick + 2) (timeSince (clk (tick + 1)) last) (some wq)
      else leastRecentLoop clk rest (tick + 1) highestDuration best

def getWorkQueueWithTheLeastRecentAssignment (clk : Nat → Int) (tick : Nat)
    (workQueues : List WorkQueueRef) : Option WorkQueueRef × Nat :=
  leastRecentLoop clk workQueues tick 0 none

/-- What a call of `assign` that returns leaves behind and returns. -/
structure AssignOutcome where
  sys : AssignmentSystem
  tick : Nat
  agent : String
  err : Option GoError
  deriving DecidableEq, Repr

/-- The write of `assignToWorkQueue` into the object. -/
def pushConversation (conversationID : String) (now : Int) (wq : AgentWorkQueue) :
    AgentWorkQueue :=
  { wq with Queue := wq.Queue ++ [conversationID], LastAssignmentTime := some now }

def assignToWorkQueue (clk : Nat → Int) (s : AssignmentSystem) (tick : Nat)
    (wq : Option WorkQueueRef) (conversationID : String) : Option AssignOutcome :=
  match wq with
  | none => none
  | some (key, obj) =>
    some
      { sys := { s with
          agentAssignments :=
            mapModify (pushConversation conversationID (clk tick)) s.agentAssignments key }
        tick := tick + 1
        agent := obj.AgentName
        err := none }

def assign (clk : Nat → Int) (s : AssignmentSystem) (tick : Nat)
    (conversation : ConversationToAssign) : Option AssignOutcome :=
  match getEligibleAgentWorkQueues s.accountAgents s.agentAssignments conversation.Account with
  | none => none
  | some eligibleWorkQueues =>
    if eligibleWorkQueues.length = 0 then
      some { sys := s, tick := tick, agent := "", err := some GoError.noAvailableAgents }
    else
      let workQueueWithLeastAmountOfWork := getWorkqueuesWithLeastAmountOfWork eligibleWorkQueues
      if workQueueWithLeastAmountOfWork.length = 1 then
        assignToWorkQueue clk s tick workQueueWithLeastAmountOfWork.head?
          conversation.ConversationID
      else
        let withLeastRecentAssignment :=
          getWorkQueueWithTheLeastRecentAssignment clk tick workQueueWithLeastAmountOfWork
        assignToWorkQueue clk s withLeastRecentAssignment.2 withLeastRecentAssignment.1
          conversation.ConversationID

def constructError (failedAssignments : List conversationAssignmentError) : Option GoError :=
  if failedAssignments.length = 0 then none
  else some (GoError.failedToAssign failedAssignments.length)

/-- The state of the loop of `Assign`. -/
structure AssignLoopState where
  sys : AssignmentSystem
  tick : Nat
  assignedAgents : List String
  failedAssignments : List conversationAssignmentError
  deriving DecidableEq, Repr

/-- The loop of `Assign`. -/
def assignLoop (clk : Nat → Int) : AssignLoopState → List ConversationToAssign →
    Option AssignLoopState
  | st, [] => some st
  | st, conversation :: rest =>
    match assign clk st.sys st.tick conversation with
    | none => none
    | some r =>
      match r.err with
      | some err =>
        assignLoop clk
          { sys := r.sys, tick := r.tick, assignedAgents := st.assignedAgents
            failedAssignments := st.failedAssignments ++ [⟨conversation, err⟩] } rest
      | none =>
        assignLoop clk
          { sys := r.sys, tick := r.tick
            assignedAgents := st.assignedAgents ++ [r.agent]
            failedAssignments := st.failedAssignments } rest

/-- What a call of `Assign` that returns leaves behind and returns. -/
structure BatchOutcome where
  sys : AssignmentSystem
  tick : Nat
  assignedAgents : List String
  err : Option GoError
  deriving DecidableEq, Repr

/-- The method `Assign`; its log line is left out. -/
def Assign (clk : Nat → Int) (s : AssignmentSystem) (tick : Nat)
    (conversationsToAssign : List ConversationToAssign) : Option BatchOutcome :=
  match assignLoop clk
      { sys := s, tick := tick, assignedAgents := [], failedAssignments := [] }
      conversationsToAssign with
  | none => none
  | some st =>
    some
      { sys := st.sys, tick := st.tick, assignedAgents := st.assignedAgents
        err := constructError st.failedAssignments }

/-- A sequence of calls of `Assign`, one per batch. -/
def runBatches (clk : Nat → Int) : AssignmentSystem → Nat → List (List ConversationToAssign) →
    Option (AssignmentSystem × Nat)
  | s, tick, [] => some (s, tick)
  | s, tick, batch :: rest =>
    match Assign clk s tick batch with
    | none => none
    | some out => runBatches clk out.sys out.tick rest

/-! ## Package loadtest -/

/-- The function `GetUniqueAccounts` of package `loadtest`. -/
def GetUniqueAccounts (agents : List AgentNameAndAccount) : List String :=
  agents.foldl
    (fun uniqueAccounts agent =>
      if uniqueAccounts.contains agent.Account then uniqueAccounts
      else uniqueAccounts ++ [agent.Account])
    []

/-- The call `rand.Intn(n)` of package `math/rand`, which returns a number from 0 up to but
not including `n`: the draw numbered `idx` of the stream `rnd`, reduced below `n`. Every
outcome of the draws is the outcome under some stream. -/
def Intn (rnd : Nat → Nat) (idx n : Nat) : Nat := rnd idx % n

/-- The constant `totalAgents` of `GenerateAgentWorkQueues`. -/
def totalAgents : Nat := 1000000

/-- The value of `targetLargeAgents`, the constant expression
`int(float64(totalAgents) * largeAccountRatio)` with `largeAccountRatio = 0.2`. -/
def targetLargeAgents : Nat := 200000

/-- The inner loop of `GenerateAgentWorkQueues`: the agents of one account, `i` counting from
0; each agent takes one draw for its limit, `rand.Intn(maxLimit-minLimit+1) + minLimit` with
`minLimit = 5` and `maxLimit = 20`. -/
def accountAgentsLoop (rnd : Nat → Nat) (accountName : String) :
    Nat → Nat → Nat → List AgentNameAndAccount
  | 0, _, _ => []
  | remaining + 1, i, idx =>
    { Name := "agent_" ++ accountName ++ "_" ++ toString (i + 1)
      Account := accountName
      Limit := ((Intn rnd idx (20 - 5 + 1) + 5 : Nat) : Int) } ::
      accountAgentsLoop rnd accountName remaining (i + 1) (idx + 1)

/-- The variable `agentsInThisAccount`: the drawn size, cut down to what is left of the
target. -/
def agentsInThisAccount (rnd : Nat → Nat) (minAgents maxAgents target created idx : Nat) : Nat :=
  if created + (Intn rnd idx (maxAgents - minAgents + 1) + minAgents) > target then
    target - created
  else Intn rnd idx (maxAgents - minAgents + 1) + minAgents

/-- The two outer loops of `GenerateAgentWorkQueues`, which differ in their constants only:
the prefix of the account names, `label`, and the least and greatest size of an account. The
result holds the agents created, one list per account, and the values of `accountID` and of
the number of draws taken when the loop ends. -/
def accountsLoop (rnd : Nat → Nat) (label : String) (minAgents maxAgents : Nat)
    (hmin : 0 < minAgents) (target : Nat) (created accountID idx : Nat) :
    List (List AgentNameAndAccount) × Nat × Nat :=
  if h : created < target then
    let rest := accountsLoop rnd label minAgents maxAgents hmin target
      (created + agentsInThisAccount rnd minAgents maxAgents target created idx)
      (accountID + 1)
      (idx + 1 + agentsInThisAccount rnd minAgents maxAgents target created idx)
    (accountAgentsLoop rnd (label ++ toString accountID)
        (agentsInThisAccount rnd minAgents maxAgents target created idx) 0 (idx + 1) ::
      rest.1, rest.2)
  else ([], accountID, idx)
termination_by target - created
decreasing_by
  simp only [agentsInThisAccount]
  split_ifs <;> omega

/-- The first loop of `GenerateAgentWorkQueues`: the large accounts. -/
def largeAccounts (rnd : Nat → Nat) : List (List AgentNameAndAccount) × Nat × Nat :=
  accountsLoop rnd "large_account_" 1000 5000 (by decide) targetLargeAgents 0 1 0

/-- The second loop of `GenerateAgentWorkQueues`: the small accounts; `accountID` and the
draws go on from where the first loop ended. -/
def smallAccounts (rnd : Nat → Nat) : List (List AgentNameAndAccount) × Nat × Nat :=
  accountsLoop rnd "small_account_" 10 100 (by decide) (totalAgents - targetLargeAgents) 0
    (largeAccounts rnd).2.1 (largeAccounts rnd).2.2

/-- The function `GenerateAgentWorkQueues` of package `loadtest`. The call `rand.Shuffle` of
package `math/rand` is the parameter `shuffle`, which rearranges the list. -/
def GenerateAgentWorkQueues (rnd : Nat → Nat)
    (shuffle : List AgentNameAndAccount → List AgentNameAndAccount) :
    List AgentNameAndAccount :=
  shuffle ((largeAccounts rnd).1.flatten ++ (smallAccounts rnd).1.flatten)

/-! ## Notions used by the statements -/

/-- The eligibility test of the source: the queue length differs from the limit. -/
def notAtLimit (r : WorkQueueRef) : Bool := decide ((r.2.Queue.length : Int) ≠ r.2.Limit)

/-- The non-nil pointers among the gathered ones. -/
def nonNil (l : List (String × Option AgentWorkQueue)) : List WorkQueueRef :=
  l.filterMap (fun p => p.2.map (fun wq => (p.1, wq)))

/-- The least queue length met by the loop of `getWorkqueuesWithLeastAmountOfWork`. -/
def minLoad : List WorkQueueRef → Nat → Nat
  | [], lowest => lowest
  | wq :: rest, lowest => minLoad rest (min lowest wq.2.Queue.length)

/-- The state that `assignToWorkQueue` leaves when it writes through the pointer `key`. -/
def commit (s : AssignmentSystem) (key conversationID : String) (now : Int) :
    AssignmentSystem :=
  { s with
    agentAssignments :=
      mapModify (pushConversation conversationID now) s.agentAssignments key }

/-- The agents listed under an account in the account index. -/
def members (s : AssignmentSystem) (account : String) : List String :=
  (mapGet s.accountAgents account).getD []

/-- The capacity invariant: every agent holds at most `Limit` conversations. -/
def CapacityInv (s : AssignmentSystem) : Prop :=
  ∀ p ∈ s.agentAssignments, (p.2.Queue.length : Int) ≤ p.2.Limit

/-- The registry is consistent: every name listed under an account reads, in the agent map,
a work queue of that account carrying that name. -/
def Consistent (s : AssignmentSystem) : Prop :=
  ∀ (account k : String), k ∈ members s account →
    ∃ wq, mapGet s.agentAssignments k = some wq ∧ wq.Account = account ∧ wq.AgentName = k

/-- An eligible agent of an account, in the words of the glossary: it is listed under the
account and its queue length is below its limit. -/
def Eligible (s : AssignmentSystem) (account k : String) (wq : AgentWorkQueue) : Prop :=
  k ∈ members s account ∧ mapGet s.agentAssignments k = some wq ∧
    (wq.Queue.length : Int) < wq.Limit

/-- The outcomes of `assign` on the items of a batch, each taken on the state left by the item
before it. -/
def itemResults (clk : Nat → Int) :
    AssignmentSystem → Nat → List ConversationToAssign → Option (List AssignOutcome)
  | _, _, [] => some []
  | s, tick, c :: rest =>
    match assign clk s tick c with
    | none => none
    | some r => (itemResults clk r.sys r.tick rest).map (fun rs => r :: rs)

/-- The number of outcomes that carry an error. -/
def countFailed (rs : List AssignOutcome) : Nat :=
  (rs.filter (fun r => r.err.isSome)).length

/-- One step of the batch as the specification words it: `assign` is applied to the item on
the state left by the previous item; the winning name is kept when the item succeeds, and a
failed item leaves no placeholder. -/
def sequentialStep (clk : Nat → Int) (acc : Option (AssignmentSystem × Nat × List String))
    (c : ConversationToAssign) : Option (AssignmentSystem × Nat × List String) :=
  match acc with
  | none => none
  | some (s, tick, names) =>
    match assign clk s tick c with
    | none => none
    | some r => some (r.sys, r.tick, if r.err = none then names ++ [r.agent] else names)

/-- The batch as the specification words it: the fold of `assign` over the items in the given
order. -/
def sequentialAssign (clk : Nat → Int) (s : AssignmentSystem) (tick : Nat)
    (batch : List ConversationToAssign) : Option (AssignmentSystem × Nat × List String) :=
  batch.foldl (sequentialStep clk) (some (s, tick, []))

/-- The work queue that `NewAssignmentSystem` allocates for a roster entry. -/
def freshQueue (e : AgentNameAndAccount) : AgentWorkQueue :=
  { AgentName := e.Name, Limit := e.Limit, LastAssignmentTime := none, Queue := [],
    Account := e.Account }

/-- The queue length read under a name; 0 for a name that is not registered. -/
def queueLen (s : AssignmentSystem) (k : String) : Nat :=
  match mapGet s.agentAssignments k with
  | some wq => wq.Queue.length
  | none => 0

/-- The room left to the agent read under a name: its limit minus its queue length. -/
def room (s : AssignmentSystem) (k : String) : Int :=
  match mapGet s.agentAssignments k with
  | some wq => wq.Limit - wq.Queue.length
  | none => 0

/-- The capacity left to an account: the sum over its listed agents of limit minus queue
length. -/
def capacityLeft (s : AssignmentSystem) (account : String) : Int :=
  ((members s account).map (room s)).sum

/-- The clock advances: each reading is strictly later than the readings before it, so every
reading is strictly later than every assignment time recorded before it. -/
def Advancing (clk : Nat → Int) : Prop := ∀ i j : Nat, i < j → clk i < clk j

/-- A registry as `NewAssignmentSystem` and `Assign` leave it when names are unique, limits
are non-negative and the clock advances: it is consistent, within capacity, no name is listed
twice under an account, and every recorded assignment time is earlier than the readings of
the clock from `tick` on. -/
structure Sound (clk : Nat → Int) (s : AssignmentSystem) (tick : Nat) : Prop where
  consistent : Consistent s
  capacity : CapacityInv s
  distinct : ∀ account, (members s account).Nodup
  past : ∀ p ∈ s.agentAssignments, ∀ last, p.2.LastAssignmentTime = some last →
    ∀ t, tick ≤ t → last < clk t

/-- The number of conversations held by the listed agents of an account. -/
def load (s : AssignmentSystem) (account : String) : Nat :=
  ((members s account).map (queueLen s)).sum

/-- The agents of an account are evenly loaded up to `k`: the registry is sound, no listed
agent holds more than `k` conversations, every listed agent has a limit of at least `k`, and
the queue lengths of two listed agents differ by at most one. -/
structure Even (clk : Nat → Int) (s : AssignmentSystem) (tick : Nat) (account : String)
    (k : Nat) : Prop where
  sound : Sound clk s tick
  atMost : ∀ x ∈ members s account, queueLen s x ≤ k
  limits : ∀ x ∈ members s account, ∀ wq, mapGet s.agentAssignments x = some wq →
    (k : Int) ≤ wq.Limit
  balanced : ∀ x ∈ members s account, ∀ y ∈ members s account,
    queueLen s x ≤ queueLen s y + 1

/-- The values of a list in the order of their first occurrence, each kept once. -/
def firstOccurrences : List String → List String
  | [] => []
  | a :: rest => a :: (firstOccurrences rest).filter (fun b => decide (b ≠ a))

/-- The sum of the queue lengths of all agents of the registry. -/
def totalLoad (s : AssignmentSystem) : Nat :=
  (s.agentAssignments.map (fun p => p.2.Queue.length)).sum

/-- A work queue with its conversation identifiers forgotten: the queue keeps its length. -/
def blankQueue (wq : AgentWorkQueue) : AgentWorkQueue :=
  { wq with Queue := List.replicate wq.Queue.length "" }

def blankRef (r : WorkQueueRef) : WorkQueueRef := (r.1, blankQueue r.2)

/-- A registry with the conversation identifiers of all queues forgotten. -/
def blank (s : AssignmentSystem) : AssignmentSystem :=
  { s with agentAssignments := s.agentAssignments.map blankRef }

/-- An item with its conversation identifier forgotten. -/
def blankItem (c : ConversationToAssign) : ConversationToAssign := ⟨"", c.Account⟩

def blankOutcome (r : AssignOutcome) : AssignOutcome := ⟨blank r.sys, r.tick, r.agent, r.err⟩

def blankLoop (st : AssignLoopState) : AssignLoopState :=
  ⟨blank st.sys, st.tick, st.assignedAgents,
    st.failedAssignments.map (fun f => ⟨blankItem f.conversation, f.Err⟩)⟩

def blankBatch (out : BatchOutcome) : BatchOutcome :=
  ⟨blank out.sys, out.tick, out.assignedAgents, out.err⟩

/-! ## Sample inputs -/

/-- A clock that advances by one at each reading. -/
def tickingClock : Nat → Int := fun n => 1000 + n

/-- Two agents of one account, each with limit 1. -/
def pairRoster : List AgentNameAndAccount := [⟨"a1", "X", 1⟩, ⟨"a2", "X", 1⟩]

/-- Three conversations of the account of `pairRoster`. -/
def threeForX : List ConversationToAssign := [⟨"c1", "X"⟩, ⟨"c2", "X"⟩, ⟨"c3", "X"⟩]

/-- The registry after `threeForX` was assigned on `pairRoster` under `tickingClock`. -/
def pairFull : AssignmentSystem :=
  { accountAgents := [("X", ["a1", "a2"])]
    agentAssignments :=
      [("a1", ⟨1, "a1", some 1000, ["c1"], "X"⟩), ("a2", ⟨1, "a2", some 1001, ["c2"], "X"⟩)] }

/-- Agent a1 holds two conversations and a2 one, both of account X with limit 5; a1 was
assigned more recently than a2. -/
def unevenLoad : AssignmentSystem :=
  { accountAgents := [("X", ["a1", "a2"])]
    agentAssignments :=
      [("a1", ⟨5, "a1", some 700, ["e1", "e2"], "X"⟩), ("a2", ⟨5, "a2", some 400, ["e3"], "X"⟩)] }

/-- Two idle agents of account X; a2, listed last, was never assigned. -/
def idlePair : AssignmentSystem :=
  { accountAgents := [("X", ["a1", "a2"])]
    agentAssignments :=
      [("a1", ⟨3, "a1", some 5, [], "X"⟩), ("a2", ⟨3, "a2", none, [], "X"⟩)] }

/-- One agent of account X holding two conversations under limit 1, as left by lowering the
limit of a loaded agent. -/
def overLimit : AssignmentSystem :=
  { accountAgents := [("X", ["a1"])]
    agentAssignments := [("a1", ⟨1, "a1", some 1001, ["c1", "c2"], "X"⟩)] }

/-- One agent of account X with limit -1 that already holds two conversations. -/
def negativeLimit : AssignmentSystem :=
  { accountAgents := [("X", ["a1"])]
    agentAssignments := [("a1", ⟨-1, "a1", some 1001, ["c1", "c2"], "X"⟩)] }

/-- Two agents of one account, each with limit -1. -/
def negativeRoster : List AgentNameAndAccount := [⟨"a1", "X", -1⟩, ⟨"a2", "X", -1⟩]

/-- The registry after two conversations were assigned on `negativeRoster` under `frozenClock`:
both agents hold one conversation, assigned at the instant the clock still shows. -/
def negativePair : AssignmentSystem :=
  { accountAgents := [("X", ["a1", "a2"])]
    agentAssignments :=
      [("a1", ⟨-1, "a1", some 5, ["c1"], "X"⟩), ("a2", ⟨-1, "a2", some 5, ["c2"], "X"⟩)] }

/-- Candidates of queue lengths 3, 1, 2, 1, as in the unit test of the least-load stage. -/
def fourCandidates : List WorkQueueRef :=
  [("w1", ⟨5, "w1", none, ["i1", "i2", "i3"], "X"⟩), ("w2", ⟨5, "w2", none, ["i1"], "X"⟩),
   ("w3", ⟨5, "w3", none, ["i1", "i2"], "X"⟩), ("w4", ⟨5, "w4", none, ["i1"], "X"⟩)]

/-- A roster in which the name a occurs twice, in two accounts and with two limits. -/
def repeatedRoster : List AgentNameAndAccount := [⟨"a", "X", 1⟩, ⟨"b", "X", 2⟩, ⟨"a", "Y", 7⟩]

/-- The roster of the account-isolation test. -/
def threeRoster : List AgentNameAndAccount :=
  [⟨"agent1", "account1", 3⟩, ⟨"agent2", "account2", 3⟩, ⟨"agent3", "account1", 3⟩]

/-- A clock that advances by two at each reading. -/
def steppingClock : Nat → Int := fun n => 1000 + 2 * n

/-- A clock that shows the same instant at every reading. -/
def frozenClock : Nat → Int := fun _ => 5

/-- Two candidates of equal load; the first was assigned at 100, the second at 101. -/
def olderFirst : List WorkQueueRef :=
  [("a1", ⟨5, "a1", some 100, ["e1"], "X"⟩), ("a2", ⟨5, "a2", some 101, ["e2"], "X"⟩)]

/-- Two candidates of equal load, both assigned at 100. -/
def sameInstant : List WorkQueueRef :=
  [("a1", ⟨5, "a1", some 100, ["e1"], "X"⟩), ("a2", ⟨5, "a2", some 100, ["e2"], "X"⟩)]

/-- Two agents of account X below their limit 3, equally loaded, whose recorded assignment
times, 5000 and 6000, are later than the readings of `tickingClock`. -/
def laterStamps : AssignmentSystem :=
  { accountAgents := [("X", ["a1", "a2"])]
    agentAssignments :=
      [("a1", ⟨3, "a1", some 5000, ["e1"], "X"⟩), ("a2", ⟨3, "a2", some 6000, ["e2"], "X"⟩)] }

/-- Two agents of one account, each with limit 2. -/
def roomyRoster : List AgentNameAndAccount := [⟨"a1", "X", 2⟩, ⟨"a2", "X", 2⟩]

/-- The roster of the load-balancing test: three agents of one account with limit 5. -/
def balancedRoster : List AgentNameAndAccount :=
  [⟨"agent1", "account1", 5⟩, ⟨"agent2", "account1", 5⟩, ⟨"agent3", "account1", 5⟩]

/-- Nine conversations of the account of `balancedRoster`. -/
def nineConversations : List ConversationToAssign :=
  [⟨"conv1", "account1"⟩, ⟨"conv2", "account1"⟩, ⟨"conv3", "account1"⟩,
   ⟨"conv4", "account1"⟩, ⟨"conv5", "account1"⟩, ⟨"conv6", "account1"⟩,
   ⟨"conv7", "account1"⟩, ⟨"conv8", "account1"⟩, ⟨"conv9", "account1"⟩]

/-- Two candidates of equal load whose assignment times, 5000 and 6000, are later than the
readings of `tickingClock`. -/
def laterCandidates : List WorkQueueRef :=
  [("a1", ⟨3, "a1", some 5000, ["e1"], "X"⟩), ("a2", ⟨3, "a2", some 6000, ["e2"], "X"⟩)]

/-- The registry after two conversations were assigned on `roomyRoster` under `frozenClock`:
both agents hold one conversation, assigned at the instant the clock still shows. -/
def stalePair : AssignmentSystem :=
  { accountAgents := [("X", ["a1", "a2"])]
    agentAssignments :=
      [("a1", ⟨2, "a1", some 5, ["c1"], "X"⟩), ("a2", ⟨2, "a2", some 5, ["c2"], "X"⟩)] }

/-- The agents of the unit test of `GetUniqueAccounts`. -/
def fiveAgents : List AgentNameAndAccount :=
  [⟨"agent1", "accountA", 10⟩, ⟨"agent2", "accountB", 15⟩, ⟨"agent3", "accountA", 20⟩,
   ⟨"agent4", "accountC", 5⟩, ⟨"agent5", "accountB", 10⟩]

/-- Three conversations of account X with other identifiers than those of `threeForX`. -/
def otherThreeForX : List ConversationToAssign := [⟨"x9", "X"⟩, ⟨"", "X"⟩, ⟨"x9", "X"⟩]

/-- The draws in which every call of `rand.Intn` returns 1: every account is drawn one agent
above the least size, and every limit is 6. -/
def onesDrawn : Nat → Nat := fun _ => 1

/-! ## Facts about Go maps -/

theorem mapGet_mem {V : Type} (m : GoMap V) (k : String) (v : V)
    (h : mapGet m k = some v) : (k, v) ∈ m := by
  induction m with
  | nil => simp [mapGet] at h
  | cons p rest ih =>
    obtain ⟨k', v'⟩ := p
    by_cases hk : k' = k
    · subst hk
      simp [mapGet] at h
      simp [h]
    · simp [mapGet, hk] at h
      exact List.mem_cons_of_mem _ (ih h)

theorem mapGet_mapModify_self {V : Type} (f : V → V) (m : GoMap V) (k : String) :
    mapGet (mapModify f m k) k = (mapGet m k).map f := by
  induction m with
  | nil => simp [mapGet, mapModify]
  | cons p rest ih =>
    obtain ⟨k', v'⟩ := p
    by_cases hk : k' = k
    · simp [mapGet, mapModify, hk]
    · simp [mapGet, mapModify, hk, ih]

theorem mapGet_mapModify_ne {V : Type} (f : V → V) (m : GoMap V) (k j : String)
    (hj : j ≠ k) : mapGet (mapModify f m k) j = mapGet m j := by
  induction m with
  | nil => simp [mapGet, mapModify]
  | cons p rest ih =>
    obtain ⟨k', v'⟩ := p
    by_cases hk : k' = k
    · subst hk
      have : ¬ k' = j := fun h => hj h.symm
      simp [mapGet, mapModify, this]
    · by_cases hkj : k' = j
      · subst hkj
        simp [mapGet, mapModify, hk]
      · simp [mapGet, mapModify, hk, hkj, ih]

/-- An entry of a map after a write through `k` is an old entry, or the image of the object
that `k` reads. -/
theorem mem_mapModify {V : Type} (f : V → V) (m : GoMap V) (k : String) (p : String × V)
    (h : p ∈ mapModify f m k) :
    p ∈ m ∨ ∃ v, mapGet m k = some v ∧ p = (k, f v) := by
  induction m with
  | nil => simp [mapModify] at h
  | cons q rest ih =>
    obtain ⟨k', v'⟩ := q
    by_cases hk : k' = k
    · subst hk
      simp only [mapModify, if_true, List.mem_cons] at h
      rcases h with h | h
      · right
        exact ⟨v', by simp [mapGet], h⟩
      · left
        exact List.mem_cons_of_mem _ h
    · simp only [mapModify, hk, if_false, List.mem_cons] at h
      rcases h with h | h
      · left
        simp [h]
      · rcases ih h with h1 | ⟨v, hv, hp⟩
        · left
          exact List.mem_cons_of_mem _ h1
        · right
          exact ⟨v, by simp [mapGet, hk, hv], hp⟩

theorem mapModify_keys {V : Type} (f : V → V) (m : GoMap V) (k : String) :
    (mapModify f m k).map Prod.fst = m.map Prod.fst := by
  induction m with
  | nil => simp [mapModify]
  | cons q rest ih =>
    obtain ⟨k', v'⟩ := q
    by_cases hk : k' = k
    · simp [mapModify, hk]
    · simp [mapModify, hk, ih]

theorem mem_mapSet {V : Type} (m : GoMap V) (k : String) (v : V) (p : String × V)
    (h : p ∈ mapSet m k v) : p ∈ m ∨ p = (k, v) := by
  induction m with
  | nil =>
    simp [mapSet] at h
    exact Or.inr h
  | cons q rest ih =>
    obtain ⟨k', v'⟩ := q
    by_cases hk : k' = k
    · subst hk
      simp only [mapSet, if_true, List.mem_cons] at h
      rcases h with h | h
      · exact Or.inr h
      · exact Or.inl (List.mem_cons_of_mem _ h)
    · simp only [mapSet, hk, if_false, List.mem_cons] at h
      rcases h with h | h
      · left
        simp [h]
      · rcases ih h with h1 | h1
        · exact Or.inl (List.mem_cons_of_mem _ h1)
        · exact Or.inr h1

theorem mapGet_mapSet_self {V : Type} (m : GoMap V) (k : String) (v : V) :
    mapGet (mapSet m k v) k = some v := by
  induction m with
  | nil => simp [mapGet, mapSet]
  | cons q rest ih =>
    obtain ⟨k', v'⟩ := q
    by_cases hk : k' = k
    · simp [mapGet, mapSet, hk]
    · simp [mapGet, mapSet, hk, ih]

theorem mapGet_mapSet_ne {V : Type} (m : GoMap V) (k j : String) (v : V) (hj : j ≠ k) :
    mapGet (mapSet m k v) j = mapGet m j := by
  induction m with
  | nil =>
    have : ¬ k = j := fun h => hj h.symm
    simp [mapGet, mapSet, this]
  | cons q rest ih =>
    obtain ⟨k', v'⟩ := q
    by_cases hk : k' = k
    · subst hk
      have : ¬ k' = j := fun h => hj h.symm
      simp [mapGet, mapSet, this]
    · by_cases hkj : k' = j
      · subst hkj
        simp [mapGet, mapSet, hk]
      · simp [mapGet, mapSet, hk, hkj, ih]

/-! ## Facts about the selector -/

theorem filterAvailable_eq (l : List (String × Option AgentWorkQueue)) (out : List WorkQueueRef)
    (h : filterAvailable l = some out) :
    (∀ p ∈ l, p.2 ≠ none) ∧ out = (nonNil l).filter notAtLimit := by
  induction l generalizing out with
  | nil =>
    simp [filterAvailable] at h
    subst h
    simp [nonNil]
  | cons p rest ih =>
    obtain ⟨k, o⟩ := p
    cases o with
    | none => simp [filterAvailable] at h
    | some wq =>
      simp only [filterAvailable] at h
      cases hr : filterAvailable rest with
      | none => simp [hr] at h
      | some tl =>
        obtain ⟨h1, h2⟩ := ih tl hr
        rw [hr] at h
        refine ⟨?_, ?_⟩
        · intro p hp
          rcases List.mem_cons.mp hp with hp | hp
          · simp [hp]
          · exact h1 p hp
        · by_cases hc : (wq.Queue.length : Int) = wq.Limit
          · simp only [hc, if_true, Option.some.injEq] at h
            simp [nonNil, List.filterMap_cons, List.filter_cons, notAtLimit, hc, ← h, h2]
          · simp only [hc, if_false, Option.some.injEq] at h
            simp [nonNil, List.filterMap_cons, List.filter_cons, notAtLimit, hc, ← h, h2]

theorem filterAvailable_total (l : List (String × Option AgentWorkQueue))
    (h : ∀ p ∈ l, p.2 ≠ none) : ∃ out, filterAvailable l = some out := by
  induction l with
  | nil => exact ⟨[], rfl⟩
  | cons p rest ih =>
    obtain ⟨k, o⟩ := p
    cases o with
    | none => exact absurd rfl (h (k, none) (List.mem_cons_self _ _))
    | some wq =>
      obtain ⟨tl, htl⟩ := ih (fun p hp => h p (List.mem_cons_of_mem _ hp))
      by_cases hc : (wq.Queue.length : Int) = wq.Limit
      · exact ⟨tl, by simp [filterAvailable, htl, hc]⟩
      · exact ⟨(k, wq) :: tl, by simp [filterAvailable, htl, hc]⟩

/-- The members of the list that `getEligibleAgentWorkQueues` returns. -/
theorem mem_getEligible (accountAgents : GoMap (List String))
    (agentAssignments : GoMap AgentWorkQueue) (account : String) (elig : List WorkQueueRef)
    (h : getEligibleAgentWorkQueues accountAgents agentAssignments account = some elig)
    (r : WorkQueueRef) :
    r ∈ elig ↔ r.1 ∈ (mapGet accountAgents account).getD [] ∧
      mapGet agentAssignments r.1 = some r.2 ∧ (r.2.Queue.length : Int) ≠ r.2.Limit := by
  obtain ⟨_, h2⟩ := filterAvailable_eq _ _ h
  obtain ⟨k, wq⟩ := r
  rw [h2]
  simp only [List.mem_filter, nonNil, List.mem_filterMap, List.mem_map, notAtLimit,
    decide_eq_true_eq]
  constructor
  · rintro ⟨⟨p, ⟨a, ha, rfl⟩, hp⟩, hne⟩
    simp only [Option.map_eq_some'] at hp
    obtain ⟨w, hw, heq⟩ := hp
    simp only [Prod.mk.injEq] at heq
    obtain ⟨rfl, rfl⟩ := heq
    exact ⟨ha, hw, hne⟩
  · rintro ⟨ha, hw, hne⟩
    exact ⟨⟨(k, mapGet agentAssignments k), ⟨k, ha, rfl⟩, by simp [hw]⟩, hne⟩

theorem minLoad_le_init (l : List WorkQueueRef) (n : Nat) : minLoad l n ≤ n := by
  induction l generalizing n with
  | nil => simp [minLoad]
  | cons wq rest ih =>
    simp only [minLoad]
    exact le_trans (ih _) (min_le_left _ _)

theorem minLoad_le_mem (l : List WorkQueueRef) (n : Nat) (wq : WorkQueueRef) (h : wq ∈ l) :
    minLoad l n ≤ wq.2.Queue.length := by
  induction l generalizing n with
  | nil => simp at h
  | cons x rest ih =>
    simp only [minLoad]
    rcases List.mem_cons.mp h with h | h
    · subst h
      exact le_trans (minLoad_le_init _ _) (min_le_right _ _)
    · exact ih _ h

theorem leastLoop_eq (l : List WorkQueueRef) (lowest : Nat) (found : List WorkQueueRef) :
    leastLoop l lowest found =
      (if minLoad l lowest < lowest then [] else found) ++
        l.filter (fun wq => decide (wq.2.Queue.length = minLoad l lowest)) := by
  induction l generalizing lowest found with
  | nil => simp [leastLoop, minLoad]
  | cons wq rest ih =>
    simp only [leastLoop, minLoad, List.filter_cons]
    by_cases h1 : wq.2.Queue.length < lowest
    · have hmin : min lowest wq.2.Queue.length = wq.2.Queue.length := by omega
      have hle := minLoad_le_init rest wq.2.Queue.length
      rw [if_pos h1, ih]
      simp only [hmin]
      have h3 : minLoad rest wq.2.Queue.length < lowest := by omega
      rw [if_pos h3]
      by_cases h4 : minLoad rest wq.2.Queue.length < wq.2.Queue.length
      · have : ¬ wq.2.Queue.length = minLoad rest wq.2.Queue.length := by omega
        simp [h4, this]
      · have : wq.2.Queue.length = minLoad rest wq.2.Queue.length := by omega
        simp [h4, ← this]
    · rw [if_neg h1]
      by_cases h2 : wq.2.Queue.length = lowest
      · have hmin : min lowest wq.2.Queue.length = lowest := by omega
        have hle := minLoad_le_init rest lowest
        rw [if_pos h2, ih]
        simp only [hmin]
        by_cases h4 : minLoad rest lowest < lowest
        · have : ¬ wq.2.Queue.length = minLoad rest lowest := by omega
          simp [h4, this]
        · have : wq.2.Queue.length = minLoad rest lowest := by omega
          simp [h4, ← this, h1]
      · have hmin : min lowest wq.2.Queue.length = lowest := by omega
        have hle := minLoad_le_init rest lowest
        rw [if_neg h2, ih]
        simp only [hmin]
        have : ¬ wq.2.Queue.length = minLoad rest lowest := by omega
        simp [this]

/-- The least-load stage keeps the elements of least queue length, in order. -/
theorem getWorkqueuesWithLeastAmountOfWork_eq (first : WorkQueueRef) (rest : List WorkQueueRef) :
    getWorkqueuesWithLeastAmountOfWork (first :: rest) =
      (first :: rest).filter
        (fun wq => decide (wq.2.Queue.length = minLoad (first :: rest) first.2.Queue.length)) := by
  simp only [getWorkqueuesWithLeastAmountOfWork]
  rw [leastLoop_eq]
  simp

theorem mem_least (l : List WorkQueueRef) (w : WorkQueueRef)
    (h : w ∈ getWorkqueuesWithLeastAmountOfWork l) :
    w ∈ l ∧ ∀ e ∈ l, w.2.Queue.length ≤ e.2.Queue.length := by
  cases l with
  | nil => simp [getWorkqueuesWithLeastAmountOfWork] at h
  | cons first rest =>
    rw [getWorkqueuesWithLeastAmountOfWork_eq, List.mem_filter] at h
    obtain ⟨h1, h2⟩ := h
    simp only [decide_eq_true_eq] at h2
    refine ⟨h1, fun e he => ?_⟩
    rw [h2]
    exact minLoad_le_mem _ _ e he

/-- A least-loaded element of the list is kept by the least-load stage. -/
theorem least_of_minimal (l : List WorkQueueRef) (w : WorkQueueRef) (hw : w ∈ l)
    (hmin : ∀ e ∈ l, w.2.Queue.length ≤ e.2.Queue.length) :
    w ∈ getWorkqueuesWithLeastAmountOfWork l := by
  cases l with
  | nil => simp at hw
  | cons first rest =>
    rw [getWorkqueuesWithLeastAmountOfWork_eq, List.mem_filter]
    refine ⟨hw, ?_⟩
    simp only [decide_eq_true_eq]
    have h1 := minLoad_le_mem (first :: rest) first.2.Queue.length w hw
    have h2 : ∀ (l : List WorkQueueRef) (n : Nat), w.2.Queue.length ≤ n →
        (∀ e ∈ l, w.2.Queue.length ≤ e.2.Queue.length) → w.2.Queue.length ≤ minLoad l n := by
      intro l
      induction l with
      | nil => intro n hn _; simpa [minLoad] using hn
      | cons x xs ih =>
        intro n hn hall
        simp only [minLoad]
        apply ih
        · exact le_min hn (hall x (List.mem_cons_self _ _))
        · exact fun e he => hall e (List.mem_cons_of_mem _ he)
    have h3 := h2 (first :: rest) first.2.Queue.length (hmin first (List.mem_cons_self _ _)) hmin
    omega

theorem least_ne_nil (l : List WorkQueueRef) (h : l ≠ []) :
    getWorkqueuesWithLeastAmountOfWork l ≠ [] := by
  cases l with
  | nil => exact absurd rfl h
  | cons first rest =>
    have hall : ∀ (l : List WorkQueueRef) (n : Nat), n = minLoad l n ∨
        ∃ e ∈ l, e.2.Queue.length = minLoad l n := by
      intro l
      induction l with
      | nil => intro n; left; simp [minLoad]
      | cons x xs ih =>
        intro n
        simp only [minLoad]
        rcases ih (min n x.2.Queue.length) with h1 | ⟨e, he, h1⟩
        · rcases Nat.le_total n x.2.Queue.length with h2 | h2
          · left
            rw [Nat.min_eq_left h2] at h1 ⊢
            exact h1
          · right
            refine ⟨x, List.mem_cons_self _ _, ?_⟩
            rw [Nat.min_eq_right h2] at h1 ⊢
            exact h1
        · exact Or.inr ⟨e, List.mem_cons_of_mem _ he, h1⟩
    rw [getWorkqueuesWithLeastAmountOfWork_eq]
    intro hnil
    have hnone := List.filter_eq_nil_iff.mp hnil
    rcases hall (first :: rest) first.2.Queue.length with h1 | ⟨e, he, h1⟩
    · exact absurd (hnone first (List.mem_cons_self _ _)) (by simp [← h1])
    · exact absurd (hnone e he) (by simp [h1])

theorem leastRecentLoop_mem (clk : Nat → Int) (l : List WorkQueueRef) (tick : Nat) (hi : Int)
    (best : Option WorkQueueRef) (w : WorkQueueRef)
    (h : (leastRecentLoop clk l tick hi best).1 = some w) : w ∈ l ∨ best = some w := by
  induction l generalizing tick hi best with
  | nil => exact Or.inr (by simpa [leastRecentLoop] using h)
  | cons x rest ih =>
    simp only [leastRecentLoop] at h
    cases hx : x.2.LastAssignmentTime with
    | none =>
      simp only [hx, Option.some.injEq] at h
      exact Or.inl (by simp [h])
    | some last =>
      simp only [hx] at h
      split at h
      · rcases ih _ _ _ h with h1 | h1
        · exact Or.inl (List.mem_cons_of_mem _ h1)
        · exact Or.inl (by simp at h1; simp [h1])
      · rcases ih _ _ _ h with h1 | h1
        · exact Or.inl (List.mem_cons_of_mem _ h1)
        · exact Or.inr h1

/-- When some candidate was never assigned, the tie-break returns a never-assigned candidate. -/
theorem leastRecentLoop_absent (clk : Nat → Int) (l : List WorkQueueRef) (tick : Nat) (hi : Int)
    (best : Option WorkQueueRef) (h : ∃ x ∈ l, x.2.LastAssignmentTime = none) :
    ∃ w, (leastRecentLoop clk l tick hi best).1 = some w ∧ w ∈ l ∧
      w.2.LastAssignmentTime = none := by
  induction l generalizing tick hi best with
  | nil => simp at h
  | cons x rest ih =>
    cases hx : x.2.LastAssignmentTime with
    | none => exact ⟨x, by simp [leastRecentLoop, hx], List.mem_cons_self _ _, hx⟩
    | some last =>
      have hrest : ∃ y ∈ rest, y.2.LastAssignmentTime = none := by
        obtain ⟨y, hy, hyn⟩ := h
        rcases List.mem_cons.mp hy with hy | hy
        · subst hy
          rw [hx] at hyn
          exact absurd hyn (by simp)
        · exact ⟨y, hy, hyn⟩
      simp only [leastRecentLoop, hx]
      split
      · obtain ⟨w, h1, h2, h3⟩ := ih (tick + 2) (timeSince (clk (tick + 1)) last) (some x) hrest
        exact ⟨w, h1, List.mem_cons_of_mem _ h2, h3⟩
      · obtain ⟨w, h1, h2, h3⟩ := ih (tick + 1) hi best hrest
        exact ⟨w, h1, List.mem_cons_of_mem _ h2, h3⟩

/-- The two ways in which `assign` returns: with the error, the state untouched; or with a
winner taken from the least-loaded eligible work queues, the conversation committed to it. -/
theorem assign_cases (clk : Nat → Int) (s : AssignmentSystem) (tick : Nat)
    (c : ConversationToAssign) (r : AssignOutcome) (h : assign clk s tick c = some r) :
    ∃ elig, getEligibleAgentWorkQueues s.accountAgents s.agentAssignments c.Account = some elig ∧
      ((elig = [] ∧ r = ⟨s, tick, "", some GoError.noAvailableAgents⟩) ∨
       (∃ w t, w ∈ getWorkqueuesWithLeastAmountOfWork elig ∧
          ((∃ x ∈ getWorkqueuesWithLeastAmountOfWork elig, x.2.LastAssignmentTime = none) →
            w.2.LastAssignmentTime = none) ∧
          r = ⟨commit s w.1 c.ConversationID (clk t), t + 1, w.2.AgentName, none⟩)) := by
  unfold assign at h
  cases he : getEligibleAgentWorkQueues s.accountAgents s.agentAssignments c.Account with
  | none => simp [he] at h
  | some elig =>
    refine ⟨elig, rfl, ?_⟩
    simp only [he] at h
    by_cases h0 : elig.length = 0
    · left
      simp only [h0, if_true, Option.some.injEq] at h
      exact ⟨List.length_eq_zero.mp h0, h.symm⟩
    · right
      simp only [h0, if_false] at h
      by_cases h1 : (getWorkqueuesWithLeastAmountOfWork elig).length = 1
      · simp only [h1, if_true] at h
        obtain ⟨w, hw⟩ := List.length_eq_one.mp h1
        rw [hw] at h
        simp only [List.head?_cons, assignToWorkQueue, Option.some.injEq] at h
        refine ⟨w, tick, by simp [hw], ?_, h.symm⟩
        rintro ⟨x, hx, hxn⟩
        rw [hw] at hx
        simp only [List.mem_singleton] at hx
        rw [← hx]
        exact hxn
      · simp only [h1, if_false] at h
        cases hb : getWorkQueueWithTheLeastRecentAssignment clk tick
            (getWorkqueuesWithLeastAmountOfWork elig) with
        | mk best t =>
          rw [hb] at h
          cases best with
          | none => simp [assignToWorkQueue] at h
          | some w =>
            simp only [assignToWorkQueue, Option.some.injEq] at h
            have hfst : (leastRecentLoop clk (getWorkqueuesWithLeastAmountOfWork elig)
                tick 0 none).1 = some w := by
              have := congrArg Prod.fst hb
              simpa [getWorkQueueWithTheLeastRecentAssignment] using this
            refine ⟨w, t, ?_, ?_, h.symm⟩
            · rcases leastRecentLoop_mem _ _ _ _ _ _ hfst with hm | hm
              · exact hm
              · simp at hm
            · intro hx
              obtain ⟨w', h1', _, h3'⟩ := leastRecentLoop_absent clk _ tick 0 none hx
              rw [hfst] at h1'
              simp only [Option.some.injEq] at h1'
              rw [h1']
              exact h3'

/-- A successful `assign` commits the conversation to a listed, registered work queue that is
not at its limit and is least loaded among such work queues of the account. -/
theorem assign_winner (clk : Nat → Int) (s : AssignmentSystem) (tick : Nat)
    (c : ConversationToAssign) (r : AssignOutcome) (h : assign clk s tick c = some r)
    (hok : r.err = none) :
    ∃ (w : WorkQueueRef) (t : Nat), w.1 ∈ members s c.Account ∧
      mapGet s.agentAssignments w.1 = some w.2 ∧
      (w.2.Queue.length : Int) ≠ w.2.Limit ∧
      (∀ k ∈ members s c.Account, ∀ wq, mapGet s.agentAssignments k = some wq →
        (wq.Queue.length : Int) ≠ wq.Limit → w.2.Queue.length ≤ wq.Queue.length) ∧
      r = ⟨commit s w.1 c.ConversationID (clk t), t + 1, w.2.AgentName, none⟩ := by
  obtain ⟨elig, he, hcase⟩ := assign_cases clk s tick c r h
  rcases hcase with ⟨_, hr⟩ | ⟨w, t, hw, _, hr⟩
  · rw [hr] at hok
    simp at hok
  · obtain ⟨hmem, hmin⟩ := mem_least elig w hw
    obtain ⟨h1, h2, h3⟩ := (mem_getEligible _ _ _ elig he w).mp hmem
    refine ⟨w, t, h1, h2, h3, ?_, hr⟩
    intro k hk wq hget hne
    exact hmin (k, wq) ((mem_getEligible _ _ _ elig he (k, wq)).mpr ⟨hk, hget, hne⟩)

/-- A failed `assign` returns the empty name and leaves the state and the clock as they were. -/
theorem assign_failed (clk : Nat → Int) (s : AssignmentSystem) (tick : Nat)
    (c : ConversationToAssign) (r : AssignOutcome) (h : assign clk s tick c = some r)
    (e : GoError) (herr : r.err = some e) :
    r = ⟨s, tick, "", some GoError.noAvailableAgents⟩ := by
  obtain ⟨elig, _, hcase⟩ := assign_cases clk s tick c r h
  rcases hcase with ⟨_, hr⟩ | ⟨w, t, _, _, hr⟩
  · exact hr
  · rw [hr] at herr
    simp at herr

theorem commit_capacity (s : AssignmentSystem) (w : WorkQueueRef) (id : String) (now : Int)
    (hinv : CapacityInv s) (hget : mapGet s.agentAssignments w.1 = some w.2)
    (hne : (w.2.Queue.length : Int) ≠ w.2.Limit) : CapacityInv (commit s w.1 id now) := by
  intro p hp
  rcases mem_mapModify _ _ _ _ hp with h1 | ⟨v, hv, rfl⟩
  · exact hinv p h1
  · rw [hget] at hv
    simp only [Option.some.injEq] at hv
    subst hv
    have := hinv _ (mapGet_mem _ _ _ hget)
    simp only [pushConversation, List.length_append, List.length_singleton, Nat.cast_add,
      Nat.cast_one]
    simp only at this
    omega

theorem assign_capacity (clk : Nat → Int) (s : AssignmentSystem) (tick : Nat)
    (c : ConversationToAssign) (r : AssignOutcome) (h : assign clk s tick c = some r)
    (hinv : CapacityInv s) : CapacityInv r.sys := by
  cases herr : r.err with
  | some e =>
    rw [assign_failed clk s tick c r h e herr]
    exact hinv
  | none =>
    obtain ⟨w, t, _, hget, hne, _, hr⟩ := assign_winner clk s tick c r h herr
    rw [hr]
    exact commit_capacity s w _ _ hinv hget hne

theorem assignLoop_capacity (clk : Nat → Int) (batch : List ConversationToAssign)
    (st st' : AssignLoopState) (h : assignLoop clk st batch = some st')
    (hinv : CapacityInv st.sys) : CapacityInv st'.sys := by
  induction batch generalizing st with
  | nil =>
    simp only [assignLoop, Option.some.injEq] at h
    rw [← h]
    exact hinv
  | cons c rest ih =>
    simp only [assignLoop] at h
    cases ha : assign clk st.sys st.tick c with
    | none => simp [ha] at h
    | some r =>
      have hr := assign_capacity clk _ _ c r ha hinv
      simp only [ha] at h
      cases herr : r.err with
      | some e =>
        simp only [herr] at h
        exact ih _ h hr
      | none =>
        simp only [herr] at h
        exact ih _ h hr

theorem Assign_capacity (clk : Nat → Int) (s : AssignmentSystem) (tick : Nat)
    (batch : List ConversationToAssign) (out : BatchOutcome)
    (h : Assign clk s tick batch = some out) (hinv : CapacityInv s) : CapacityInv out.sys := by
  unfold Assign at h
  cases hl : assignLoop clk ⟨s, tick, [], []⟩ batch with
  | none => simp [hl] at h
  | some st =>
    simp only [hl, Option.some.injEq] at h
    rw [← h]
    exact assignLoop_capacity clk batch _ st hl hinv

theorem runBatches_capacity (clk : Nat → Int) (batches : List (List ConversationToAssign))
    (s : AssignmentSystem) (tick : Nat) (res : AssignmentSystem × Nat)
    (h : runBatches clk s tick batches = some res) (hinv : CapacityInv s) :
    CapacityInv res.1 := by
  induction batches generalizing s tick with
  | nil =>
    simp only [runBatches, Option.some.injEq] at h
    rw [← h]
    exact hinv
  | cons b rest ih =>
    simp only [runBatches] at h
    cases ha : Assign clk s tick b with
    | none => simp [ha] at h
    | some out =>
      simp only [ha] at h
      exact ih _ _ h (Assign_capacity clk s tick b out ha hinv)

/-- The work queue that `NewAssignmentSystem` allocates for a roster entry. -/
theorem foldl_newStep_agents (initData : List AgentNameAndAccount) (s : AssignmentSystem)
    (p : String × AgentWorkQueue) (hp : p ∈ (initData.foldl newStep s).agentAssignments) :
    p ∈ s.agentAssignments ∨
      ∃ e ∈ initData, p = (e.Name, ⟨e.Limit, e.Name, none, [], e.Account⟩) := by
  induction initData generalizing s with
  | nil => exact Or.inl hp
  | cons e rest ih =>
    simp only [List.foldl_cons] at hp
    rcases ih _ hp with h1 | ⟨e', he', h1⟩
    · simp only [newStep] at h1
      rcases mem_mapSet _ _ _ _ h1 with h2 | h2
      · exact Or.inl h2
      · exact Or.inr ⟨e, List.mem_cons_self _ _, h2⟩
    · exact Or.inr ⟨e', List.mem_cons_of_mem _ he', h1⟩

theorem new_capacity (initData : List AgentNameAndAccount)
    (hlim : ∀ e ∈ initData, 0 ≤ e.Limit) : CapacityInv (NewAssignmentSystem initData) := by
  intro p hp
  rcases foldl_newStep_agents initData _ p hp with h1 | ⟨e, he, rfl⟩
  · simp at h1
  · simpa using hlim e he

/-! ## Capacity -/

/-- C1, the capacity invariant. For every roster whose limits are all non-negative, after any
sequence of `Assign` calls on the system built by `NewAssignmentSystem` every agent has
`len(Queue) <= Limit`; and from such a state every successful `assign` appends to a work
queue whose length was strictly below its limit and leaves the invariant in force. -/
theorem capacity_invariant (initData : List AgentNameAndAccount)
    (hlim : ∀ e ∈ initData, 0 ≤ e.Limit) (clk : Nat → Int) (tick : Nat)
    (batches : List (List ConversationToAssign)) (res : AssignmentSystem × Nat)
    (hrun : runBatches clk (NewAssignmentSystem initData) tick batches = some res) :
    CapacityInv res.1 ∧
      ∀ (c : ConversationToAssign) (r : AssignOutcome),
        assign clk res.1 res.2 c = some r → r.err = none →
          CapacityInv r.sys ∧
            ∃ (w : WorkQueueRef) (t : Nat), mapGet res.1.agentAssignments w.1 = some w.2 ∧
              (w.2.Queue.length : Int) < w.2.Limit ∧
              r.sys = commit res.1 w.1 c.ConversationID (clk t) := by
  have hinv := runBatches_capacity clk batches _ tick res hrun (new_capacity initData hlim)
  refine ⟨hinv, fun c r ha hok => ⟨assign_capacity clk _ _ c r ha hinv, ?_⟩⟩
  obtain ⟨w, t, _, hget, hne, _, hr⟩ := assign_winner clk _ _ c r ha hok
  refine ⟨w, t, hget, ?_, by rw [hr]⟩
  have := hinv _ (mapGet_mem _ _ _ hget)
  simp only at this
  omega

theorem capacity_invariant_witness : CapacityInv pairFull :=
  (capacity_invariant pairRoster (by decide) tickingClock 0 [threeForX] (pairFull, 2)
    (by rfl)).1

/-! ## Construction -/

/-- The membership lists after one roster entry was registered. -/
theorem members_newStep (s : AssignmentSystem) (e : AgentNameAndAccount) (account : String) :
    members (newStep s e) account =
      if account = e.Account then members s account ++ [e.Name] else members s account := by
  by_cases ha : account = e.Account
  · subst ha
    simp only [members, newStep, if_true]
    cases hg : mapGet s.accountAgents e.Account with
    | some l => simp [mapGet_mapSet_self, hg]
    | none => simp [mapGet_mapSet_self]
  · simp only [members, newStep, if_neg ha]
    cases hg : mapGet s.accountAgents e.Account with
    | some l => simp [mapGet_mapSet_ne _ _ _ _ ha]
    | none => simp [mapGet_mapSet_ne _ _ _ _ ha]

/-- Every key of the agent map built by `NewAssignmentSystem` is a roster name. -/
theorem foldl_newStep_keys (initData : List AgentNameAndAccount) (s : AssignmentSystem)
    (k : String) (hk : mapGet (initData.foldl newStep s).agentAssignments k ≠ none) :
    mapGet s.agentAssignments k ≠ none ∨ k ∈ initData.map (fun e => e.Name) := by
  induction initData generalizing s with
  | nil => exact Or.inl hk
  | cons e rest ih =>
    simp only [List.foldl_cons] at hk
    rcases ih _ hk with h1 | h1
    · by_cases hke : k = e.Name
      · exact Or.inr (by simp [hke])
      · simp only [newStep] at h1
        rw [mapGet_mapSet_ne _ _ _ _ hke] at h1
        exact Or.inl h1
    · exact Or.inr (by simp only [List.map_cons, List.mem_cons]; exact Or.inr h1)

theorem foldl_newStep_consistent (initData : List AgentNameAndAccount) (s : AssignmentSystem)
    (hu : (initData.map (fun e => e.Name)).Nodup)
    (hfresh : ∀ e ∈ initData, mapGet s.agentAssignments e.Name = none)
    (hs : Consistent s) : Consistent (initData.foldl newStep s) := by
  induction initData generalizing s with
  | nil => exact hs
  | cons e rest ih =>
    simp only [List.foldl_cons]
    simp only [List.map_cons, List.nodup_cons] at hu
    apply ih _ hu.2
    · intro e' he'
      have hne : e'.Name ≠ e.Name := by
        intro heq
        exact hu.1 (heq ▸ List.mem_map_of_mem (fun e => e.Name) he')
      simp only [newStep]
      rw [mapGet_mapSet_ne _ _ _ _ hne]
      exact hfresh e' (List.mem_cons_of_mem _ he')
    · intro account k hk
      rw [members_newStep] at hk
      have hold : k ∈ members s account →
          ∃ wq, mapGet (newStep s e).agentAssignments k = some wq ∧ wq.Account = account ∧
            wq.AgentName = k := by
        intro hk'
        obtain ⟨wq, h1, h2, h3⟩ := hs account k hk'
        have hne : k ≠ e.Name := by
          intro heq
          have := hfresh e (List.mem_cons_self _ _)
          rw [← heq, h1] at this
          simp at this
        exact ⟨wq, by simp only [newStep]; rw [mapGet_mapSet_ne _ _ _ _ hne]; exact h1, h2, h3⟩
      by_cases ha : account = e.Account
      · rw [if_pos ha] at hk
        rcases List.mem_append.mp hk with hk | hk
        · exact hold hk
        · simp only [List.mem_singleton] at hk
          subst hk
          exact ⟨_, by simp only [newStep]; exact mapGet_mapSet_self _ _ _, ha.symm, rfl⟩
      · rw [if_neg ha] at hk
        exact hold hk

theorem new_consistent (initData : List AgentNameAndAccount)
    (hu : (initData.map (fun e => e.Name)).Nodup) :
    Consistent (NewAssignmentSystem initData) := by
  apply foldl_newStep_consistent initData _ hu
  · intro e _
    simp [mapGet]
  · intro account k hk
    simp [members, mapGet] at hk

/-! ## Consistency is kept by the selector -/

theorem commit_consistent (s : AssignmentSystem) (key id : String) (now : Int)
    (hs : Consistent s) : Consistent (commit s key id now) := by
  intro account k hk
  obtain ⟨wq, h1, h2, h3⟩ := hs account k hk
  by_cases hkk : k = key
  · subst hkk
    refine ⟨pushConversation id now wq, ?_, h2, h3⟩
    simp only [commit]
    rw [mapGet_mapModify_self, h1]
    rfl
  · refine ⟨wq, ?_, h2, h3⟩
    simp only [commit]
    rw [mapGet_mapModify_ne _ _ _ _ hkk]
    exact h1

theorem assign_consistent (clk : Nat → Int) (s : AssignmentSystem) (tick : Nat)
    (c : ConversationToAssign) (r : AssignOutcome) (h : assign clk s tick c = some r)
    (hs : Consistent s) : Consistent r.sys := by
  cases herr : r.err with
  | some e =>
    rw [assign_failed clk s tick c r h e herr]
    exact hs
  | none =>
    obtain ⟨w, t, _, _, _, _, hr⟩ := assign_winner clk s tick c r h herr
    rw [hr]
    exact commit_consistent s _ _ _ hs

theorem assignLoop_consistent (clk : Nat → Int) (batch : List ConversationToAssign)
    (st st' : AssignLoopState) (h : assignLoop clk st batch = some st')
    (hs : Consistent st.sys) : Consistent st'.sys := by
  induction batch generalizing st with
  | nil =>
    simp only [assignLoop, Option.some.injEq] at h
    rw [← h]
    exact hs
  | cons c rest ih =>
    simp only [assignLoop] at h
    cases ha : assign clk st.sys st.tick c with
    | none => simp [ha] at h
    | some r =>
      have hr := assign_consistent clk _ _ c r ha hs
      simp only [ha] at h
      cases herr : r.err with
      | some e =>
        simp only [herr] at h
        exact ih _ h hr
      | none =>
        simp only [herr] at h
        exact ih _ h hr

theorem Assign_consistent (clk : Nat → Int) (s : AssignmentSystem) (tick : Nat)
    (batch : List ConversationToAssign) (out : BatchOutcome)
    (h : Assign clk s tick batch = some out) (hs : Consistent s) : Consistent out.sys := by
  unfold Assign at h
  cases hl : assignLoop clk ⟨s, tick, [], []⟩ batch with
  | none => simp [hl] at h
  | some st =>
    simp only [hl, Option.some.injEq] at h
    rw [← h]
    exact assignLoop_consistent clk batch _ st hl hs

/-! ## The batch loop -/

theorem assignLoop_cons_panic (clk : Nat → Int) (st : AssignLoopState)
    (c : ConversationToAssign) (rest : List ConversationToAssign)
    (ha : assign clk st.sys st.tick c = none) : assignLoop clk st (c :: rest) = none := by
  simp [assignLoop, ha]

theorem assignLoop_cons_err (clk : Nat → Int) (st : AssignLoopState)
    (c : ConversationToAssign) (rest : List ConversationToAssign) (r : AssignOutcome)
    (e : GoError) (ha : assign clk st.sys st.tick c = some r) (herr : r.err = some e) :
    assignLoop clk st (c :: rest) =
      assignLoop clk ⟨r.sys, r.tick, st.assignedAgents, st.failedAssignments ++ [⟨c, e⟩]⟩
        rest := by
  simp [assignLoop, ha, herr]

theorem assignLoop_cons_ok (clk : Nat → Int) (st : AssignLoopState)
    (c : ConversationToAssign) (rest : List ConversationToAssign) (r : AssignOutcome)
    (ha : assign clk st.sys st.tick c = some r) (herr : r.err = none) :
    assignLoop clk st (c :: rest) =
      assignLoop clk ⟨r.sys, r.tick, st.assignedAgents ++ [r.agent], st.failedAssignments⟩
        rest := by
  simp [assignLoop, ha, herr]

/-- The loop of `Assign` only appends to its two accumulators. -/
theorem assignLoop_acc (clk : Nat → Int) (batch : List ConversationToAssign)
    (s : AssignmentSystem) (tick : Nat) (acc : List String)
    (failed : List conversationAssignmentError) :
    assignLoop clk ⟨s, tick, acc, failed⟩ batch =
      (assignLoop clk ⟨s, tick, [], []⟩ batch).map
        (fun st => ⟨st.sys, st.tick, acc ++ st.assignedAgents,
          failed ++ st.failedAssignments⟩) := by
  induction batch generalizing s tick acc failed with
  | nil => simp [assignLoop]
  | cons c rest ih =>
    cases ha : assign clk s tick c with
    | none =>
      rw [assignLoop_cons_panic clk _ c rest ha, assignLoop_cons_panic clk _ c rest ha]
      rfl
    | some r =>
      cases herr : r.err with
      | some e =>
        rw [assignLoop_cons_err clk _ c rest r e ha herr,
          assignLoop_cons_err clk _ c rest r e ha herr]
        simp only
        rw [ih r.sys r.tick acc (failed ++ [(⟨c, e⟩ : conversationAssignmentError)]),
          ih r.sys r.tick [] ([] ++ [(⟨c, e⟩ : conversationAssignmentError)])]
        simp [Option.map_map, Function.comp_def]
      | none =>
        rw [assignLoop_cons_ok clk _ c rest r ha herr,
          assignLoop_cons_ok clk _ c rest r ha herr]
        simp only
        rw [ih r.sys r.tick (acc ++ [r.agent]) failed, ih r.sys r.tick ([] ++ [r.agent]) []]
        simp [Option.map_map, Function.comp_def]

theorem assignLoop_append (clk : Nat → Int) (l1 l2 : List ConversationToAssign)
    (st : AssignLoopState) :
    assignLoop clk st (l1 ++ l2) =
      (assignLoop clk st l1).bind (fun st' => assignLoop clk st' l2) := by
  induction l1 generalizing st with
  | nil => simp [assignLoop]
  | cons c rest ih =>
    rw [List.cons_append]
    cases ha : assign clk st.sys st.tick c with
    | none =>
      rw [assignLoop_cons_panic clk _ c _ ha, assignLoop_cons_panic clk _ c _ ha]
      rfl
    | some r =>
      cases herr : r.err with
      | some e =>
        rw [assignLoop_cons_err clk _ c _ r e ha herr, assignLoop_cons_err clk _ c _ r e ha herr]
        exact ih _
      | none =>
        rw [assignLoop_cons_ok clk _ c _ r ha herr, assignLoop_cons_ok clk _ c _ r ha herr]
        exact ih _

/-- A batch is processed item by item: the items before `c`, then `c`, then the items after
it, each on the state left by the previous one; the returned names are concatenated. -/
theorem Assign_split (clk : Nat → Int) (s : AssignmentSystem) (tick : Nat)
    (earlier later : List ConversationToAssign) (c : ConversationToAssign) (out : BatchOutcome)
    (h : Assign clk s tick (earlier ++ c :: later) = some out) :
    ∃ (st : BatchOutcome) (r : AssignOutcome) (rest : BatchOutcome),
      Assign clk s tick earlier = some st ∧ assign clk st.sys st.tick c = some r ∧
      Assign clk r.sys r.tick later = some rest ∧ out.sys = rest.sys ∧ out.tick = rest.tick ∧
      out.assignedAgents =
        st.assignedAgents ++ (if r.err = none then [r.agent] else []) ++ rest.assignedAgents := by
  unfold Assign at h
  rw [assignLoop_append] at h
  cases h1 : assignLoop clk ⟨s, tick, [], []⟩ earlier with
  | none => simp [h1] at h
  | some st1 =>
    simp only [h1, Option.some_bind] at h
    cases ha : assign clk st1.sys st1.tick c with
    | none => simp [assignLoop_cons_panic clk _ c _ ha] at h
    | some r =>
      refine ⟨⟨st1.sys, st1.tick, st1.assignedAgents, constructError st1.failedAssignments⟩, r,
        ?_⟩
      cases herr : r.err with
      | some e =>
        rw [assignLoop_cons_err clk _ c _ r e ha herr, assignLoop_acc] at h
        cases h2 : assignLoop clk ⟨r.sys, r.tick, [], []⟩ later with
        | none => simp [h2] at h
        | some st2 =>
          simp only [h2, Option.map_some', Option.some.injEq] at h
          refine ⟨⟨st2.sys, st2.tick, st2.assignedAgents,
            constructError st2.failedAssignments⟩, by simp [Assign, h1], ha,
            by simp [Assign, h2], ?_, ?_, ?_⟩
          · rw [← h]
          · rw [← h]
          · rw [← h]; simp
      | none =>
        rw [assignLoop_cons_ok clk _ c _ r ha herr, assignLoop_acc] at h
        cases h2 : assignLoop clk ⟨r.sys, r.tick, [], []⟩ later with
        | none => simp [h2] at h
        | some st2 =>
          simp only [h2, Option.map_some', Option.some.injEq] at h
          refine ⟨⟨st2.sys, st2.tick, st2.assignedAgents,
            constructError st2.failedAssignments⟩, by simp [Assign, h1], ha,
            by simp [Assign, h2], ?_, ?_, ?_⟩
          · rw [← h]
          · rw [← h]
          · rw [← h]; simp

/-! ## Account isolation -/

/-- C2, account isolation. In a system built by `NewAssignmentSystem` from a roster with unique
agent names, take any batch and any of its items `c`. The batch is processed as the items
before `c`, then `c`, then the items after it. When `c` fails nothing is written for it and no
name is returned for it. When `c` succeeds, the name returned for it is a name listed under
the account of `c` and reads a work queue whose `Account` is the account of `c`, and the only
write made for `c` is the append to the queue stored under that name. -/
theorem account_isolation (initData : List AgentNameAndAccount)
    (hu : (initData.map (fun e => e.Name)).Nodup) (clk : Nat → Int) (tick : Nat)
    (earlier later : List ConversationToAssign) (c : ConversationToAssign) (out : BatchOutcome)
    (h : Assign clk (NewAssignmentSystem initData) tick (earlier ++ c :: later) = some out) :
    ∃ (st : BatchOutcome) (r : AssignOutcome) (rest : BatchOutcome),
      Assign clk (NewAssignmentSystem initData) tick earlier = some st ∧
      assign clk st.sys st.tick c = some r ∧
      Assign clk r.sys r.tick later = some rest ∧ out.sys = rest.sys ∧
      ((r.err ≠ none ∧ r.sys = st.sys ∧
          out.assignedAgents = st.assignedAgents ++ rest.assignedAgents) ∨
       (r.err = none ∧
          out.assignedAgents = st.assignedAgents ++ r.agent :: rest.assignedAgents ∧
          r.agent ∈ members st.sys c.Account ∧
          ∃ (wq : AgentWorkQueue) (t : Nat),
            mapGet st.sys.agentAssignments r.agent = some wq ∧ wq.Account = c.Account ∧
            wq.AgentName = r.agent ∧
            r.sys = commit st.sys r.agent c.ConversationID (clk t))) := by
  obtain ⟨st, r, rest, h1, h2, h3, h4, _, h6⟩ := Assign_split clk _ tick earlier later c out h
  refine ⟨st, r, rest, h1, h2, h3, h4, ?_⟩
  have hcons : Consistent st.sys := Assign_consistent clk _ tick earlier st h1 (new_consistent _ hu)
  cases herr : r.err with
  | some e =>
    left
    refine ⟨by simp, ?_, ?_⟩
    · rw [assign_failed clk _ _ c r h2 e herr]
    · rw [h6, herr]
      simp
  | none =>
    right
    obtain ⟨w, t, hmem, hget, _, _, hr⟩ := assign_winner clk _ _ c r h2 herr
    obtain ⟨wq, hg, hacc, hname⟩ := hcons c.Account w.1 hmem
    rw [hget] at hg
    simp only [Option.some.injEq] at hg
    have hagent : r.agent = w.1 := by rw [hr, hg, hname]
    refine ⟨rfl, ?_, ?_, w.2, t, ?_, ?_, ?_, ?_⟩
    · rw [h6, herr]
      simp
    · rw [hagent]
      exact hmem
    · rw [hagent]
      exact hget
    · rw [hg]
      exact hacc
    · rw [hg, hname, hagent]
    · rw [hagent, hr]

theorem account_isolation_witness :
    ∃ (st : BatchOutcome) (r : AssignOutcome) (rest : BatchOutcome),
      Assign tickingClock (NewAssignmentSystem pairRoster) 0 [⟨"c1", "X"⟩] = some st ∧
      assign tickingClock st.sys st.tick ⟨"c2", "X"⟩ = some r ∧
      Assign tickingClock r.sys r.tick [⟨"c3", "X"⟩] = some rest ∧ pairFull = rest.sys ∧
      ((r.err ≠ none ∧ r.sys = st.sys ∧
          ["a1", "a2"] = st.assignedAgents ++ rest.assignedAgents) ∨
       (r.err = none ∧
          ["a1", "a2"] = st.assignedAgents ++ r.agent :: rest.assignedAgents ∧
          r.agent ∈ members st.sys "X" ∧
          ∃ (wq : AgentWorkQueue) (t : Nat),
            mapGet st.sys.agentAssignments r.agent = some wq ∧ wq.Account = "X" ∧
            wq.AgentName = r.agent ∧
            r.sys = commit st.sys r.agent "c2" (tickingClock t))) :=
  account_isolation pairRoster (by decide) tickingClock 0 [⟨"c1", "X"⟩] [⟨"c3", "X"⟩]
    ⟨"c2", "X"⟩ ⟨pairFull, 2, ["a1", "a2"], some (GoError.failedToAssign 1)⟩ (by rfl)

/-! ## Selection -/

/-- C3, the least-load property. Whenever `assign` succeeds, it has appended the conversation
to the queue of a listed agent of the item's account, and the length that queue had before the
append is at most the queue length of every eligible agent of that account: of every listed
agent whose queue length is below its limit, and also of every listed agent that passes the
filter of the source (queue length different from the limit). -/
theorem least_load (clk : Nat → Int) (s : AssignmentSystem) (tick : Nat)
    (c : ConversationToAssign) (r : AssignOutcome) (h : assign clk s tick c = some r)
    (hok : r.err = none) :
    ∃ (w : WorkQueueRef) (t : Nat), w.1 ∈ members s c.Account ∧
      mapGet s.agentAssignments w.1 = some w.2 ∧ r.agent = w.2.AgentName ∧
      r.sys = commit s w.1 c.ConversationID (clk t) ∧
      (∀ (k : String) (wq : AgentWorkQueue), Eligible s c.Account k wq →
        w.2.Queue.length ≤ wq.Queue.length) ∧
      (∀ (k : String) (wq : AgentWorkQueue), k ∈ members s c.Account →
        mapGet s.agentAssignments k = some wq → (wq.Queue.length : Int) ≠ wq.Limit →
        w.2.Queue.length ≤ wq.Queue.length) := by
  obtain ⟨w, t, hmem, hget, _, hmin, hr⟩ := assign_winner clk s tick c r h hok
  refine ⟨w, t, hmem, hget, by rw [hr], by rw [hr], ?_, ?_⟩
  · rintro k wq ⟨hk, hg, hlt⟩
    exact hmin k hk wq hg (ne_of_lt hlt)
  · intro k wq hk hg hne
    exact hmin k hk wq hg hne

theorem least_load_witness :
    ∃ (w : WorkQueueRef) (t : Nat), w.1 ∈ members unevenLoad "X" ∧
      mapGet unevenLoad.agentAssignments w.1 = some w.2 ∧ "a2" = w.2.AgentName ∧
      commit unevenLoad "a2" "new1" 1000 = commit unevenLoad w.1 "new1" (tickingClock t) ∧
      (∀ (k : String) (wq : AgentWorkQueue), Eligible unevenLoad "X" k wq →
        w.2.Queue.length ≤ wq.Queue.length) ∧
      (∀ (k : String) (wq : AgentWorkQueue), k ∈ members unevenLoad "X" →
        mapGet unevenLoad.agentAssignments k = some wq → (wq.Queue.length : Int) ≠ wq.Limit →
        w.2.Queue.length ≤ wq.Queue.length) :=
  least_load tickingClock unevenLoad 0 ⟨"new1", "X"⟩
    ⟨commit unevenLoad "a2" "new1" 1000, 1, "a2", none⟩ (by rfl) rfl

/-- C4, tie-break determinism. The eligible agents are the work queues that the eligibility
filter returns for the item's account. When one of the least-loaded among them was never
assigned, `assign` succeeds and its winner is a least-loaded eligible work queue that was never
assigned. In particular, when the account lists exactly two agents, in either order, both below
their limits and equally loaded, one never assigned and the other assigned at any time, the
never-assigned one wins. Where no listed agent of the account is above its limit, the filter
returns exactly the listed agents below their limits, and the same holds with eligibility read
as queue length below limit. -/
theorem tie_break_determinism (clk : Nat → Int) (s : AssignmentSystem) (tick : Nat)
    (c : ConversationToAssign) :
    (∀ (elig : List WorkQueueRef),
      getEligibleAgentWorkQueues s.accountAgents s.agentAssignments c.Account = some elig →
      (∃ x ∈ getWorkqueuesWithLeastAmountOfWork elig, x.2.LastAssignmentTime = none) →
      ∃ (r : AssignOutcome) (w : WorkQueueRef) (t : Nat),
        assign clk s tick c = some r ∧ r.err = none ∧
        w ∈ getWorkqueuesWithLeastAmountOfWork elig ∧ w.2.LastAssignmentTime = none ∧
        r.agent = w.2.AgentName ∧ r.sys = commit s w.1 c.ConversationID (clk t)) ∧
    (∀ (k1 k2 : String) (wq1 wq2 : AgentWorkQueue) (last : Int),
      (members s c.Account = [k1, k2] ∨ members s c.Account = [k2, k1]) →
      mapGet s.agentAssignments k1 = some wq1 → mapGet s.agentAssignments k2 = some wq2 →
      (wq1.Queue.length : Int) < wq1.Limit → (wq2.Queue.length : Int) < wq2.Limit →
      wq1.Queue.length = wq2.Queue.length →
      wq1.LastAssignmentTime = none → wq2.LastAssignmentTime = some last →
      ∃ (r : AssignOutcome) (t : Nat),
        assign clk s tick c = some r ∧ r.err = none ∧ r.agent = wq1.AgentName ∧
        r.sys = commit s k1 c.ConversationID (clk t)) ∧
    ((∀ k ∈ members s c.Account,
        ∃ wq, mapGet s.agentAssignments k = some wq ∧ (wq.Queue.length : Int) ≤ wq.Limit) →
      (∃ (k : String) (wq : AgentWorkQueue), Eligible s c.Account k wq ∧
        (∀ (k' : String) (wq' : AgentWorkQueue), Eligible s c.Account k' wq' →
          wq.Queue.length ≤ wq'.Queue.length) ∧ wq.LastAssignmentTime = none) →
      ∃ (r : AssignOutcome) (w : WorkQueueRef) (t : Nat),
        assign clk s tick c = some r ∧ r.err = none ∧ Eligible s c.Account w.1 w.2 ∧
        (∀ (k' : String) (wq' : AgentWorkQueue), Eligible s c.Account k' wq' →
          w.2.Queue.length ≤ wq'.Queue.length) ∧
        w.2.LastAssignmentTime = none ∧
        r.agent = w.2.AgentName ∧ r.sys = commit s w.1 c.ConversationID (clk t)) := by
  have general : ∀ (elig : List WorkQueueRef),
      getEligibleAgentWorkQueues s.accountAgents s.agentAssignments c.Account = some elig →
      (∃ x ∈ getWorkqueuesWithLeastAmountOfWork elig, x.2.LastAssignmentTime = none) →
      ∃ (r : AssignOutcome) (w : WorkQueueRef) (t : Nat),
        assign clk s tick c = some r ∧ r.err = none ∧
        w ∈ getWorkqueuesWithLeastAmountOfWork elig ∧ w.2.LastAssignmentTime = none ∧
        r.agent = w.2.AgentName ∧ r.sys = commit s w.1 c.ConversationID (clk t) := by
    intro elig he habs
    have hne : elig.length ≠ 0 := by
      obtain ⟨x, hx, _⟩ := habs
      have := (mem_least elig x hx).1
      intro h0
      rw [List.length_eq_zero.mp h0] at this
      simp at this
    have hret : ∃ r, assign clk s tick c = some r := by
      unfold assign
      simp only [he, hne, if_false]
      by_cases h1 : (getWorkqueuesWithLeastAmountOfWork elig).length = 1
      · obtain ⟨w, hw⟩ := List.length_eq_one.mp h1
        simp [h1, hw, assignToWorkQueue]
      · simp only [h1, if_false]
        obtain ⟨w, hw, _, _⟩ := leastRecentLoop_absent clk _ tick 0 none habs
        cases hb : getWorkQueueWithTheLeastRecentAssignment clk tick
            (getWorkqueuesWithLeastAmountOfWork elig) with
        | mk best t =>
          have : best = some w := by
            have := congrArg Prod.fst hb
            simp only [getWorkQueueWithTheLeastRecentAssignment] at this
            rw [hw] at this
            exact this.symm
          subst this
          simp [assignToWorkQueue]
    obtain ⟨r, hr⟩ := hret
    obtain ⟨elig', he', hcase⟩ := assign_cases clk s tick c r hr
    rw [he] at he'
    simp only [Option.some.injEq] at he'
    subst he'
    rcases hcase with ⟨hnil, _⟩ | ⟨w, t, hw, habsw, hreq⟩
    · rw [hnil] at hne
      simp at hne
    · exact ⟨r, w, t, hr, by rw [hreq], hw, habsw habs, by rw [hreq], by rw [hreq]⟩
  refine ⟨general, ?_, ?_⟩
  swap
  · intro hcap ⟨k, wq, ⟨hk, hg, hlt⟩, hmin, hnone⟩
    have hpresent : ∀ p ∈ (members s c.Account).map
        (fun agent => (agent, mapGet s.agentAssignments agent)), p.2 ≠ none := by
      intro p hp
      obtain ⟨a, ha, rfl⟩ := List.mem_map.mp hp
      obtain ⟨wq', hg', _⟩ := hcap a ha
      simp [hg']
    obtain ⟨elig, he⟩ := filterAvailable_total _ hpresent
    have he' : getEligibleAgentWorkQueues s.accountAgents s.agentAssignments c.Account =
        some elig := he
    have hglossary : ∀ e ∈ elig, Eligible s c.Account e.1 e.2 := by
      intro e hmem
      obtain ⟨h1, h2, h3⟩ := (mem_getEligible _ _ _ elig he' e).mp hmem
      obtain ⟨wq', hg', hle⟩ := hcap e.1 h1
      rw [h2] at hg'
      simp only [Option.some.injEq] at hg'
      subst hg'
      exact ⟨h1, h2, lt_of_le_of_ne hle h3⟩
    have hin : (k, wq) ∈ elig :=
      (mem_getEligible _ _ _ elig he' (k, wq)).mpr ⟨hk, hg, ne_of_lt hlt⟩
    have hleast : (k, wq) ∈ getWorkqueuesWithLeastAmountOfWork elig :=
      least_of_minimal elig _ hin (fun e hmem => hmin e.1 e.2 (hglossary e hmem))
    obtain ⟨r, w, t, hr, hok, hw, hwn, hag, hsys⟩ := general elig he' ⟨(k, wq), hleast, hnone⟩
    obtain ⟨hwmem, hwmin⟩ := mem_least elig w hw
    refine ⟨r, w, t, hr, hok, hglossary w hwmem, ?_, hwn, hag, hsys⟩
    rintro k' wq' ⟨hk', hg', hlt'⟩
    exact hwmin (k', wq') ((mem_getEligible _ _ _ elig he' (k', wq')).mpr
      ⟨hk', hg', ne_of_lt hlt'⟩)
  intro k1 k2 wq1 wq2 last hmem h1 h2 hl1 hl2 hlen hn1 hn2
  have hne1 : ¬ (wq1.Queue.length : Int) = wq1.Limit := ne_of_lt hl1
  have hne2 : ¬ (wq2.Queue.length : Int) = wq2.Limit := ne_of_lt hl2
  have helig : ∃ elig,
      getEligibleAgentWorkQueues s.accountAgents s.agentAssignments c.Account = some elig ∧
      (elig = [(k1, wq1), (k2, wq2)] ∨ elig = [(k2, wq2), (k1, wq1)]) := by
    unfold members at hmem
    rcases hmem with hm | hm
    · exact ⟨_, by simp [getEligibleAgentWorkQueues, hm, h1, h2, filterAvailable, hne1, hne2],
        Or.inl rfl⟩
    · exact ⟨_, by simp [getEligibleAgentWorkQueues, hm, h1, h2, filterAvailable, hne1, hne2],
        Or.inr rfl⟩
  obtain ⟨elig, he, hshape⟩ := helig
  have hin1 : (k1, wq1) ∈ elig := by rcases hshape with h | h <;> simp [h]
  have hmin1 : ∀ e ∈ elig, wq1.Queue.length ≤ e.2.Queue.length := by
    intro e hmem'
    rcases hshape with h | h <;> rw [h] at hmem' <;> simp at hmem' <;>
      rcases hmem' with rfl | rfl <;> simp [hlen]
  obtain ⟨r, w, t, hr, hok, hw, hwn, hag, hsys⟩ :=
    general elig he ⟨(k1, wq1), least_of_minimal elig _ hin1 hmin1, hn1⟩
  have hwe : w = (k1, wq1) := by
    have hmw := (mem_least elig w hw).1
    rcases hshape with h | h <;> rw [h] at hmw <;> simp at hmw <;>
      rcases hmw with rfl | rfl
    · rfl
    · rw [hn2] at hwn; simp at hwn
    · rw [hn2] at hwn; simp at hwn
    · rfl
  subst hwe
  exact ⟨r, t, hr, hok, hag, hsys⟩

theorem tie_break_determinism_witness :
    ∃ (r : AssignOutcome) (t : Nat),
      assign tickingClock idlePair 0 ⟨"c1", "X"⟩ = some r ∧ r.err = none ∧ r.agent = "a2" ∧
      r.sys = commit idlePair "a2" "c1" (tickingClock t) :=
  (tie_break_determinism tickingClock idlePair 0 ⟨"c1", "X"⟩).2.1 "a2" "a1"
    ⟨3, "a2", none, [], "X"⟩ ⟨3, "a1", some 5, [], "X"⟩ 5 (Or.inr rfl) rfl rfl (by decide)
    (by decide) rfl rfl rfl

/-! ## Exhaustion -/

theorem filterAvailable_full (agents : GoMap AgentWorkQueue) (names : List String)
    (hfull : ∀ k ∈ names, ∃ wq, mapGet agents k = some wq ∧ (wq.Queue.length : Int) = wq.Limit) :
    filterAvailable (names.map (fun agent => (agent, mapGet agents agent))) = some [] := by
  induction names with
  | nil => rfl
  | cons k rest ih =>
    obtain ⟨wq, hget, hlen⟩ := hfull k (List.mem_cons_self _ _)
    have hrest := ih (fun k' hk' => hfull k' (List.mem_cons_of_mem _ hk'))
    simp [filterAvailable, hget, hrest, hlen]

/-- C5, exhaustion. When every agent listed under the item's account has a queue as long as its
limit, `assign` returns the error and the empty name, and the registry (and the clock) are
exactly as before. -/
theorem exhaustion (clk : Nat → Int) (s : AssignmentSystem) (tick : Nat)
    (c : ConversationToAssign)
    (hfull : ∀ k ∈ members s c.Account,
      ∃ wq, mapGet s.agentAssignments k = some wq ∧ (wq.Queue.length : Int) = wq.Limit) :
    assign clk s tick c = some ⟨s, tick, "", some GoError.noAvailableAgents⟩ := by
  have h := filterAvailable_full s.agentAssignments (members s c.Account) hfull
  simp only [members] at h
  simp [assign, getEligibleAgentWorkQueues, h]

theorem exhaustion_witness :
    assign tickingClock pairFull 2 ⟨"c3", "X"⟩ =
      some ⟨pairFull, 2, "", some GoError.noAvailableAgents⟩ :=
  exhaustion tickingClock pairFull 2 ⟨"c3", "X"⟩ (by
    intro k hk
    simp only [members, pairFull, mapGet, if_true, Option.getD_some, List.mem_cons,
      List.mem_singleton, List.not_mem_nil, or_false] at hk
    rcases hk with rfl | rfl
    · exact ⟨⟨1, "a1", some 1000, ["c1"], "X"⟩, by decide, by decide⟩
    · exact ⟨⟨1, "a2", some 1001, ["c2"], "X"⟩, by decide, by decide⟩)

/-! ## Agents above their limit -/

/-- C6, at a registry with an agent above its limit: `getEligibleAgentWorkQueues` returns the
agent a1, whose queue holds two conversations under limit 1. -/
theorem eligible_over_limit :
    getEligibleAgentWorkQueues overLimit.accountAgents overLimit.agentAssignments "X" =
      some [("a1", ⟨1, "a1", some 1001, ["c1", "c2"], "X"⟩)] := by
  decide

/-- C7, lowering a limit below the load: a1 is created with limit 3 and receives c1 and c2; its
limit is then set to 1, which yields `overLimit`; the next `Assign` returns a1 for c3 and
leaves three conversations in its queue. -/
theorem lowered_limit_still_assigned :
    (Assign tickingClock (NewAssignmentSystem [⟨"a1", "X", 3⟩]) 0
        [⟨"c1", "X"⟩, ⟨"c2", "X"⟩]).map (fun out => SetLimit out.sys "a1" 1) =
      some (some overLimit) ∧
    Assign tickingClock overLimit 2 [⟨"c3", "X"⟩] =
      some ⟨⟨[("X", ["a1"])], [("a1", ⟨1, "a1", some 1002, ["c1", "c2", "c3"], "X"⟩)]⟩, 3,
        ["a1"], none⟩ := by
  constructor <;> rfl

/-! ## SetLimit -/

/-- C8 fails on a missing name: `SetLimit` of a name that the registry does not hold ends in a
nil pointer dereference, not in a returned error. -/
theorem setLimit_missing_panics : SetLimit (NewAssignmentSystem pairRoster) "ghost" 5 = none := by
  decide

/-- C8 as amended. `SetLimit` has no error result. A call with a name that the registry does not
hold is a nil pointer dereference and returns nothing. A call with a name that the registry
holds returns: the work queue read under that name has the new limit and is otherwise the same,
every other name reads what it read before, and the account index is the same. -/
theorem setLimit_outcome (s : AssignmentSystem) (agentName : String) (limit : Int) :
    (mapGet s.agentAssignments agentName = none → SetLimit s agentName limit = none) ∧
    (∀ wq, mapGet s.agentAssignments agentName = some wq →
      ∃ s', SetLimit s agentName limit = some s' ∧
        mapGet s'.agentAssignments agentName = some { wq with Limit := limit } ∧
        (∀ k, k ≠ agentName → mapGet s'.agentAssignments k = mapGet s.agentAssignments k) ∧
        s'.accountAgents = s.accountAgents) := by
  constructor
  · intro h
    simp [SetLimit, h]
  · intro wq h
    refine ⟨{ s with
      agentAssignments :=
        mapModify (fun wq => { wq with Limit := limit }) s.agentAssignments agentName },
      by simp only [SetLimit, h], ?_, ?_, rfl⟩
    · rw [mapGet_mapModify_self, h]
      rfl
    · intro k hk
      exact mapGet_mapModify_ne _ _ _ _ hk

theorem setLimit_outcome_witness :
    ∃ s', SetLimit (NewAssignmentSystem pairRoster) "a2" 7 = some s' ∧
      mapGet s'.agentAssignments "a2" = some ⟨7, "a2", none, [], "X"⟩ ∧
      (∀ k, k ≠ "a2" →
        mapGet s'.agentAssignments k =
          mapGet (NewAssignmentSystem pairRoster).agentAssignments k) ∧
      s'.accountAgents = (NewAssignmentSystem pairRoster).accountAgents :=
  (setLimit_outcome (NewAssignmentSystem pairRoster) "a2" 7).2 ⟨1, "a2", none, [], "X"⟩
    (by decide)

/-! ## The batch result -/

theorem assignLoop_itemResults (clk : Nat → Int) (batch : List ConversationToAssign)
    (st st' : AssignLoopState) (h : assignLoop clk st batch = some st') :
    ∃ rs, itemResults clk st.sys st.tick batch = some rs ∧ rs.length = batch.length ∧
      st'.failedAssignments.length = st.failedAssignments.length + countFailed rs ∧
      st'.assignedAgents.length + countFailed rs = st.assignedAgents.length + batch.length := by
  induction batch generalizing st with
  | nil =>
    simp only [assignLoop, Option.some.injEq] at h
    subst h
    exact ⟨[], rfl, rfl, by simp [countFailed], by simp [countFailed]⟩
  | cons c rest ih =>
    cases ha : assign clk st.sys st.tick c with
    | none =>
      rw [assignLoop_cons_panic clk _ c rest ha] at h
      simp at h
    | some r =>
      cases herr : r.err with
      | some e =>
        rw [assignLoop_cons_err clk _ c rest r e ha herr] at h
        obtain ⟨rs, h1, h2, h3, h4⟩ := ih _ h
        simp only at h1 h3 h4
        refine ⟨r :: rs, by simp [itemResults, ha, h1], by simp [h2], ?_, ?_⟩
        · simp only [countFailed, List.filter_cons, herr, Option.isSome_some, if_true,
            List.length_cons]
          simp only [countFailed, List.length_append, List.length_singleton] at h3
          omega
        · simp only [countFailed, List.filter_cons, herr, Option.isSome_some, if_true,
            List.length_cons]
          simp only [countFailed] at h4
          omega
      | none =>
        rw [assignLoop_cons_ok clk _ c rest r ha herr] at h
        obtain ⟨rs, h1, h2, h3, h4⟩ := ih _ h
        simp only at h1 h3 h4
        refine ⟨r :: rs, by simp [itemResults, ha, h1], by simp [h2], ?_, ?_⟩
        · simp only [countFailed, List.filter_cons, herr, Option.isSome_none, List.length_cons]
          simp only [countFailed] at h3
          simpa using h3
        · simp only [countFailed, List.filter_cons, herr, Option.isSome_none, List.length_cons]
          simp only [countFailed, List.length_append, List.length_singleton] at h4
          simp only [Bool.false_eq_true, if_false]
          omega

/-- C9, the batch error. When `Assign` returns, its error is non-nil exactly when `assign`
failed for at least one item of the batch; the error carries the number of failed items; and
the number of returned names plus the number of failed items is the number of items. The empty
batch returns the empty list and the nil error. -/
theorem batch_error (clk : Nat → Int) (s : AssignmentSystem) (tick : Nat)
    (batch : List ConversationToAssign) (out : BatchOutcome)
    (h : Assign clk s tick batch = some out) :
    (∃ rs, itemResults clk s tick batch = some rs ∧ rs.length = batch.length ∧
      (out.err ≠ none ↔ ∃ r ∈ rs, r.err ≠ none) ∧
      out.err = (if countFailed rs = 0 then none
        else some (GoError.failedToAssign (countFailed rs))) ∧
      out.assignedAgents.length + countFailed rs = batch.length) ∧
    Assign clk s tick [] = some ⟨s, tick, [], none⟩ := by
  refine ⟨?_, rfl⟩
  unfold Assign at h
  cases hl : assignLoop clk ⟨s, tick, [], []⟩ batch with
  | none => simp [hl] at h
  | some st =>
    simp only [hl, Option.some.injEq] at h
    obtain ⟨rs, h1, h2, h3, h4⟩ := assignLoop_itemResults clk batch _ st hl
    simp only [List.length_nil, Nat.zero_add] at h3 h4
    have herr : out.err = (if countFailed rs = 0 then none
        else some (GoError.failedToAssign (countFailed rs))) := by
      rw [← h]
      simp only [constructError, h3]
    refine ⟨rs, h1, h2, ?_, herr, by rw [← h]; exact h4⟩
    rw [herr]
    constructor
    · intro hne
      by_cases h0 : countFailed rs = 0
      · simp [h0] at hne
      · have hpos : 0 < (rs.filter (fun r => r.err.isSome)).length := Nat.pos_of_ne_zero h0
        obtain ⟨r, hr⟩ := List.exists_mem_of_length_pos hpos
        obtain ⟨hr1, hr2⟩ := List.mem_filter.mp hr
        refine ⟨r, hr1, ?_⟩
        intro hn
        rw [hn] at hr2
        simp at hr2
    · rintro ⟨r, hr1, hr2⟩
      have hmem : r ∈ rs.filter (fun r => r.err.isSome) := by
        refine List.mem_filter.mpr ⟨hr1, ?_⟩
        cases he : r.err with
        | none => exact absurd he hr2
        | some e => rfl
      have hpos : 0 < countFailed rs := List.length_pos_of_mem hmem
      have h0 : countFailed rs ≠ 0 := Nat.pos_iff_ne_zero.mp hpos
      simp [h0]

theorem batch_error_witness :
    (∃ rs, itemResults tickingClock (NewAssignmentSystem pairRoster) 0 threeForX = some rs ∧
      rs.length = threeForX.length ∧
      (some (GoError.failedToAssign 1) ≠ none ↔ ∃ r ∈ rs, r.err ≠ none) ∧
      some (GoError.failedToAssign 1) = (if countFailed rs = 0 then none
        else some (GoError.failedToAssign (countFailed rs))) ∧
      ["a1", "a2"].length + countFailed rs = threeForX.length) ∧
    Assign tickingClock (NewAssignmentSystem pairRoster) 0 [] =
      some ⟨NewAssignmentSystem pairRoster, 0, [], none⟩ :=
  batch_error tickingClock (NewAssignmentSystem pairRoster) 0 threeForX
    ⟨pairFull, 2, ["a1", "a2"], some (GoError.failedToAssign 1)⟩ (by rfl)

theorem foldl_sequentialStep_none (clk : Nat → Int) (batch : List ConversationToAssign) :
    batch.foldl (sequentialStep clk) none = none := by
  induction batch with
  | nil => rfl
  | cons c rest ih => simpa [List.foldl_cons, sequentialStep] using ih

theorem assignLoop_sequential (clk : Nat → Int) (batch : List ConversationToAssign)
    (st : AssignLoopState) :
    (assignLoop clk st batch).map (fun st' => (st'.sys, st'.tick, st'.assignedAgents)) =
      batch.foldl (sequentialStep clk) (some (st.sys, st.tick, st.assignedAgents)) := by
  induction batch generalizing st with
  | nil => simp [assignLoop]
  | cons c rest ih =>
    rw [List.foldl_cons]
    cases ha : assign clk st.sys st.tick c with
    | none =>
      rw [assignLoop_cons_panic clk _ c rest ha]
      simp [sequentialStep, ha, foldl_sequentialStep_none]
    | some r =>
      cases herr : r.err with
      | some e =>
        rw [assignLoop_cons_err clk _ c rest r e ha herr, ih]
        simp [sequentialStep, ha, herr]
      | none =>
        rw [assignLoop_cons_ok clk _ c rest r ha herr, ih]
        simp [sequentialStep, ha, herr]

/-- C10, the batch is the fold of `assign`. The state, the clock and the list of names that
`Assign` returns are those of the fold of `assign` over the items in the given order, which
keeps the winning name of each item that succeeds and nothing for an item that fails; and an
item that fails leaves the state as it was and returns the empty name. -/
theorem Assign_is_sequential (clk : Nat → Int) (s : AssignmentSystem) (tick : Nat)
    (batch : List ConversationToAssign) :
    (Assign clk s tick batch).map (fun out => (out.sys, out.tick, out.assignedAgents)) =
      sequentialAssign clk s tick batch ∧
    ∀ (c : ConversationToAssign) (r : AssignOutcome),
      assign clk s tick c = some r → r.err ≠ none → r.sys = s ∧ r.tick = tick ∧ r.agent = "" := by
  constructor
  · have h := assignLoop_sequential clk batch ⟨s, tick, [], []⟩
    simp only [sequentialAssign, ← h, Assign]
    cases assignLoop clk ⟨s, tick, [], []⟩ batch <;> rfl
  · intro c r ha hne
    cases herr : r.err with
    | none => exact absurd herr hne
    | some e =>
      rw [assign_failed clk s tick c r ha e herr]
      exact ⟨rfl, rfl, rfl⟩

theorem Assign_is_sequential_witness :
    (Assign tickingClock (NewAssignmentSystem pairRoster) 0 threeForX).map
        (fun out => (out.sys, out.tick, out.assignedAgents)) =
      sequentialAssign tickingClock (NewAssignmentSystem pairRoster) 0 threeForX ∧
    (pairFull = pairFull ∧ 2 = 2 ∧ "" = "") :=
  ⟨(Assign_is_sequential tickingClock (NewAssignmentSystem pairRoster) 0 threeForX).1,
    (Assign_is_sequential tickingClock pairFull 2 []).2 ⟨"c3", "X"⟩
      ⟨pairFull, 2, "", some GoError.noAvailableAgents⟩ (by rfl) (by decide)⟩

/-! ## The commit -/

theorem leastRecentLoop_tick (clk : Nat → Int) (l : List WorkQueueRef) (tick : Nat) (hi : Int)
    (best : Option WorkQueueRef) : tick ≤ (leastRecentLoop clk l tick hi best).2 := by
  induction l generalizing tick hi best with
  | nil => simp [leastRecentLoop]
  | cons x rest ih =>
    simp only [leastRecentLoop]
    cases hx : x.2.LastAssignmentTime with
    | none => simp
    | some last =>
      simp only
      split
      · exact le_trans (by omega) (ih (tick + 2) _ _)
      · exact le_trans (by omega) (ih (tick + 1) _ _)

/-- The clock reading that a successful `assign` stores is made during the call. -/
theorem assign_tick (clk : Nat → Int) (s : AssignmentSystem) (tick : Nat)
    (c : ConversationToAssign) (r : AssignOutcome) (h : assign clk s tick c = some r) :
    tick ≤ r.tick ∧ (r.err = none → tick + 1 ≤ r.tick) := by
  unfold assign at h
  cases he : getEligibleAgentWorkQueues s.accountAgents s.agentAssignments c.Account with
  | none => simp [he] at h
  | some elig =>
    simp only [he] at h
    by_cases h0 : elig.length = 0
    · simp only [h0, if_true, Option.some.injEq] at h
      rw [← h]
      simp
    · simp only [h0, if_false] at h
      by_cases h1 : (getWorkqueuesWithLeastAmountOfWork elig).length = 1
      · simp only [h1, if_true] at h
        obtain ⟨w, hw⟩ := List.length_eq_one.mp h1
        rw [hw] at h
        simp only [List.head?_cons, assignToWorkQueue, Option.some.injEq] at h
        rw [← h]
        simp
      · simp only [h1, if_false] at h
        have hle := leastRecentLoop_tick clk (getWorkqueuesWithLeastAmountOfWork elig) tick 0 none
        cases hb : getWorkQueueWithTheLeastRecentAssignment clk tick
            (getWorkqueuesWithLeastAmountOfWork elig) with
        | mk best t =>
          rw [hb] at h
          have ht : tick ≤ t := by
            have := congrArg Prod.snd hb
            simp only [getWorkQueueWithTheLeastRecentAssignment] at this
            rw [this] at hle
            exact hle
          cases best with
          | none => simp [assignToWorkQueue] at h
          | some w =>
            simp only [assignToWorkQueue, Option.some.injEq] at h
            rw [← h]
            simp only
            omega

/-- C11, the commit effect. When `assign` succeeds there is a winner, read under a name listed
for the item's account. The returned name is the winner's `AgentName`. In the new state the
winner's work queue has the old queue with the item's `ConversationID` appended at the end and
a clock reading made during the call as `LastAssignmentTime`, with `Limit`, `AgentName` and
`Account` as before; every other name reads what it read before; the keys of the agent map
and the account index are unchanged. -/
theorem commit_effect (clk : Nat → Int) (s : AssignmentSystem) (tick : Nat)
    (c : ConversationToAssign) (r : AssignOutcome) (h : assign clk s tick c = some r)
    (hok : r.err = none) :
    ∃ (key : String) (w : AgentWorkQueue) (t : Nat),
      key ∈ members s c.Account ∧ mapGet s.agentAssignments key = some w ∧
      r.agent = w.AgentName ∧ tick ≤ t ∧ r.tick = t + 1 ∧
      mapGet r.sys.agentAssignments key =
        some ⟨w.Limit, w.AgentName, some (clk t), w.Queue ++ [c.ConversationID], w.Account⟩ ∧
      (∀ k, k ≠ key → mapGet r.sys.agentAssignments k = mapGet s.agentAssignments k) ∧
      r.sys.agentAssignments.map Prod.fst = s.agentAssignments.map Prod.fst ∧
      r.sys.accountAgents = s.accountAgents := by
  obtain ⟨w, t, hmem, hget, _, _, hr⟩ := assign_winner clk s tick c r h hok
  have htick := (assign_tick clk s tick c r h).2 hok
  have hrt : r.tick = t + 1 := by rw [hr]
  refine ⟨w.1, w.2, t, hmem, hget, by rw [hr], by omega, hrt, ?_, ?_, ?_, by rw [hr]; rfl⟩
  · rw [hr]
    simp only [commit]
    rw [mapGet_mapModify_self, hget]
    rfl
  · intro k hk
    rw [hr]
    exact mapGet_mapModify_ne _ _ _ _ hk
  · rw [hr]
    exact mapModify_keys _ _ _

theorem commit_effect_witness :
    ∃ (key : String) (w : AgentWorkQueue) (t : Nat),
      key ∈ members unevenLoad "X" ∧ mapGet unevenLoad.agentAssignments key = some w ∧
      "a2" = w.AgentName ∧ 0 ≤ t ∧ 1 = t + 1 ∧
      mapGet (commit unevenLoad "a2" "new1" 1000).agentAssignments key =
        some ⟨w.Limit, w.AgentName, some (tickingClock t), w.Queue ++ ["new1"], w.Account⟩ ∧
      (∀ k, k ≠ key → mapGet (commit unevenLoad "a2" "new1" 1000).agentAssignments k =
        mapGet unevenLoad.agentAssignments k) ∧
      (commit unevenLoad "a2" "new1" 1000).agentAssignments.map Prod.fst =
        unevenLoad.agentAssignments.map Prod.fst ∧
      (commit unevenLoad "a2" "new1" 1000).accountAgents = unevenLoad.accountAgents :=
  commit_effect tickingClock unevenLoad 0 ⟨"new1", "X"⟩
    ⟨commit unevenLoad "a2" "new1" 1000, 1, "a2", none⟩ (by rfl) rfl

/-! ## The frame of SetLimit -/

/-- C14, the frame of `SetLimit`. On a name that the registry holds, `SetLimit` returns; the
work queue read under the name has the new `Limit` and the `Queue`, `LastAssignmentTime`,
`Account` and `AgentName` it had; every other name reads what it read before; the keys of the
agent map, the account index and every membership list are unchanged. -/
theorem setLimit_frame (s : AssignmentSystem) (agentName : String) (limit : Int)
    (wq : AgentWorkQueue) (h : mapGet s.agentAssignments agentName = some wq) :
    ∃ s', SetLimit s agentName limit = some s' ∧
      mapGet s'.agentAssignments agentName =
        some ⟨limit, wq.AgentName, wq.LastAssignmentTime, wq.Queue, wq.Account⟩ ∧
      (∀ k, k ≠ agentName → mapGet s'.agentAssignments k = mapGet s.agentAssignments k) ∧
      s'.agentAssignments.map Prod.fst = s.agentAssignments.map Prod.fst ∧
      s'.accountAgents = s.accountAgents ∧
      ∀ account, members s' account = members s account := by
  refine ⟨{ s with
      agentAssignments :=
        mapModify (fun wq => { wq with Limit := limit }) s.agentAssignments agentName },
    by simp only [SetLimit, h], ?_, ?_, mapModify_keys _ _ _, rfl, fun _ => rfl⟩
  · rw [mapGet_mapModify_self, h]
    rfl
  · intro k hk
    exact mapGet_mapModify_ne _ _ _ _ hk

theorem setLimit_frame_witness :
    ∃ s', SetLimit pairFull "a1" 4 = some s' ∧
      mapGet s'.agentAssignments "a1" = some ⟨4, "a1", some 1000, ["c1"], "X"⟩ ∧
      (∀ k, k ≠ "a1" → mapGet s'.agentAssignments k = mapGet pairFull.agentAssignments k) ∧
      s'.agentAssignments.map Prod.fst = pairFull.agentAssignments.map Prod.fst ∧
      s'.accountAgents = pairFull.accountAgents ∧
      ∀ account, members s' account = members pairFull account :=
  setLimit_frame pairFull "a1" 4 ⟨1, "a1", some 1000, ["c1"], "X"⟩ (by decide)

/-! ## The least-load stage -/

theorem minLoad_attained (l : List WorkQueueRef) (n : Nat) :
    n = minLoad l n ∨ ∃ e ∈ l, e.2.Queue.length = minLoad l n := by
  induction l generalizing n with
  | nil => left; simp [minLoad]
  | cons x xs ih =>
    simp only [minLoad]
    rcases ih (min n x.2.Queue.length) with h1 | ⟨e, he, h1⟩
    · rcases Nat.le_total n x.2.Queue.length with h2 | h2
      · left
        rw [Nat.min_eq_left h2] at h1 ⊢
        exact h1
      · right
        refine ⟨x, List.mem_cons_self _ _, ?_⟩
        rw [Nat.min_eq_right h2] at h1 ⊢
        exact h1
    · exact Or.inr ⟨e, List.mem_cons_of_mem _ he, h1⟩

/-- C15, the least-load stage. On the empty list the stage returns the empty list. On a
non-empty list there is a least queue length, attained in the list, and the stage returns
exactly the elements of that queue length, in their order in the input; the result is not
empty. -/
theorem least_load_stage (workQueues : List WorkQueueRef) :
    (workQueues = [] → getWorkqueuesWithLeastAmountOfWork workQueues = []) ∧
    (workQueues ≠ [] →
      ∃ m : Nat, (∀ e ∈ workQueues, m ≤ e.2.Queue.length) ∧
        (∃ e ∈ workQueues, e.2.Queue.length = m) ∧
        getWorkqueuesWithLeastAmountOfWork workQueues =
          workQueues.filter (fun wq => decide (wq.2.Queue.length = m)) ∧
        getWorkqueuesWithLeastAmountOfWork workQueues ≠ []) := by
  constructor
  · rintro rfl
    rfl
  · intro hne
    cases workQueues with
    | nil => exact absurd rfl hne
    | cons first rest =>
      refine ⟨minLoad (first :: rest) first.2.Queue.length,
        fun e he => minLoad_le_mem _ _ e he, ?_,
        getWorkqueuesWithLeastAmountOfWork_eq first rest, least_ne_nil _ hne⟩
      rcases minLoad_attained (first :: rest) first.2.Queue.length with h | h
      · exact ⟨first, List.mem_cons_self _ _, h⟩
      · exact h

theorem least_load_stage_witness :
    ∃ m : Nat, (∀ e ∈ fourCandidates, m ≤ e.2.Queue.length) ∧
      (∃ e ∈ fourCandidates, e.2.Queue.length = m) ∧
      getWorkqueuesWithLeastAmountOfWork fourCandidates =
        fourCandidates.filter (fun wq => decide (wq.2.Queue.length = m)) ∧
      getWorkqueuesWithLeastAmountOfWork fourCandidates ≠ [] :=
  (least_load_stage fourCandidates).2 (by decide)

/-! ## Negative limits -/

/-- An agent with a negative limit passes the filter. Let an agent be listed under an account
and read a work queue with a negative limit, whatever its queue holds. Whenever
`getEligibleAgentWorkQueues` returns for that account, the agent is in the list; it does return
when every listed name is registered. So a call of `assign` for that account that returns does
not return the error. -/
theorem negative_limit (s : AssignmentSystem) (account k : String) (wq : AgentWorkQueue)
    (hk : k ∈ members s account) (hget : mapGet s.agentAssignments k = some wq)
    (hneg : wq.Limit < 0) :
    (∀ elig, getEligibleAgentWorkQueues s.accountAgents s.agentAssignments account = some elig →
      (k, wq) ∈ elig) ∧
    ((∀ j ∈ members s account, mapGet s.agentAssignments j ≠ none) →
      ∃ elig, getEligibleAgentWorkQueues s.accountAgents s.agentAssignments account = some elig ∧
        (k, wq) ∈ elig) ∧
    ∀ (clk : Nat → Int) (tick : Nat) (id : String) (r : AssignOutcome),
      assign clk s tick ⟨id, account⟩ = some r → r.err = none := by
  have hne : (wq.Queue.length : Int) ≠ wq.Limit := by
    have : (0 : Int) ≤ (wq.Queue.length : Int) := Int.natCast_nonneg _
    omega
  have hin : ∀ elig,
      getEligibleAgentWorkQueues s.accountAgents s.agentAssignments account = some elig →
      (k, wq) ∈ elig :=
    fun elig he => (mem_getEligible _ _ _ elig he (k, wq)).mpr ⟨hk, hget, hne⟩
  refine ⟨hin, ?_, ?_⟩
  · intro hreg
    have hpresent : ∀ p ∈ (members s account).map
        (fun agent => (agent, mapGet s.agentAssignments agent)), p.2 ≠ none := by
      intro p hp
      obtain ⟨a, ha, rfl⟩ := List.mem_map.mp hp
      exact hreg a ha
    obtain ⟨elig, he⟩ := filterAvailable_total _ hpresent
    exact ⟨elig, he, hin elig he⟩
  · intro clk tick id r hr
    obtain ⟨elig, he, hcase⟩ := assign_cases clk s tick ⟨id, account⟩ r hr
    rcases hcase with ⟨hnil, _⟩ | ⟨w, t, _, _, hreq⟩
    · have := hin elig he
      rw [hnil] at this
      simp at this
    · rw [hreq]

theorem negative_limit_witness :
    ∃ elig,
      getEligibleAgentWorkQueues negativeLimit.accountAgents negativeLimit.agentAssignments "X" =
        some elig ∧
      ("a1", (⟨-1, "a1", some 1001, ["c1", "c2"], "X"⟩ : AgentWorkQueue)) ∈ elig :=
  (negative_limit negativeLimit "X" "a1" ⟨-1, "a1", some 1001, ["c1", "c2"], "X"⟩
    (by decide) (by decide) (by decide)).2.1 (by decide)

/-- C18, at two agents of limit -1 in one account. Under `frozenClock` two conversations
assigned on `negativeRoster` leave `negativePair`. There both agents pass the filter of
`getEligibleAgentWorkQueues`, as the claim says, yet `assign` for their account does not
succeed: both hold one conversation, assigned at the instant the clock still shows, so that the
tie-break stage returns nil and `assign` dereferences it. The batch of three conversations on
the new registry is lost in the same way. -/
theorem negative_limit_assign_panics :
    Assign frozenClock (NewAssignmentSystem negativeRoster) 0 [⟨"c1", "X"⟩, ⟨"c2", "X"⟩] =
      some ⟨negativePair, 2, ["a1", "a2"], none⟩ ∧
    getEligibleAgentWorkQueues negativePair.accountAgents negativePair.agentAssignments "X" =
      some negativePair.agentAssignments ∧
    (getWorkQueueWithTheLeastRecentAssignment frozenClock 2 negativePair.agentAssignments).1 =
      none ∧
    assign frozenClock negativePair 2 ⟨"c3", "X"⟩ = none ∧
    Assign frozenClock (NewAssignmentSystem negativeRoster) 0 threeForX = none := by
  refine ⟨by rfl, by decide, by decide, by decide, by decide⟩

/-! ## Initialization -/

theorem mapSet_of_not_mem {V : Type} (m : GoMap V) (k : String) (v : V)
    (h : k ∉ m.map Prod.fst) : mapSet m k v = m ++ [(k, v)] := by
  induction m with
  | nil => rfl
  | cons q rest ih =>
    obtain ⟨k', v'⟩ := q
    simp only [List.map_cons, List.mem_cons, not_or] at h
    have hk : ¬ k' = k := fun heq => h.1 heq.symm
    simp [mapSet, hk, ih h.2]

theorem mapSet_keys_of_mem {V : Type} (m : GoMap V) (k : String) (v : V)
    (h : k ∈ m.map Prod.fst) : (mapSet m k v).map Prod.fst = m.map Prod.fst := by
  induction m with
  | nil => simp at h
  | cons q rest ih =>
    obtain ⟨k', v'⟩ := q
    by_cases hk : k' = k
    · simp [mapSet, hk]
    · simp only [List.map_cons, List.mem_cons] at h
      rcases h with h | h
      · exact absurd h.symm hk
      · simp [mapSet, hk, ih h]

theorem mapSet_keys_nodup {V : Type} (m : GoMap V) (k : String) (v : V)
    (h : (m.map Prod.fst).Nodup) : ((mapSet m k v).map Prod.fst).Nodup := by
  by_cases hk : k ∈ m.map Prod.fst
  · rw [mapSet_keys_of_mem m k v hk]
    exact h
  · rw [mapSet_of_not_mem m k v hk]
    simp only [List.map_append, List.map_cons, List.map_nil]
    refine List.Nodup.append h (by simp) ?_
    intro a ha hb
    simp only [List.mem_singleton] at hb
    exact hk (hb ▸ ha)

theorem mapGet_some_key {V : Type} (m : GoMap V) (k : String) (v : V)
    (h : mapGet m k = some v) : k ∈ m.map Prod.fst :=
  List.mem_map.mpr ⟨(k, v), mapGet_mem m k v h, rfl⟩

theorem newStep_agents (s : AssignmentSystem) (e : AgentNameAndAccount) :
    (newStep s e).agentAssignments = mapSet s.agentAssignments e.Name (freshQueue e) := rfl

/-- With fresh and distinct names, the loop of `NewAssignmentSystem` appends one work queue
per roster entry, in roster order. -/
theorem foldl_newStep_append (initData : List AgentNameAndAccount) (s : AssignmentSystem)
    (hu : (initData.map (fun e => e.Name)).Nodup)
    (hfresh : ∀ e ∈ initData, e.Name ∉ s.agentAssignments.map Prod.fst) :
    (initData.foldl newStep s).agentAssignments =
      s.agentAssignments ++ initData.map (fun e => (e.Name, freshQueue e)) := by
  induction initData generalizing s with
  | nil => simp
  | cons e rest ih =>
    simp only [List.map_cons, List.nodup_cons] at hu
    simp only [List.foldl_cons]
    have hstep : (newStep s e).agentAssignments = s.agentAssignments ++ [(e.Name, freshQueue e)] := by
      rw [newStep_agents]
      exact mapSet_of_not_mem _ _ _ (hfresh e (List.mem_cons_self _ _))
    rw [ih (newStep s e) hu.2, hstep]
    · simp
    · intro e' he'
      rw [hstep]
      simp only [List.map_append, List.map_cons, List.map_nil, List.mem_append,
        List.mem_singleton, not_or]
      refine ⟨hfresh e' (List.mem_cons_of_mem _ he'), ?_⟩
      intro heq
      exact hu.1 (heq ▸ List.mem_map_of_mem (fun e => e.Name) he')

theorem foldl_newStep_members (initData : List AgentNameAndAccount) (s : AssignmentSystem)
    (account : String) :
    members (initData.foldl newStep s) account =
      members s account ++
        (initData.filter (fun e => decide (e.Account = account))).map (fun e => e.Name) := by
  induction initData generalizing s with
  | nil => simp
  | cons e rest ih =>
    simp only [List.foldl_cons]
    rw [ih, members_newStep]
    by_cases ha : account = e.Account
    · subst ha
      simp [List.filter_cons]
    · have : ¬ e.Account = account := fun h => ha h.symm
      simp [List.filter_cons, ha, this]

theorem mapGet_map_fresh (initData : List AgentNameAndAccount)
    (hu : (initData.map (fun e => e.Name)).Nodup) (e : AgentNameAndAccount)
    (he : e ∈ initData) :
    mapGet (initData.map (fun e => (e.Name, freshQueue e))) e.Name = some (freshQueue e) := by
  induction initData with
  | nil => simp at he
  | cons x rest ih =>
    simp only [List.map_cons, List.nodup_cons] at hu
    rcases List.mem_cons.mp he with h | h
    · subst h
      simp [mapGet]
    · have hne : ¬ x.Name = e.Name := by
        intro heq
        exact hu.1 (heq ▸ List.mem_map_of_mem (fun e => e.Name) h)
      simp only [List.map_cons, mapGet, hne, if_false]
      exact ih hu.2 h

/-- C12, initialization. For a roster with unique agent names, the agent map built by
`NewAssignmentSystem` holds exactly one work queue per roster entry and no other: under the
entry's name, with the entry's name, account and limit, an empty queue and no assignment
time. For each account the membership list is the list of the names of the roster entries of
that account, in roster order. -/
theorem initialization (initData : List AgentNameAndAccount)
    (hu : (initData.map (fun e => e.Name)).Nodup) :
    (NewAssignmentSystem initData).agentAssignments =
        initData.map (fun e => (e.Name, (⟨e.Limit, e.Name, none, [], e.Account⟩ : AgentWorkQueue))) ∧
    (∀ e ∈ initData,
      mapGet (NewAssignmentSystem initData).agentAssignments e.Name =
        some ⟨e.Limit, e.Name, none, [], e.Account⟩) ∧
    (∀ k wq, mapGet (NewAssignmentSystem initData).agentAssignments k = some wq →
      ∃ e ∈ initData, k = e.Name ∧ wq = ⟨e.Limit, e.Name, none, [], e.Account⟩) ∧
    ∀ account, members (NewAssignmentSystem initData) account =
      (initData.filter (fun e => decide (e.Account = account))).map (fun e => e.Name) := by
  have hagents : (NewAssignmentSystem initData).agentAssignments =
      initData.map (fun e => (e.Name, freshQueue e)) := by
    have := foldl_newStep_append initData ⟨[], []⟩ hu (by simp)
    simpa [NewAssignmentSystem] using this
  refine ⟨hagents, ?_, ?_, ?_⟩
  · intro e he
    rw [hagents]
    exact mapGet_map_fresh initData hu e he
  · intro k wq hget
    have hmem := mapGet_mem _ _ _ hget
    rw [hagents] at hmem
    obtain ⟨e, he, heq⟩ := List.mem_map.mp hmem
    simp only [Prod.mk.injEq] at heq
    exact ⟨e, he, heq.1.symm, heq.2.symm⟩
  · intro account
    have := foldl_newStep_members initData ⟨[], []⟩ account
    simpa [NewAssignmentSystem, members, mapGet] using this

theorem initialization_witness :
    (NewAssignmentSystem threeRoster).agentAssignments =
      [("agent1", ⟨3, "agent1", none, [], "account1"⟩),
       ("agent2", ⟨3, "agent2", none, [], "account2"⟩),
       ("agent3", ⟨3, "agent3", none, [], "account1"⟩)] :=
  (initialization threeRoster (by decide)).1

/-! ## Repeated names -/

theorem foldl_newStep_keys_nodup (initData : List AgentNameAndAccount) (s : AssignmentSystem)
    (h : (s.agentAssignments.map Prod.fst).Nodup) :
    ((initData.foldl newStep s).agentAssignments.map Prod.fst).Nodup := by
  induction initData generalizing s with
  | nil => exact h
  | cons e rest ih =>
    simp only [List.foldl_cons]
    apply ih
    rw [newStep_agents]
    exact mapSet_keys_nodup _ _ _ h

theorem foldl_newStep_other (initData : List AgentNameAndAccount) (s : AssignmentSystem)
    (k : String) (h : ∀ e ∈ initData, e.Name ≠ k) :
    mapGet (initData.foldl newStep s).agentAssignments k = mapGet s.agentAssignments k := by
  induction initData generalizing s with
  | nil => rfl
  | cons e rest ih =>
    simp only [List.foldl_cons]
    rw [ih _ (fun e' he' => h e' (List.mem_cons_of_mem _ he')), newStep_agents]
    exact mapGet_mapSet_ne _ _ _ _ (fun heq => h e (List.mem_cons_self _ _) heq.symm)

/-- C13, repeated names. Take any roster and an entry of it that is the last one with its
name. The agent map built by `NewAssignmentSystem` holds exactly one work queue under that
name, and it carries the limit and the account of that last entry, an empty queue and no
assignment time; no error is involved. -/
theorem later_entry_wins (before after : List AgentNameAndAccount) (e : AgentNameAndAccount)
    (hlast : ∀ e' ∈ after, e'.Name ≠ e.Name) :
    mapGet (NewAssignmentSystem (before ++ e :: after)).agentAssignments e.Name =
        some ⟨e.Limit, e.Name, none, [], e.Account⟩ ∧
    ((NewAssignmentSystem (before ++ e :: after)).agentAssignments.map Prod.fst).count e.Name
      = 1 := by
  have hget : mapGet (NewAssignmentSystem (before ++ e :: after)).agentAssignments e.Name =
      some ⟨e.Limit, e.Name, none, [], e.Account⟩ := by
    simp only [NewAssignmentSystem, List.foldl_append, List.foldl_cons]
    rw [foldl_newStep_other after _ e.Name hlast, newStep_agents, mapGet_mapSet_self]
    rfl
  refine ⟨hget, ?_⟩
  have hnd : ((NewAssignmentSystem (before ++ e :: after)).agentAssignments.map Prod.fst).Nodup :=
    foldl_newStep_keys_nodup _ ⟨[], []⟩ (by simp)
  exact List.count_eq_one_of_mem hnd (mapGet_some_key _ _ _ hget)

theorem later_entry_wins_witness :
    mapGet (NewAssignmentSystem repeatedRoster).agentAssignments "a" =
        some ⟨7, "a", none, [], "Y"⟩ ∧
    ((NewAssignmentSystem repeatedRoster).agentAssignments.map Prod.fst).count "a" = 1 :=
  later_entry_wins [⟨"a", "X", 1⟩, ⟨"b", "X", 2⟩] [] ⟨"a", "Y", 7⟩ (by simp)

/-! ## The tie-break stage and the clock -/

/-- C16, at candidates whose times are earlier than every clock reading: the stage reads the
clock anew at each `time.Since`. With the readings 1000, 1002, 1004 and the candidates a1,
assigned at 100, and a2, assigned at 101, it returns a2, the more recently assigned one. With
the readings 1000, 1001, 1002 and two candidates both assigned at 100 it returns the second,
not the first in list order. -/
theorem tie_break_reads_clock_anew :
    (getWorkQueueWithTheLeastRecentAssignment steppingClock 0 olderFirst).1 =
      some ("a2", ⟨5, "a2", some 101, ["e2"], "X"⟩) ∧
    (getWorkQueueWithTheLeastRecentAssignment tickingClock 0 sameInstant).1 =
      some ("a2", ⟨5, "a2", some 100, ["e2"], "X"⟩) := by
  constructor <;> decide

/-! ## Success and spare capacity -/

theorem timeSince_pos (now t : Int) (h : t < now) : 0 < timeSince now t := by
  have h1 : (0 : Int) < maxDuration := by decide
  have h2 : minDuration < 0 := by decide
  simp only [timeSince]
  have h3 : 0 < min maxDuration (now - t) := lt_min h1 (by omega)
  exact lt_of_lt_of_le h3 (le_max_right _ _)

theorem leastRecentLoop_keeps (clk : Nat → Int) (l : List WorkQueueRef) (tick : Nat) (hi : Int)
    (b : WorkQueueRef) : ∃ w, (leastRecentLoop clk l tick hi (some b)).1 = some w := by
  induction l generalizing tick hi b with
  | nil => exact ⟨b, rfl⟩
  | cons x rest ih =>
    simp only [leastRecentLoop]
    cases hx : x.2.LastAssignmentTime with
    | none => exact ⟨x, rfl⟩
    | some last =>
      simp only
      split
      · exact ih _ _ _
      · exact ih _ _ _

/-- The tie-break stage finds a candidate when its first candidate was never assigned or was
assigned before the reading of the clock. -/
theorem leastRecent_finds (clk : Nat → Int) (x : WorkQueueRef) (rest : List WorkQueueRef)
    (tick : Nat) (hx : ∀ last, x.2.LastAssignmentTime = some last → last < clk tick) :
    ∃ w, (getWorkQueueWithTheLeastRecentAssignment clk tick (x :: rest)).1 = some w := by
  simp only [getWorkQueueWithTheLeastRecentAssignment, leastRecentLoop]
  cases hlast : x.2.LastAssignmentTime with
  | none => exact ⟨x, rfl⟩
  | some last =>
    have hpos := timeSince_pos (clk tick) last (hx last hlast)
    simp only [gt_iff_lt, hpos, if_true]
    exact leastRecentLoop_keeps _ _ _ _ _

/-- With a non-empty eligible list whose recorded times are earlier than the reading of the
clock, `assign` returns, without the error. -/
theorem assign_returns (clk : Nat → Int) (s : AssignmentSystem) (tick : Nat)
    (c : ConversationToAssign) (elig : List WorkQueueRef)
    (he : getEligibleAgentWorkQueues s.accountAgents s.agentAssignments c.Account = some elig)
    (hne : elig ≠ [])
    (hpast : ∀ x ∈ elig, ∀ last, x.2.LastAssignmentTime = some last → last < clk tick) :
    ∃ r, assign clk s tick c = some r ∧ r.err = none := by
  have hlen : elig.length ≠ 0 := fun h => hne (List.length_eq_zero.mp h)
  unfold assign
  simp only [he, hlen, if_false]
  by_cases h1 : (getWorkqueuesWithLeastAmountOfWork elig).length = 1
  · obtain ⟨w, hw⟩ := List.length_eq_one.mp h1
    simp [h1, hw, assignToWorkQueue]
  · simp only [h1, if_false]
    cases hl : getWorkqueuesWithLeastAmountOfWork elig with
    | nil => exact absurd hl (least_ne_nil elig hne)
    | cons x rest =>
      have hxin : x ∈ elig := (mem_least elig x (by rw [hl]; exact List.mem_cons_self _ _)).1
      obtain ⟨w, hw⟩ := leastRecent_finds clk x rest tick (hpast x hxin)
      cases hb : getWorkQueueWithTheLeastRecentAssignment clk tick (x :: rest) with
      | mk best t =>
        rw [hb] at hw
        simp only at hw
        subst hw
        simp [assignToWorkQueue]

/-- C17, where the tie-break stage finds no candidate. In `laterStamps` no agent is above its
limit and both agents of X are below it, yet `assign` for X ends in a nil pointer dereference
instead of succeeding. The same happens on a registry left by `Assign` itself: under
`frozenClock` two conversations assigned on `roomyRoster` leave `stalePair`, where no agent is
above its limit and both agents of X are below it, and `assign` for X returns nothing. -/
theorem spare_capacity_but_no_success :
    CapacityInv laterStamps ∧
    (∃ k wq, Eligible laterStamps "X" k wq) ∧
    assign tickingClock laterStamps 0 ⟨"c1", "X"⟩ = none ∧
    Assign frozenClock (NewAssignmentSystem roomyRoster) 0 [⟨"c1", "X"⟩, ⟨"c2", "X"⟩] =
      some ⟨stalePair, 2, ["a1", "a2"], none⟩ ∧
    CapacityInv stalePair ∧
    Eligible stalePair "X" "a1" ⟨2, "a1", some 5, ["c1"], "X"⟩ ∧
    Eligible stalePair "X" "a2" ⟨2, "a2", some 5, ["c2"], "X"⟩ ∧
    assign frozenClock stalePair 2 ⟨"c3", "X"⟩ = none := by
  refine ⟨?_, ⟨"a1", ⟨3, "a1", some 5000, ["e1"], "X"⟩, ?_⟩, by decide, by rfl, ?_,
    ⟨by decide, by decide, by decide⟩, ⟨by decide, by decide, by decide⟩, by decide⟩
  · intro p hp
    simp only [laterStamps, List.mem_cons, List.mem_singleton, List.not_mem_nil, or_false] at hp
    rcases hp with rfl | rfl <;> decide
  · exact ⟨by decide, by decide, by decide⟩
  · intro p hp
    simp only [stalePair, List.mem_cons, List.mem_singleton, List.not_mem_nil, or_false] at hp
    rcases hp with rfl | rfl <;> decide

/-- Success and spare capacity where the tie-break stage finds a candidate. Let every name
listed under the item's account be registered with a queue no longer than its limit. When no listed agent is below its limit (in particular when the
account lists no agent), `assign` returns the error and the empty name and leaves the registry
unchanged. When some listed agent is below its limit, `assign` never returns the error; and it
does succeed when the recorded assignment times of the listed agents are earlier than the
reading of the clock. -/
theorem success_iff_spare_capacity (clk : Nat → Int) (s : AssignmentSystem) (tick : Nat)
    (c : ConversationToAssign)
    (hreg : ∀ k ∈ members s c.Account,
      ∃ wq, mapGet s.agentAssignments k = some wq ∧ (wq.Queue.length : Int) ≤ wq.Limit) :
    ((¬ ∃ k wq, Eligible s c.Account k wq) →
      assign clk s tick c = some ⟨s, tick, "", some GoError.noAvailableAgents⟩) ∧
    ((∃ k wq, Eligible s c.Account k wq) →
      ∀ r, assign clk s tick c = some r → r.err = none) ∧
    ((∃ k wq, Eligible s c.Account k wq) →
      (∀ k ∈ members s c.Account, ∀ wq last, mapGet s.agentAssignments k = some wq →
        wq.LastAssignmentTime = some last → last < clk tick) →
      ∃ r, assign clk s tick c = some r ∧ r.err = none) ∧
    (members s c.Account = [] →
      assign clk s tick c = some ⟨s, tick, "", some GoError.noAvailableAgents⟩) := by
  have hpresent : ∀ p ∈ (members s c.Account).map
      (fun agent => (agent, mapGet s.agentAssignments agent)), p.2 ≠ none := by
    intro p hp
    obtain ⟨a, ha, rfl⟩ := List.mem_map.mp hp
    obtain ⟨wq', hg', _⟩ := hreg a ha
    simp [hg']
  obtain ⟨elig, he⟩ := filterAvailable_total _ hpresent
  have he' : getEligibleAgentWorkQueues s.accountAgents s.agentAssignments c.Account =
      some elig := he
  have hfull : (¬ ∃ k wq, Eligible s c.Account k wq) →
      assign clk s tick c = some ⟨s, tick, "", some GoError.noAvailableAgents⟩ := by
    intro hno
    have h := filterAvailable_full s.agentAssignments (members s c.Account) (by
      intro k hk
      obtain ⟨wq, hg, hle⟩ := hreg k hk
      refine ⟨wq, hg, ?_⟩
      by_contra hne
      exact hno ⟨k, wq, hk, hg, lt_of_le_of_ne hle hne⟩)
    simp only [members] at h
    simp [assign, getEligibleAgentWorkQueues, h]
  have hin : (∃ k wq, Eligible s c.Account k wq) → elig ≠ [] := by
    rintro ⟨k, wq, hk, hg, hlt⟩ hnil
    have := (mem_getEligible _ _ _ elig he' (k, wq)).mpr ⟨hk, hg, ne_of_lt hlt⟩
    rw [hnil] at this
    simp at this
  refine ⟨hfull, ?_, ?_, ?_⟩
  · intro hex r hr
    obtain ⟨elig', he'', hcase⟩ := assign_cases clk s tick c r hr
    rw [he'] at he''
    simp only [Option.some.injEq] at he''
    subst he''
    rcases hcase with ⟨hnil, _⟩ | ⟨w, t, _, _, hreq⟩
    · exact absurd hnil (hin hex)
    · rw [hreq]
  · intro hex hpast
    apply assign_returns clk s tick c elig he' (hin hex)
    intro x hx last hlast
    obtain ⟨h1, h2, _⟩ := (mem_getEligible _ _ _ elig he' x).mp hx
    exact hpast x.1 h1 x.2 last h2 hlast
  · intro hnil
    apply hfull
    rintro ⟨k, wq, hk, _, _⟩
    rw [hnil] at hk
    simp at hk

theorem success_iff_spare_capacity_witness :
    ∃ r, assign tickingClock unevenLoad 0 ⟨"new1", "X"⟩ = some r ∧ r.err = none :=
  (success_iff_spare_capacity tickingClock unevenLoad 0 ⟨"new1", "X"⟩ (by
    intro k hk
    simp only [members, unevenLoad, mapGet, if_true, Option.getD_some, List.mem_cons,
      List.mem_singleton, List.not_mem_nil, or_false] at hk
    rcases hk with rfl | rfl
    · exact ⟨⟨5, "a1", some 700, ["e1", "e2"], "X"⟩, by decide, by decide⟩
    · exact ⟨⟨5, "a2", some 400, ["e3"], "X"⟩, by decide, by decide⟩)).2.2.1
    ⟨"a2", ⟨5, "a2", some 400, ["e3"], "X"⟩, by decide, by decide, by decide⟩ (by
    intro k hk wq last hg hl
    simp only [members, unevenLoad, mapGet, if_true, Option.getD_some, List.mem_cons,
      List.mem_singleton, List.not_mem_nil, or_false] at hk
    rcases hk with rfl | rfl
    · have : wq = ⟨5, "a1", some 700, ["e1", "e2"], "X"⟩ := by
        simpa [unevenLoad, mapGet] using hg.symm
      subst this
      simp only [Option.some.injEq] at hl
      subst hl
      decide
    · have : wq = ⟨5, "a2", some 400, ["e3"], "X"⟩ := by
        simpa [unevenLoad, mapGet] using hg.symm
      subst this
      simp only [Option.some.injEq] at hl
      subst hl
      decide)

/-! ## Registries under an advancing clock -/

theorem assign_accounts (clk : Nat → Int) (s : AssignmentSystem) (tick : Nat)
    (c : ConversationToAssign) (r : AssignOutcome) (h : assign clk s tick c = some r) :
    r.sys.accountAgents = s.accountAgents := by
  obtain ⟨elig, _, hcase⟩ := assign_cases clk s tick c r h
  rcases hcase with ⟨_, hr⟩ | ⟨w, t, _, _, hr⟩
  · rw [hr]
  · rw [hr]
    rfl

theorem assign_members (clk : Nat → Int) (s : AssignmentSystem) (tick : Nat)
    (c : ConversationToAssign) (r : AssignOutcome) (h : assign clk s tick c = some r)
    (account : String) : members r.sys account = members s account := by
  simp only [members, assign_accounts clk s tick c r h]

theorem new_sound (clk : Nat → Int) (tick : Nat) (initData : List AgentNameAndAccount)
    (hu : (initData.map (fun e => e.Name)).Nodup) (hlim : ∀ e ∈ initData, 0 ≤ e.Limit) :
    Sound clk (NewAssignmentSystem initData) tick where
  consistent := new_consistent initData hu
  capacity := new_capacity initData hlim
  distinct := by
    intro account
    have h := foldl_newStep_members initData ⟨[], []⟩ account
    have h0 : members (⟨[], []⟩ : AssignmentSystem) account = [] := rfl
    rw [h0, List.nil_append] at h
    simp only [NewAssignmentSystem]
    rw [h]
    exact List.Nodup.sublist (List.Sublist.map _ (List.filter_sublist _)) hu
  past := by
    intro p hp last hlast
    rcases foldl_newStep_agents initData _ p hp with h1 | ⟨e, _, rfl⟩
    · simp at h1
    · simp at hlast

theorem assign_sound (clk : Nat → Int) (hclk : Advancing clk) (s : AssignmentSystem)
    (tick : Nat) (c : ConversationToAssign) (r : AssignOutcome)
    (h : assign clk s tick c = some r) (hs : Sound clk s tick) : Sound clk r.sys r.tick where
  consistent := assign_consistent clk s tick c r h hs.consistent
  capacity := assign_capacity clk s tick c r h hs.capacity
  distinct := by
    intro account
    rw [assign_members clk s tick c r h]
    exact hs.distinct account
  past := by
    have htick := assign_tick clk s tick c r h
    cases herr : r.err with
    | some e =>
      rw [assign_failed clk s tick c r h e herr]
      exact hs.past
    | none =>
      obtain ⟨w, t, _, _, _, _, hr⟩ := assign_winner clk s tick c r h herr
      have hrt : r.tick = t + 1 := by rw [hr]
      have htt : tick ≤ t := by have := htick.2 herr; omega
      intro p hp last hlast t' ht'
      rw [hr] at hp
      rcases mem_mapModify _ _ _ _ hp with h1 | ⟨v, _, rfl⟩
      · exact hs.past p h1 last hlast t' (by omega)
      · simp only [pushConversation, Option.some.injEq] at hlast
        rw [← hlast]
        exact hclk t t' (by omega)

theorem assignLoop_sound (clk : Nat → Int) (hclk : Advancing clk)
    (batch : List ConversationToAssign) (st st' : AssignLoopState)
    (h : assignLoop clk st batch = some st') (hs : Sound clk st.sys st.tick) :
    Sound clk st'.sys st'.tick := by
  induction batch generalizing st with
  | nil =>
    simp only [assignLoop, Option.some.injEq] at h
    rw [← h]
    exact hs
  | cons c rest ih =>
    cases ha : assign clk st.sys st.tick c with
    | none =>
      rw [assignLoop_cons_panic clk _ c rest ha] at h
      simp at h
    | some r =>
      have hr := assign_sound clk hclk _ _ c r ha hs
      cases herr : r.err with
      | some e =>
        rw [assignLoop_cons_err clk _ c rest r e ha herr] at h
        exact ih _ h hr
      | none =>
        rw [assignLoop_cons_ok clk _ c rest r ha herr] at h
        exact ih _ h hr

/-- In a sound registry under an advancing clock `assign` returns: with the error, on the
unchanged registry, when every listed agent of the account is at its limit; otherwise with a
winner that is listed, registered, below its limit and no more loaded than any listed agent
below its limit. -/
theorem assign_step (clk : Nat → Int) (s : AssignmentSystem) (tick : Nat)
    (c : ConversationToAssign) (hs : Sound clk s tick) :
    ∃ r, assign clk s tick c = some r ∧
      ((r = ⟨s, tick, "", some GoError.noAvailableAgents⟩ ∧
          ∀ k ∈ members s c.Account, ∀ wq, mapGet s.agentAssignments k = some wq →
            (wq.Queue.length : Int) = wq.Limit) ∨
       (∃ (w : WorkQueueRef) (t : Nat), w.1 ∈ members s c.Account ∧
          mapGet s.agentAssignments w.1 = some w.2 ∧
          (w.2.Queue.length : Int) < w.2.Limit ∧
          (∀ k ∈ members s c.Account, ∀ wq, mapGet s.agentAssignments k = some wq →
            (wq.Queue.length : Int) < wq.Limit → w.2.Queue.length ≤ wq.Queue.length) ∧
          r = ⟨commit s w.1 c.ConversationID (clk t), t + 1, w.2.AgentName, none⟩)) := by
  have hpresent : ∀ p ∈ (members s c.Account).map
      (fun agent => (agent, mapGet s.agentAssignments agent)), p.2 ≠ none := by
    intro p hp
    obtain ⟨a, ha, rfl⟩ := List.mem_map.mp hp
    obtain ⟨wq', hg', _⟩ := hs.consistent c.Account a ha
    simp [hg']
  obtain ⟨elig, he⟩ := filterAvailable_total _ hpresent
  have he' : getEligibleAgentWorkQueues s.accountAgents s.agentAssignments c.Account =
      some elig := he
  by_cases hnil : elig = []
  · refine ⟨⟨s, tick, "", some GoError.noAvailableAgents⟩, ?_, Or.inl ⟨rfl, ?_⟩⟩
    · simp [assign, he', hnil]
    · intro k hk wq hg
      by_contra hne
      have := (mem_getEligible _ _ _ elig he' (k, wq)).mpr ⟨hk, hg, hne⟩
      rw [hnil] at this
      simp at this
  · obtain ⟨r, hr, hok⟩ := assign_returns clk s tick c elig he' hnil (by
      intro x hx last hlast
      obtain ⟨_, h2, _⟩ := (mem_getEligible _ _ _ elig he' x).mp hx
      exact hs.past x (mapGet_mem _ _ _ h2) last hlast tick (le_refl _))
    refine ⟨r, hr, Or.inr ?_⟩
    obtain ⟨w, t, hmem, hget, hne, hmin, hreq⟩ := assign_winner clk s tick c r hr hok
    have hle := hs.capacity _ (mapGet_mem _ _ _ hget)
    refine ⟨w, t, hmem, hget, lt_of_le_of_ne hle hne, ?_, hreq⟩
    intro k hk wq hg hlt
    exact hmin k hk wq hg (ne_of_lt hlt)

/-! ## Counting capacity -/

theorem sum_map_update (l : List String) (hnd : l.Nodup) (w : String) (hw : w ∈ l)
    (f g : String → Int) (hsame : ∀ k ∈ l, k ≠ w → g k = f k) :
    (l.map g).sum = (l.map f).sum + (g w - f w) := by
  induction l with
  | nil => simp at hw
  | cons x rest ih =>
    simp only [List.nodup_cons] at hnd
    simp only [List.map_cons, List.sum_cons]
    by_cases hx : x = w
    · subst hx
      have hrest : rest.map g = rest.map f := by
        apply List.map_congr_left
        intro k hk
        exact hsame k (List.mem_cons_of_mem _ hk) (fun h => hnd.1 (h ▸ hk))
      rw [hrest]
      omega
    · have hwr : w ∈ rest := by
        rcases List.mem_cons.mp hw with h | h
        · exact absurd h.symm hx
        · exact h
      rw [ih hnd.2 hwr (fun k hk hne => hsame k (List.mem_cons_of_mem _ hk) hne),
        hsame x (List.mem_cons_self _ _) hx]
      omega

theorem room_commit (s : AssignmentSystem) (w : WorkQueueRef) (id : String) (now : Int)
    (hget : mapGet s.agentAssignments w.1 = some w.2) (k : String) :
    room (commit s w.1 id now) k = if k = w.1 then room s k - 1 else room s k := by
  by_cases hk : k = w.1
  · subst hk
    simp only [room, commit, mapGet_mapModify_self, hget, Option.map_some', pushConversation,
      List.length_append, List.length_singleton, Nat.cast_add, Nat.cast_one, if_true]
    omega
  · simp only [room, commit, mapGet_mapModify_ne _ _ _ _ hk, if_neg hk]

theorem queueLen_commit (s : AssignmentSystem) (w : WorkQueueRef) (id : String) (now : Int)
    (hget : mapGet s.agentAssignments w.1 = some w.2) (k : String) :
    queueLen (commit s w.1 id now) k = if k = w.1 then queueLen s k + 1 else queueLen s k := by
  by_cases hk : k = w.1
  · subst hk
    simp only [queueLen, commit, mapGet_mapModify_self, hget, Option.map_some',
      pushConversation, List.length_append, List.length_singleton, if_true]
  · simp only [queueLen, commit, mapGet_mapModify_ne _ _ _ _ hk, if_neg hk]

theorem room_nonneg (clk : Nat → Int) (s : AssignmentSystem) (tick : Nat)
    (hs : Sound clk s tick) (k : String) : 0 ≤ room s k := by
  simp only [room]
  cases hg : mapGet s.agentAssignments k with
  | none => simp
  | some wq =>
    have := hs.capacity _ (mapGet_mem _ _ _ hg)
    simp only at this ⊢
    omega

theorem capacityLeft_nonneg (clk : Nat → Int) (s : AssignmentSystem) (tick : Nat)
    (hs : Sound clk s tick) (account : String) : 0 ≤ capacityLeft s account := by
  simp only [capacityLeft]
  apply List.sum_nonneg
  intro x hx
  obtain ⟨k, _, rfl⟩ := List.mem_map.mp hx
  exact room_nonneg clk s tick hs k

/-- One item in a sound registry under an advancing clock: `assign` returns on a sound
registry; with no capacity left it returns the error and changes nothing; otherwise it
succeeds and the capacity left to the account decreases by one. -/
theorem assign_capacity_step (clk : Nat → Int) (hclk : Advancing clk) (s : AssignmentSystem)
    (tick : Nat) (c : ConversationToAssign) (hs : Sound clk s tick) :
    ∃ r, assign clk s tick c = some r ∧ Sound clk r.sys r.tick ∧
      ((capacityLeft s c.Account = 0 ∧ r.err = some GoError.noAvailableAgents ∧ r.sys = s) ∨
       (0 < capacityLeft s c.Account ∧ r.err = none ∧
          capacityLeft r.sys c.Account = capacityLeft s c.Account - 1)) := by
  obtain ⟨r, hr, hcase⟩ := assign_step clk s tick c hs
  refine ⟨r, hr, assign_sound clk hclk s tick c r hr hs, ?_⟩
  rcases hcase with ⟨hreq, hfull⟩ | ⟨w, t, hmem, hget, hlt, _, hreq⟩
  · left
    refine ⟨?_, by rw [hreq], by rw [hreq]⟩
    simp only [capacityLeft]
    apply List.sum_eq_zero
    intro x hx
    obtain ⟨k, hk, rfl⟩ := List.mem_map.mp hx
    obtain ⟨wq, hg, _, _⟩ := hs.consistent c.Account k hk
    have := hfull k hk wq hg
    simp only [room, hg]
    omega
  · right
    have hupd : capacityLeft r.sys c.Account = capacityLeft s c.Account - 1 := by
      have hm : members r.sys c.Account = members s c.Account :=
        assign_members clk s tick c r hr c.Account
      simp only [capacityLeft, hm]
      rw [sum_map_update (members s c.Account) (hs.distinct c.Account) w.1 hmem (room s)
        (room r.sys)]
      · rw [hreq, room_commit s w _ _ hget w.1]
        simp
        omega
      · intro k _ hne
        rw [hreq, room_commit s w _ _ hget k, if_neg hne]
    refine ⟨?_, by rw [hreq], hupd⟩
    have h0 := capacityLeft_nonneg clk r.sys r.tick (assign_sound clk hclk s tick c r hr hs)
      c.Account
    omega

/-- A batch for one account in a sound registry under an advancing clock: the loop returns,
the number of names grows by the smaller of the batch size and the capacity left, the number
of failures by the excess of the batch size over the capacity left. -/
theorem assignLoop_count (clk : Nat → Int) (hclk : Advancing clk) (account : String)
    (batch : List ConversationToAssign) (hb : ∀ c ∈ batch, c.Account = account)
    (st : AssignLoopState) (hs : Sound clk st.sys st.tick) :
    ∃ st', assignLoop clk st batch = some st' ∧ Sound clk st'.sys st'.tick ∧
      (st'.assignedAgents.length : Int) =
        st.assignedAgents.length + min (batch.length : Int) (capacityLeft st.sys account) ∧
      (st'.failedAssignments.length : Int) =
        st.failedAssignments.length +
          max 0 ((batch.length : Int) - capacityLeft st.sys account) := by
  induction batch generalizing st with
  | nil =>
    have h0 := capacityLeft_nonneg clk st.sys st.tick hs account
    refine ⟨st, rfl, hs, ?_, ?_⟩
    · simp [min_eq_left h0]
    · simp [h0]
  | cons c rest ih =>
    have hc : c.Account = account := hb c (List.mem_cons_self _ _)
    obtain ⟨r, hr, hsr, hcase⟩ := assign_capacity_step clk hclk st.sys st.tick c hs
    rw [hc] at hcase
    have h0 := capacityLeft_nonneg clk st.sys st.tick hs account
    rcases hcase with ⟨hzero, herr, hsys⟩ | ⟨hpos, herr, hdec⟩
    · obtain ⟨st', h1, h2, h3, h4⟩ := ih (fun c' hc' => hb c' (List.mem_cons_of_mem _ hc'))
        ⟨r.sys, r.tick, st.assignedAgents,
          st.failedAssignments ++ [⟨c, GoError.noAvailableAgents⟩]⟩ hsr
      simp only [hsys, hzero, List.length_append, List.length_singleton, Nat.cast_add,
        Nat.cast_one, min_def, max_def] at h3 h4
      refine ⟨st', ?_, h2, ?_, ?_⟩
      · rw [assignLoop_cons_err clk _ c rest r _ hr herr]
        exact h1
      · simp only [hzero, List.length_cons, Nat.cast_add, Nat.cast_one, min_def]
        split_ifs at h3 ⊢ <;> omega
      · simp only [hzero, List.length_cons, Nat.cast_add, Nat.cast_one, max_def]
        split_ifs at h4 ⊢ <;> omega
    · obtain ⟨st', h1, h2, h3, h4⟩ := ih (fun c' hc' => hb c' (List.mem_cons_of_mem _ hc'))
        ⟨r.sys, r.tick, st.assignedAgents ++ [r.agent], st.failedAssignments⟩ hsr
      simp only [hdec, List.length_append, List.length_singleton, Nat.cast_add,
        Nat.cast_one, min_def, max_def] at h3 h4
      refine ⟨st', ?_, h2, ?_, ?_⟩
      · rw [assignLoop_cons_ok clk _ c rest r hr herr]
        exact h1
      · simp only [List.length_cons, Nat.cast_add, Nat.cast_one, min_def]
        split_ifs at h3 ⊢ <;> omega
      · simp only [List.length_cons, Nat.cast_add, Nat.cast_one, max_def]
        split_ifs at h4 ⊢ <;> omega

theorem assignLoop_total (clk : Nat → Int) (hclk : Advancing clk)
    (batch : List ConversationToAssign) (st : AssignLoopState)
    (hs : Sound clk st.sys st.tick) :
    ∃ st', assignLoop clk st batch = some st' ∧ Sound clk st'.sys st'.tick := by
  induction batch generalizing st with
  | nil => exact ⟨st, rfl, hs⟩
  | cons c rest ih =>
    obtain ⟨r, hr, hsr, _⟩ := assign_capacity_step clk hclk st.sys st.tick c hs
    cases herr : r.err with
    | some e =>
      rw [assignLoop_cons_err clk _ c rest r e hr herr]
      exact ih _ hsr
    | none =>
      rw [assignLoop_cons_ok clk _ c rest r hr herr]
      exact ih _ hsr

theorem runBatches_total (clk : Nat → Int) (hclk : Advancing clk)
    (batches : List (List ConversationToAssign)) (s : AssignmentSystem) (tick : Nat)
    (hs : Sound clk s tick) :
    ∃ res, runBatches clk s tick batches = some res ∧ Sound clk res.1 res.2 := by
  induction batches generalizing s tick with
  | nil => exact ⟨(s, tick), rfl, hs⟩
  | cons b rest ih =>
    obtain ⟨st', h1, h2⟩ := assignLoop_total clk hclk b ⟨s, tick, [], []⟩ hs
    have ha : Assign clk s tick b =
        some ⟨st'.sys, st'.tick, st'.assignedAgents, constructError st'.failedAssignments⟩ := by
      simp [Assign, h1]
    simp only [runBatches, ha]
    exact ih _ _ h2

/-! ## The capacity of a batch -/

/-- C19, under a clock that shows one instant twice. The roster `roomyRoster` has unique names
and non-negative limits, and its two agents of limit 2 leave room for four items of account X.
Yet under `frozenClock` the batch of three items of X returns nothing, where the claim expects
three names and no error: the third item finds both agents assigned at the instant the clock
still shows and ends in a nil pointer dereference. The same happens after an earlier call of
`Assign`: the batch of two items leaves `stalePair` with room for two, and the batch of one
further item returns nothing. -/
theorem batch_lost_under_frozen_clock :
    (roomyRoster.map (fun e => e.Name)).Nodup ∧
    (∀ e ∈ roomyRoster, 0 ≤ e.Limit) ∧
    (∀ c ∈ threeForX, c.Account = "X") ∧
    capacityLeft (NewAssignmentSystem roomyRoster) "X" = 4 ∧
    Assign frozenClock (NewAssignmentSystem roomyRoster) 0 threeForX = none ∧
    runBatches frozenClock (NewAssignmentSystem roomyRoster) 0 [[⟨"c1", "X"⟩, ⟨"c2", "X"⟩]] =
      some (stalePair, 2) ∧
    capacityLeft stalePair "X" = 2 ∧
    Assign frozenClock stalePair 2 [⟨"c3", "X"⟩] = none := by
  refine ⟨by decide, by decide, by decide, by decide, by decide, by rfl, by decide, by decide⟩

/-- The capacity of a batch under a clock that advances. Take a system built by
`NewAssignmentSystem` from a roster with unique names and non-negative limits, under a clock
that advances. Every sequence of earlier `Assign`
calls returns. On the registry they leave, a batch of items that all carry one account returns
as many names as the smaller of the batch size and the capacity left to that account (the sum
over its agents of limit minus queue length); the error is non-nil exactly when the batch size
exceeds that capacity, and then it reports the excess. -/
theorem batch_capacity_count (initData : List AgentNameAndAccount)
    (hu : (initData.map (fun e => e.Name)).Nodup) (hlim : ∀ e ∈ initData, 0 ≤ e.Limit)
    (clk : Nat → Int) (hclk : Advancing clk) (tick : Nat)
    (batches : List (List ConversationToAssign)) :
    ∃ s t, runBatches clk (NewAssignmentSystem initData) tick batches = some (s, t) ∧
      ∀ (account : String) (batch : List ConversationToAssign),
        (∀ c ∈ batch, c.Account = account) →
        ∃ out, Assign clk s t batch = some out ∧
          (out.assignedAgents.length : Int) =
            min (batch.length : Int) (capacityLeft s account) ∧
          (out.err ≠ none ↔ capacityLeft s account < batch.length) ∧
          out.err =
            (if (batch.length : Int) ≤ capacityLeft s account then none
             else some (GoError.failedToAssign
               ((batch.length : Int) - capacityLeft s account).toNat)) := by
  obtain ⟨res, hrun, hsound⟩ := runBatches_total clk hclk batches _ tick
    (new_sound clk tick initData hu hlim)
  refine ⟨res.1, res.2, hrun, ?_⟩
  intro account batch hb
  obtain ⟨st', h1, _, h3, h4⟩ := assignLoop_count clk hclk account batch hb
    ⟨res.1, res.2, [], []⟩ hsound
  simp only [List.length_nil, Nat.cast_zero, zero_add] at h3 h4
  have herr : constructError st'.failedAssignments =
      (if (batch.length : Int) ≤ capacityLeft res.1 account then none
       else some (GoError.failedToAssign
         ((batch.length : Int) - capacityLeft res.1 account).toNat)) := by
    simp only [constructError]
    by_cases hle : (batch.length : Int) ≤ capacityLeft res.1 account
    · have : st'.failedAssignments.length = 0 := by
        rw [max_eq_left (by omega)] at h4
        exact_mod_cast h4
      simp [this, hle]
    · have hpos : (st'.failedAssignments.length : Int) =
          (batch.length : Int) - capacityLeft res.1 account := by
        rw [max_eq_right (by omega)] at h4
        exact h4
      have hne : st'.failedAssignments.length ≠ 0 := by omega
      have hnat : ((batch.length : Int) - capacityLeft res.1 account).toNat =
          st'.failedAssignments.length := by omega
      simp [hne, hle, hnat]
  refine ⟨⟨st'.sys, st'.tick, st'.assignedAgents, constructError st'.failedAssignments⟩,
    by simp [Assign, h1], h3, ?_, herr⟩
  simp only [herr]
  by_cases hle : (batch.length : Int) ≤ capacityLeft res.1 account
  · simp [hle]
  · simp [hle]
    omega

theorem tickingClock_advancing : Advancing tickingClock := by
  intro i j hij
  simp only [tickingClock]
  omega

theorem batch_capacity_count_witness :
    (∃ s t, runBatches tickingClock (NewAssignmentSystem pairRoster) 0 [] = some (s, t) ∧
      ∀ (account : String) (batch : List ConversationToAssign),
        (∀ c ∈ batch, c.Account = account) →
        ∃ out, Assign tickingClock s t batch = some out ∧
          (out.assignedAgents.length : Int) =
            min (batch.length : Int) (capacityLeft s account) ∧
          (out.err ≠ none ↔ capacityLeft s account < batch.length) ∧
          out.err =
            (if (batch.length : Int) ≤ capacityLeft s account then none
             else some (GoError.failedToAssign
               ((batch.length : Int) - capacityLeft s account).toNat))) ∧
    capacityLeft (NewAssignmentSystem pairRoster) "X" = 2 ∧
    Assign tickingClock (NewAssignmentSystem pairRoster) 0 threeForX =
      some ⟨pairFull, 2, ["a1", "a2"], some (GoError.failedToAssign 1)⟩ :=
  ⟨batch_capacity_count pairRoster (by decide) (by decide) tickingClock tickingClock_advancing
    0 [], by decide, by rfl⟩

/-! ## Even distribution -/

theorem sum_map_incr (l : List String) (hnd : l.Nodup) (w : String) (hw : w ∈ l)
    (f g : String → Nat) (hsame : ∀ k ∈ l, k ≠ w → g k = f k) (hinc : g w = f w + 1) :
    (l.map g).sum = (l.map f).sum + 1 := by
  induction l with
  | nil => simp at hw
  | cons x rest ih =>
    simp only [List.nodup_cons] at hnd
    simp only [List.map_cons, List.sum_cons]
    by_cases hx : x = w
    · subst hx
      have hrest : rest.map g = rest.map f := by
        apply List.map_congr_left
        intro k hk
        exact hsame k (List.mem_cons_of_mem _ hk) (fun h => hnd.1 (h ▸ hk))
      rw [hrest, hinc]
      omega
    · have hwr : w ∈ rest := by
        rcases List.mem_cons.mp hw with h | h
        · exact absurd h.symm hx
        · exact h
      rw [ih hnd.2 hwr (fun k hk hne => hsame k (List.mem_cons_of_mem _ hk) hne),
        hsame x (List.mem_cons_self _ _) hx]
      omega

theorem exists_lt_of_sum_lt (l : List String) (f : String → Nat) (k : Nat)
    (h : (l.map f).sum < l.length * k) : ∃ x ∈ l, f x < k := by
  induction l with
  | nil => simp at h
  | cons x rest ih =>
    by_cases hx : f x < k
    · exact ⟨x, List.mem_cons_self _ _, hx⟩
    · simp only [List.map_cons, List.sum_cons, List.length_cons, Nat.add_mul, Nat.one_mul] at h
      obtain ⟨y, hy, hlt⟩ := ih (by omega)
      exact ⟨y, List.mem_cons_of_mem _ hy, hlt⟩

theorem all_eq_of_sum_eq (l : List String) (f : String → Nat) (k : Nat)
    (hle : ∀ x ∈ l, f x ≤ k) (h : (l.map f).sum = l.length * k) : ∀ x ∈ l, f x = k := by
  induction l with
  | nil => simp
  | cons x rest ih =>
    simp only [List.map_cons, List.sum_cons, List.length_cons, Nat.add_mul, Nat.one_mul] at h
    have hx := hle x (List.mem_cons_self _ _)
    have hrest : (rest.map f).sum ≤ rest.length * k := by
      have hall : ∀ (l : List String), (∀ y ∈ l, f y ≤ k) → (l.map f).sum ≤ l.length * k := by
        intro l
        induction l with
        | nil => simp
        | cons y ys ihy =>
          intro hy
          simp only [List.map_cons, List.sum_cons, List.length_cons, Nat.add_mul, Nat.one_mul]
          have := hy y (List.mem_cons_self _ _)
          have := ihy (fun z hz => hy z (List.mem_cons_of_mem _ hz))
          omega
      exact hall rest (fun y hy => hle y (List.mem_cons_of_mem _ hy))
    intro y hy
    rcases List.mem_cons.mp hy with rfl | hy'
    · omega
    · exact ih (fun z hz => hle z (List.mem_cons_of_mem _ hz)) (by omega) y hy'

/-- One item for an evenly loaded account that still has an agent below `k`: `assign`
succeeds, and the account stays evenly loaded with one conversation more. -/
theorem even_step (clk : Nat → Int) (hclk : Advancing clk) (s : AssignmentSystem) (tick : Nat)
    (c : ConversationToAssign) (k : Nat) (he : Even clk s tick c.Account k)
    (hroom : load s c.Account < (members s c.Account).length * k) :
    ∃ r, assign clk s tick c = some r ∧ r.err = none ∧ Even clk r.sys r.tick c.Account k ∧
      members r.sys c.Account = members s c.Account ∧
      load r.sys c.Account = load s c.Account + 1 := by
  obtain ⟨x0, hx0, hx0lt⟩ := exists_lt_of_sum_lt _ _ _ hroom
  obtain ⟨wq0, hg0, _, _⟩ := he.sound.consistent c.Account x0 hx0
  have hq0 : queueLen s x0 = wq0.Queue.length := by simp [queueLen, hg0]
  have hlim0 := he.limits x0 hx0 wq0 hg0
  obtain ⟨r, hr, hcase⟩ := assign_step clk s tick c he.sound
  have hm : members r.sys c.Account = members s c.Account :=
    assign_members clk s tick c r hr c.Account
  rcases hcase with ⟨_, hfull⟩ | ⟨w, t, hmem, hget, hlt, hmin, hreq⟩
  · have := hfull x0 hx0 wq0 hg0
    omega
  · have hqw : queueLen s w.1 = w.2.Queue.length := by simp [queueLen, hget]
    have hw0 : w.2.Queue.length ≤ wq0.Queue.length := hmin x0 hx0 wq0 hg0 (by omega)
    have hwmin : ∀ y ∈ members s c.Account, queueLen s w.1 ≤ queueLen s y := by
      intro y hy
      obtain ⟨wqy, hgy, _, _⟩ := he.sound.consistent c.Account y hy
      have hqy : queueLen s y = wqy.Queue.length := by simp [queueLen, hgy]
      have hyk := he.atMost y hy
      have hylim := he.limits y hy wqy hgy
      by_cases hlt' : wqy.Queue.length < k
      · have := hmin y hy wqy hgy (by omega)
        omega
      · omega
    have hql : ∀ y, queueLen r.sys y = if y = w.1 then queueLen s y + 1 else queueLen s y := by
      intro y
      rw [hreq]
      exact queueLen_commit s w _ _ hget y
    refine ⟨r, hr, by rw [hreq], ?_, hm, ?_⟩
    · refine ⟨assign_sound clk hclk s tick c r hr he.sound, ?_, ?_, ?_⟩
      · intro y hy
        rw [hm] at hy
        rw [hql y]
        have := he.atMost y hy
        split_ifs with hyw
        · subst hyw
          omega
        · exact this
      · intro y hy wq hg
        rw [hm] at hy
        rw [hreq] at hg
        simp only [commit] at hg
        by_cases hyw : y = w.1
        · subst hyw
          rw [mapGet_mapModify_self, hget] at hg
          simp only [Option.map_some', Option.some.injEq] at hg
          rw [← hg]
          exact he.limits w.1 hy w.2 hget
        · rw [mapGet_mapModify_ne _ _ _ _ hyw] at hg
          exact he.limits y hy wq hg
      · intro x hx y hy
        rw [hm] at hx hy
        rw [hql x, hql y]
        have hb := he.balanced x hx y hy
        have hbw := he.balanced x hx w.1 hmem
        have hwy := hwmin y hy
        split_ifs with hxw hyw hyw
        · omega
        · subst hxw
          omega
        · subst hyw
          omega
        · exact hb
    · simp only [load, hm]
      exact sum_map_incr (members s c.Account) (he.sound.distinct c.Account) w.1 hmem
        (queueLen s) (queueLen r.sys) (fun y _ hne => by rw [hql y, if_neg hne])
        (by rw [hql w.1, if_pos rfl])

/-- A batch for an evenly loaded account that fits under `k` per agent: every item succeeds
and the account stays evenly loaded. -/
theorem even_loop (clk : Nat → Int) (hclk : Advancing clk) (account : String) (k : Nat)
    (batch : List ConversationToAssign) (hb : ∀ c ∈ batch, c.Account = account)
    (st : AssignLoopState) (he : Even clk st.sys st.tick account k)
    (hfit : load st.sys account + batch.length ≤ (members st.sys account).length * k) :
    ∃ st', assignLoop clk st batch = some st' ∧
      st'.failedAssignments = st.failedAssignments ∧
      st'.assignedAgents.length = st.assignedAgents.length + batch.length ∧
      Even clk st'.sys st'.tick account k ∧
      members st'.sys account = members st.sys account ∧
      load st'.sys account = load st.sys account + batch.length := by
  induction batch generalizing st with
  | nil => exact ⟨st, rfl, rfl, rfl, he, rfl, rfl⟩
  | cons c rest ih =>
    have hc : c.Account = account := hb c (List.mem_cons_self _ _)
    subst hc
    simp only [List.length_cons] at hfit
    obtain ⟨r, hr, hok, her, hm, hl⟩ := even_step clk hclk st.sys st.tick c k he (by omega)
    obtain ⟨st', h1, h2, h3, h4, h5, h6⟩ :=
      ih (fun c' hc' => hb c' (List.mem_cons_of_mem _ hc'))
        ⟨r.sys, r.tick, st.assignedAgents ++ [r.agent], st.failedAssignments⟩ her
        (by simp only [hm, hl]; omega)
    simp only [List.length_append, List.length_singleton] at h3 h5 h6
    refine ⟨st', ?_, h2, ?_, h4, ?_, ?_⟩
    · rw [assignLoop_cons_ok clk _ c rest r hr hok]
      exact h1
    · simp only [List.length_cons]
      omega
    · rw [h5]
      exact hm
    · simp only [List.length_cons]
      omega

theorem new_agents_eq (initData : List AgentNameAndAccount)
    (hu : (initData.map (fun e => e.Name)).Nodup) :
    (NewAssignmentSystem initData).agentAssignments =
      initData.map (fun e => (e.Name, freshQueue e)) := by
  have := foldl_newStep_append initData ⟨[], []⟩ hu (by simp)
  simpa [NewAssignmentSystem] using this

theorem new_members_single (initData : List AgentNameAndAccount) (account : String)
    (hacc : ∀ e ∈ initData, e.Account = account) :
    members (NewAssignmentSystem initData) account = initData.map (fun e => e.Name) := by
  have h := foldl_newStep_members initData ⟨[], []⟩ account
  have h0 : members (⟨[], []⟩ : AssignmentSystem) account = [] := rfl
  rw [h0, List.nil_append] at h
  simp only [NewAssignmentSystem]
  rw [h, List.filter_eq_self.mpr (fun e he => by simp [hacc e he])]

theorem new_queueLen (initData : List AgentNameAndAccount)
    (hu : (initData.map (fun e => e.Name)).Nodup) (k : String) :
    queueLen (NewAssignmentSystem initData) k = 0 := by
  simp only [queueLen]
  cases hg : mapGet (NewAssignmentSystem initData).agentAssignments k with
  | none => rfl
  | some wq =>
    have hmem := mapGet_mem _ _ _ hg
    rw [new_agents_eq initData hu] at hmem
    obtain ⟨e, _, heq⟩ := List.mem_map.mp hmem
    simp only [Prod.mk.injEq] at heq
    rw [← heq.2]
    rfl

/-- C20, even distribution. Take a roster of uniquely named agents of one account, each with a
limit of at least `k`, a clock that advances, and a batch for that account of at most
`n * k` items, `n` being the number of agents. On the system built by `NewAssignmentSystem`,
`Assign` returns with a nil error and one name per item, and the queue lengths of any two
agents differ by at most one; this holds for every such batch, hence after every item of a
longer one. When the batch has exactly `n * k` items every agent ends with exactly `k`. -/
theorem even_distribution (initData : List AgentNameAndAccount)
    (hu : (initData.map (fun e => e.Name)).Nodup) (account : String)
    (hacc : ∀ e ∈ initData, e.Account = account) (k : Nat)
    (hk : ∀ e ∈ initData, (k : Int) ≤ e.Limit) (clk : Nat → Int) (hclk : Advancing clk)
    (tick : Nat) (batch : List ConversationToAssign) (hb : ∀ c ∈ batch, c.Account = account)
    (hlen : batch.length ≤ initData.length * k) :
    ∃ out, Assign clk (NewAssignmentSystem initData) tick batch = some out ∧
      out.err = none ∧ out.assignedAgents.length = batch.length ∧
      (∀ e1 ∈ initData, ∀ e2 ∈ initData,
        queueLen out.sys e1.Name ≤ queueLen out.sys e2.Name + 1) ∧
      (batch.length = initData.length * k →
        ∀ e ∈ initData, queueLen out.sys e.Name = k) := by
  have hlim : ∀ e ∈ initData, 0 ≤ e.Limit := by
    intro e he
    have := hk e he
    have : (0 : Int) ≤ (k : Int) := Int.natCast_nonneg _
    omega
  have hmem := new_members_single initData account hacc
  have hq := new_queueLen initData hu
  have heven : Even clk (NewAssignmentSystem initData) tick account k := by
    refine ⟨new_sound clk tick initData hu hlim, ?_, ?_, ?_⟩
    · intro x _
      rw [hq x]
      exact Nat.zero_le _
    · intro x _ wq hg
      have hin := mapGet_mem _ _ _ hg
      rw [new_agents_eq initData hu] at hin
      obtain ⟨e, he, heq⟩ := List.mem_map.mp hin
      simp only [Prod.mk.injEq] at heq
      rw [← heq.2]
      exact hk e he
    · intro x _ y _
      rw [hq x, hq y]
      exact Nat.zero_le _
  have hload : load (NewAssignmentSystem initData) account = 0 := by
    simp only [load]
    apply List.sum_eq_zero
    intro n hn
    obtain ⟨x, _, rfl⟩ := List.mem_map.mp hn
    exact hq x
  obtain ⟨st', h1, h2, h3, h4, h5, h6⟩ := even_loop clk hclk account k batch hb
    ⟨NewAssignmentSystem initData, tick, [], []⟩ heven (by
      simp only [hload, hmem, List.length_map]
      omega)
  simp only [List.length_nil, Nat.zero_add] at h3
  simp only [hload, Nat.zero_add] at h6
  simp only [hmem] at h5
  refine ⟨⟨st'.sys, st'.tick, st'.assignedAgents, constructError st'.failedAssignments⟩,
    by simp [Assign, h1], by simp [h2, constructError], h3, ?_, ?_⟩
  · intro e1 he1 e2 he2
    apply h4.balanced
    · rw [h5]
      exact List.mem_map_of_mem (fun e => e.Name) he1
    · rw [h5]
      exact List.mem_map_of_mem (fun e => e.Name) he2
  · intro hfull e he
    have hsum : ((members st'.sys account).map (queueLen st'.sys)).sum =
        (members st'.sys account).length * k := by
      have : load st'.sys account = batch.length := h6
      simp only [load] at this
      rw [this, h5, List.length_map, hfull]
    apply all_eq_of_sum_eq _ _ k h4.atMost hsum
    rw [h5]
    exact List.mem_map_of_mem (fun e => e.Name) he

theorem even_distribution_witness :
    ∃ out, Assign tickingClock (NewAssignmentSystem balancedRoster) 0 nineConversations =
        some out ∧
      out.err = none ∧ out.assignedAgents.length = nineConversations.length ∧
      (∀ e1 ∈ balancedRoster, ∀ e2 ∈ balancedRoster,
        queueLen out.sys e1.Name ≤ queueLen out.sys e2.Name + 1) ∧
      (nineConversations.length = balancedRoster.length * 3 →
        ∀ e ∈ balancedRoster, queueLen out.sys e.Name = 3) :=
  even_distribution balancedRoster (by decide) "account1" (by decide) 3 (by decide)
    tickingClock tickingClock_advancing 0 nineConversations (by decide) (by decide)

/-! ## The nil result of the tie-break stage -/

/-- C21, at candidates that were not assigned before the reading of the clock: on the empty
list the stage returns nil, but it also returns nil on the two candidates of
`laterCandidates`. The same happens without any prepared state: under `frozenClock` two
conversations assigned on `roomyRoster` leave `stalePair`, and for the third conversation the
stage returns nil on its two candidates, so that `assign` dereferences nil. -/
theorem tie_break_nil_on_candidates :
    (getWorkQueueWithTheLeastRecentAssignment tickingClock 0 []).1 = none ∧
    laterCandidates ≠ [] ∧
    (getWorkQueueWithTheLeastRecentAssignment tickingClock 0 laterCandidates).1 = none ∧
    Assign frozenClock (NewAssignmentSystem roomyRoster) 0 [⟨"c1", "X"⟩, ⟨"c2", "X"⟩] =
      some ⟨stalePair, 2, ["a1", "a2"], none⟩ ∧
    getEligibleAgentWorkQueues stalePair.accountAgents stalePair.agentAssignments "X" =
      some stalePair.agentAssignments ∧
    (getWorkQueueWithTheLeastRecentAssignment frozenClock 2 stalePair.agentAssignments).1 =
      none ∧
    assign frozenClock stalePair 2 ⟨"c3", "X"⟩ = none := by
  refine ⟨rfl, by decide, by decide, by rfl, by decide, by decide, by decide⟩

/-! ## Consistency of a new registry -/

/-- C23 fails on a roster that repeats a name: in `repeatedRoster` the name a is entered for
account X and later for account Y. It is listed under X, but the work queue it reads belongs
to Y; and it is listed under Y as well. -/
theorem repeated_name_listed_in_two_accounts :
    "a" ∈ members (NewAssignmentSystem repeatedRoster) "X" ∧
    "a" ∈ members (NewAssignmentSystem repeatedRoster) "Y" ∧
    mapGet (NewAssignmentSystem repeatedRoster).agentAssignments "a" =
      some ⟨7, "a", none, [], "Y"⟩ := by
  refine ⟨by decide, by decide, by decide⟩

theorem new_members_eq (initData : List AgentNameAndAccount) (account : String) :
    members (NewAssignmentSystem initData) account =
      (initData.filter (fun e => decide (e.Account = account))).map (fun e => e.Name) := by
  have h := foldl_newStep_members initData ⟨[], []⟩ account
  have h0 : members (⟨[], []⟩ : AssignmentSystem) account = [] := rfl
  rw [h0, List.nil_append] at h
  exact h

/-- C23 as amended. For every roster with unique agent names, in the system returned by
`NewAssignmentSystem` every name in the membership list of an account reads a work queue whose
`Account` is that account, and every agent of the agent map is listed exactly once under its
own account and under no other account. -/
theorem registry_consistency (initData : List AgentNameAndAccount)
    (hu : (initData.map (fun e => e.Name)).Nodup) :
    (∀ (account k : String), k ∈ members (NewAssignmentSystem initData) account →
      ∃ wq, mapGet (NewAssignmentSystem initData).agentAssignments k = some wq ∧
        wq.Account = account) ∧
    (∀ (k : String) (wq : AgentWorkQueue),
      mapGet (NewAssignmentSystem initData).agentAssignments k = some wq →
      (members (NewAssignmentSystem initData) wq.Account).count k = 1 ∧
      ∀ account, account ≠ wq.Account → k ∉ members (NewAssignmentSystem initData) account) := by
  constructor
  · intro account k hk
    obtain ⟨wq, h1, h2, _⟩ := new_consistent initData hu account k hk
    exact ⟨wq, h1, h2⟩
  · intro k wq hget
    have hin := mapGet_mem _ _ _ hget
    rw [new_agents_eq initData hu] at hin
    obtain ⟨e, he, heq⟩ := List.mem_map.mp hin
    simp only [Prod.mk.injEq] at heq
    obtain ⟨hk, hwq⟩ := heq
    have hacc : wq.Account = e.Account := by rw [← hwq]; rfl
    have hnd : ∀ account, (members (NewAssignmentSystem initData) account).Nodup := by
      intro account
      rw [new_members_eq]
      exact List.Nodup.sublist (List.Sublist.map _ (List.filter_sublist _)) hu
    constructor
    · apply List.count_eq_one_of_mem (hnd _)
      rw [new_members_eq, hacc, ← hk]
      have hfil : e ∈ initData.filter (fun e' => decide (e'.Account = e.Account)) :=
        List.mem_filter.mpr ⟨he, decide_eq_true rfl⟩
      exact List.mem_map_of_mem (fun e => e.Name) hfil
    · intro account hne hmem
      rw [new_members_eq] at hmem
      obtain ⟨e', he', hname⟩ := List.mem_map.mp hmem
      obtain ⟨he'in, he'acc⟩ := List.mem_filter.mp he'
      simp only [decide_eq_true_eq] at he'acc
      have hsame : e' = e :=
        List.inj_on_of_nodup_map hu he'in he (by show e'.Name = e.Name; rw [hname, hk])
      apply hne
      rw [hacc, ← hsame, he'acc]

theorem registry_consistency_witness :
    ∃ wq, mapGet (NewAssignmentSystem threeRoster).agentAssignments "agent3" = some wq ∧
      wq.Account = "account1" :=
  (registry_consistency threeRoster (by decide)).1 "account1" "agent3" (by decide)

/-! ## GetUniqueAccounts -/

theorem foldl_unique_eq (agents : List AgentNameAndAccount) (acc : List String) :
    agents.foldl
      (fun uniqueAccounts agent =>
        if uniqueAccounts.contains agent.Account then uniqueAccounts
        else uniqueAccounts ++ [agent.Account]) acc =
      acc ++ (firstOccurrences (agents.map (fun e => e.Account))).filter
        (fun b => decide (b ∉ acc)) := by
  induction agents generalizing acc with
  | nil => simp [firstOccurrences]
  | cons e rest ih =>
    simp only [List.foldl_cons, List.map_cons, firstOccurrences]
    by_cases hc : e.Account ∈ acc
    · have hcont : acc.contains e.Account = true := by
        simp only [List.contains, List.elem_eq_mem, hc, decide_True]
      rw [hcont, if_pos rfl, ih acc]
      congr 1
      rw [List.filter_cons]
      simp only [hc, not_true_eq_false, decide_False, Bool.false_eq_true, if_false,
        List.filter_filter]
      apply List.filter_congr
      intro b _
      by_cases hb : b ∈ acc
      · simp [hb]
      · have : b ≠ e.Account := fun h => hb (h ▸ hc)
        simp [hb, this]
    · have hcont : ¬ acc.contains e.Account = true := by
        simp only [List.contains, List.elem_eq_mem, hc, decide_False, Bool.false_eq_true,
          not_false_eq_true]
      rw [if_neg hcont, ih (acc ++ [e.Account])]
      rw [List.filter_cons]
      simp only [hc, not_false_eq_true, decide_True, if_true, List.filter_filter,
        List.append_assoc, List.singleton_append]
      congr 2
      apply List.filter_congr
      intro b _
      by_cases hb : b ∈ acc
      · simp [hb]
      · by_cases hbe : b = e.Account
        · simp [hbe]
        · simp [hb, hbe]

theorem GetUniqueAccounts_eq (agents : List AgentNameAndAccount) :
    GetUniqueAccounts agents = firstOccurrences (agents.map (fun e => e.Account)) := by
  simp only [GetUniqueAccounts]
  rw [foldl_unique_eq]
  simp

theorem mem_firstOccurrences (l : List String) (a : String) :
    a ∈ firstOccurrences l ↔ a ∈ l := by
  induction l with
  | nil => simp [firstOccurrences]
  | cons x rest ih =>
    simp only [firstOccurrences, List.mem_cons, List.mem_filter, decide_eq_true_eq, ih]
    constructor
    · rintro (h | ⟨h, _⟩)
      · exact Or.inl h
      · exact Or.inr h
    · rintro (h | h)
      · exact Or.inl h
      · by_cases hx : a = x
        · exact Or.inl hx
        · exact Or.inr ⟨h, hx⟩

theorem firstOccurrences_nodup (l : List String) : (firstOccurrences l).Nodup := by
  induction l with
  | nil => simp [firstOccurrences]
  | cons x rest ih =>
    simp only [firstOccurrences, List.nodup_cons, List.mem_filter, decide_eq_true_eq]
    exact ⟨fun h => h.2 rfl, List.Nodup.sublist (List.filter_sublist _) ih⟩

theorem firstOccurrences_ordered (l : List String) :
    (firstOccurrences l).Pairwise (fun a b => l.indexOf a < l.indexOf b) := by
  induction l with
  | nil => simp [firstOccurrences]
  | cons x rest ih =>
    simp only [firstOccurrences, List.pairwise_cons, List.mem_filter, decide_eq_true_eq]
    constructor
    · rintro b ⟨_, hb⟩
      rw [List.indexOf_cons_self, List.indexOf_cons_ne _ (Ne.symm hb)]
      exact Nat.succ_pos _
    · have hsub : ((firstOccurrences rest).filter (fun b => decide (b ≠ x))).Pairwise
          (fun a b => rest.indexOf a < rest.indexOf b) :=
        List.Pairwise.sublist (List.filter_sublist _) ih
      have hne : ∀ b ∈ (firstOccurrences rest).filter (fun b => decide (b ≠ x)), b ≠ x := by
        intro b hb
        have := (List.mem_filter.mp hb).2
        simpa using this
      refine (List.Pairwise.and_mem.mp hsub).imp ?_
      rintro a b ⟨ha, hb, hlt⟩
      rw [List.indexOf_cons_ne _ (Ne.symm (hne a ha)),
        List.indexOf_cons_ne _ (Ne.symm (hne b hb))]
      exact Nat.succ_lt_succ hlt

/-- C25, the unique accounts. For every list of agents the result of `GetUniqueAccounts` has no
duplicates, contains exactly the `Account` values that occur in the input, and lists them in
the order of their first occurrence in the input: it is the list of first occurrences, and of
two of its entries the earlier one occurs first in the input at a smaller index. The result is
empty for the empty input and has the one account of a single agent. -/
theorem unique_accounts (agents : List AgentNameAndAccount) :
    (GetUniqueAccounts agents).Nodup ∧
    (∀ a, a ∈ GetUniqueAccounts agents ↔ ∃ e ∈ agents, e.Account = a) ∧
    GetUniqueAccounts agents = firstOccurrences (agents.map (fun e => e.Account)) ∧
    (GetUniqueAccounts agents).Pairwise
      (fun a b => (agents.map (fun e => e.Account)).indexOf a <
        (agents.map (fun e => e.Account)).indexOf b) ∧
    GetUniqueAccounts [] = [] ∧
    ∀ e : AgentNameAndAccount, GetUniqueAccounts [e] = [e.Account] := by
  refine ⟨?_, ?_, GetUniqueAccounts_eq agents, ?_, rfl, fun e => rfl⟩
  · rw [GetUniqueAccounts_eq]
    exact firstOccurrences_nodup _
  · intro a
    rw [GetUniqueAccounts_eq, mem_firstOccurrences]
    simp [List.mem_map]
  · rw [GetUniqueAccounts_eq]
    exact firstOccurrences_ordered _

theorem unique_accounts_test :
    GetUniqueAccounts fiveAgents = ["accountA", "accountB", "accountC"] := by
  decide

/-! ## Queues only grow -/

theorem sum_lengths_mapModify (m : GoMap AgentWorkQueue) (k id : String) (now : Int)
    (wq : AgentWorkQueue) (h : mapGet m k = some wq) :
    ((mapModify (pushConversation id now) m k).map (fun p => p.2.Queue.length)).sum =
      (m.map (fun p => p.2.Queue.length)).sum + 1 := by
  induction m with
  | nil => simp [mapGet] at h
  | cons q rest ih =>
    obtain ⟨k', v'⟩ := q
    by_cases hk : k' = k
    · simp only [mapModify, hk, if_true, List.map_cons, List.sum_cons, pushConversation,
        List.length_append, List.length_singleton]
      omega
    · simp only [mapGet, hk, if_false] at h
      simp only [mapModify, hk, if_false, List.map_cons, List.sum_cons, ih h]
      omega

theorem assign_load (clk : Nat → Int) (s : AssignmentSystem) (tick : Nat)
    (c : ConversationToAssign) (r : AssignOutcome) (h : assign clk s tick c = some r) :
    totalLoad r.sys = totalLoad s + (if r.err = none then 1 else 0) := by
  cases herr : r.err with
  | some e =>
    rw [assign_failed clk s tick c r h e herr]
    simp
  | none =>
    obtain ⟨w, t, _, hget, _, _, hr⟩ := assign_winner clk s tick c r h herr
    rw [hr]
    simp only [totalLoad, commit, if_true]
    exact sum_lengths_mapModify _ _ _ _ w.2 hget

theorem assign_queue_grows (clk : Nat → Int) (s : AssignmentSystem) (tick : Nat)
    (c : ConversationToAssign) (r : AssignOutcome) (h : assign clk s tick c = some r)
    (k : String) (wq : AgentWorkQueue) (hk : mapGet s.agentAssignments k = some wq) :
    ∃ wq' added, mapGet r.sys.agentAssignments k = some wq' ∧
      wq'.Queue = wq.Queue ++ added := by
  cases herr : r.err with
  | some e =>
    rw [assign_failed clk s tick c r h e herr]
    exact ⟨wq, [], hk, by simp⟩
  | none =>
    obtain ⟨w, t, _, hget, _, _, hr⟩ := assign_winner clk s tick c r h herr
    rw [hr]
    simp only [commit]
    by_cases hkw : k = w.1
    · subst hkw
      rw [hget] at hk
      simp only [Option.some.injEq] at hk
      subst hk
      exact ⟨pushConversation c.ConversationID (clk t) w.2, [c.ConversationID],
        by rw [mapGet_mapModify_self, hget]; rfl, rfl⟩
    · exact ⟨wq, [], by rw [mapGet_mapModify_ne _ _ _ _ hkw]; exact hk, by simp⟩

theorem assignLoop_grows (clk : Nat → Int) (batch : List ConversationToAssign)
    (st st' : AssignLoopState) (h : assignLoop clk st batch = some st') :
    (∀ k wq, mapGet st.sys.agentAssignments k = some wq →
      ∃ wq' added, mapGet st'.sys.agentAssignments k = some wq' ∧
        wq'.Queue = wq.Queue ++ added) ∧
    totalLoad st'.sys + st.assignedAgents.length =
      totalLoad st.sys + st'.assignedAgents.length := by
  induction batch generalizing st with
  | nil =>
    simp only [assignLoop, Option.some.injEq] at h
    subst h
    exact ⟨fun k wq hk => ⟨wq, [], hk, by simp⟩, rfl⟩
  | cons c rest ih =>
    cases ha : assign clk st.sys st.tick c with
    | none =>
      rw [assignLoop_cons_panic clk _ c rest ha] at h
      simp at h
    | some r =>
      have hload := assign_load clk _ _ c r ha
      have hgrow := assign_queue_grows clk _ _ c r ha
      cases herr : r.err with
      | some e =>
        rw [assignLoop_cons_err clk _ c rest r e ha herr] at h
        obtain ⟨h1, h2⟩ := ih _ h
        simp only [herr] at hload
        simp only at h1 h2
        refine ⟨?_, by simp at hload; omega⟩
        intro k wq hk
        obtain ⟨wq1, add1, hk1, hq1⟩ := hgrow k wq hk
        obtain ⟨wq2, add2, hk2, hq2⟩ := h1 k wq1 hk1
        exact ⟨wq2, add1 ++ add2, hk2, by rw [hq2, hq1, List.append_assoc]⟩
      | none =>
        rw [assignLoop_cons_ok clk _ c rest r ha herr] at h
        obtain ⟨h1, h2⟩ := ih _ h
        simp only [herr, if_true] at hload
        simp only [List.length_append, List.length_singleton] at h1 h2
        refine ⟨?_, by omega⟩
        intro k wq hk
        obtain ⟨wq1, add1, hk1, hq1⟩ := hgrow k wq hk
        obtain ⟨wq2, add2, hk2, hq2⟩ := h1 k wq1 hk1
        exact ⟨wq2, add1 ++ add2, hk2, by rw [hq2, hq1, List.append_assoc]⟩

/-- C22, queues only grow. When `Assign` returns, the queue that every name read before is an
initial segment of the queue it reads afterwards; the sum of all queue lengths has grown by
exactly the number of returned names; and for every item of the batch that succeeds, its
`ConversationID` is appended to the queue read under one name, while every other name reads
what it read before that item. -/
theorem queues_only_grow (clk : Nat → Int) (s : AssignmentSystem) (tick : Nat)
    (batch : List ConversationToAssign) (out : BatchOutcome)
    (h : Assign clk s tick batch = some out) :
    (∀ k wq, mapGet s.agentAssignments k = some wq →
      ∃ wq' added, mapGet out.sys.agentAssignments k = some wq' ∧
        wq'.Queue = wq.Queue ++ added) ∧
    totalLoad out.sys = totalLoad s + out.assignedAgents.length ∧
    ∀ (earlier later : List ConversationToAssign) (c : ConversationToAssign),
      batch = earlier ++ c :: later →
      ∃ (st : BatchOutcome) (r : AssignOutcome),
        Assign clk s tick earlier = some st ∧ assign clk st.sys st.tick c = some r ∧
        (r.err = none →
          ∃ (key : String) (wq : AgentWorkQueue),
            mapGet st.sys.agentAssignments key = some wq ∧
            (mapGet r.sys.agentAssignments key).map (fun w => w.Queue) =
              some (wq.Queue ++ [c.ConversationID]) ∧
            (∀ k, k ≠ key → mapGet r.sys.agentAssignments k = mapGet st.sys.agentAssignments k) ∧
            totalLoad r.sys = totalLoad st.sys + 1) := by
  have hloop : ∃ st', assignLoop clk ⟨s, tick, [], []⟩ batch = some st' ∧
      out = ⟨st'.sys, st'.tick, st'.assignedAgents, constructError st'.failedAssignments⟩ := by
    unfold Assign at h
    cases hl : assignLoop clk ⟨s, tick, [], []⟩ batch with
    | none => simp [hl] at h
    | some st' =>
      simp only [hl, Option.some.injEq] at h
      exact ⟨st', rfl, h.symm⟩
  obtain ⟨st', hl, hout⟩ := hloop
  obtain ⟨h1, h2⟩ := assignLoop_grows clk batch _ st' hl
  simp only [List.length_nil, Nat.add_zero] at h2
  refine ⟨?_, ?_, ?_⟩
  · rw [hout]
    exact h1
  · rw [hout]
    exact h2
  · intro earlier later c hb
    rw [hb] at h
    obtain ⟨st, r, rest, hs1, hs2, _, _, _, _⟩ := Assign_split clk s tick earlier later c out h
    refine ⟨st, r, hs1, hs2, ?_⟩
    intro hok
    obtain ⟨w, t, _, hget, _, _, hr⟩ := assign_winner clk _ _ c r hs2 hok
    have hload := assign_load clk _ _ c r hs2
    simp only [hok, if_true] at hload
    refine ⟨w.1, w.2, hget, ?_, ?_, hload⟩
    · rw [hr]
      simp only [commit]
      rw [mapGet_mapModify_self, hget]
      rfl
    · intro k hk
      rw [hr]
      exact mapGet_mapModify_ne _ _ _ _ hk

theorem queues_only_grow_witness :
    totalLoad pairFull = totalLoad (NewAssignmentSystem pairRoster) + ["a1", "a2"].length :=
  (queues_only_grow tickingClock (NewAssignmentSystem pairRoster) 0 threeForX
    ⟨pairFull, 2, ["a1", "a2"], some (GoError.failedToAssign 1)⟩ (by rfl)).2.1

/-! ## Independence from conversation identifiers -/

theorem mapGet_blank (m : GoMap AgentWorkQueue) (k : String) :
    mapGet (m.map blankRef) k = (mapGet m k).map blankQueue := by
  induction m with
  | nil => rfl
  | cons q rest ih =>
    obtain ⟨k', v'⟩ := q
    by_cases hk : k' = k
    · simp [mapGet, blankRef, hk]
    · simp only [List.map_cons, blankRef, mapGet, hk, if_false]
      exact ih

theorem blankQueue_push (id : String) (now : Int) (wq : AgentWorkQueue) :
    blankQueue (pushConversation id now wq) = pushConversation "" now (blankQueue wq) := by
  simp [blankQueue, pushConversation, List.replicate_succ']

theorem mapModify_blank (m : GoMap AgentWorkQueue) (k id : String) (now : Int) :
    (mapModify (pushConversation id now) m k).map blankRef =
      mapModify (pushConversation "" now) (m.map blankRef) k := by
  induction m with
  | nil => rfl
  | cons q rest ih =>
    obtain ⟨k', v'⟩ := q
    by_cases hk : k' = k
    · simp [mapModify, blankRef, hk, blankQueue_push]
    · simp only [mapModify, hk, if_false, List.map_cons, blankRef, ih]

theorem filterAvailable_blank (l : List (String × Option AgentWorkQueue)) :
    filterAvailable (l.map (fun p => (p.1, p.2.map blankQueue))) =
      (filterAvailable l).map (List.map blankRef) := by
  induction l with
  | nil => rfl
  | cons p rest ih =>
    obtain ⟨k, o⟩ := p
    cases o with
    | none => rfl
    | some wq =>
      simp only [List.map_cons, Option.map_some', filterAvailable, ih]
      cases filterAvailable rest with
      | none => rfl
      | some tl =>
        by_cases hc : (wq.Queue.length : Int) = wq.Limit
        · simp [blankQueue, hc]
        · simp [blankQueue, blankRef, hc]

theorem getEligible_blank (s : AssignmentSystem) (account : String) :
    getEligibleAgentWorkQueues (blank s).accountAgents (blank s).agentAssignments account =
      (getEligibleAgentWorkQueues s.accountAgents s.agentAssignments account).map
        (List.map blankRef) := by
  simp only [getEligibleAgentWorkQueues, blank]
  rw [← filterAvailable_blank]
  congr 1
  simp only [List.map_map]
  apply List.map_congr_left
  intro a _
  simp [mapGet_blank]

theorem leastLoop_blank (l : List WorkQueueRef) (n : Nat) (found : List WorkQueueRef) :
    leastLoop (l.map blankRef) n (found.map blankRef) = (leastLoop l n found).map blankRef := by
  induction l generalizing n found with
  | nil => rfl
  | cons x rest ih =>
    have hlen : (blankRef x).2.Queue.length = x.2.Queue.length := by
      simp [blankRef, blankQueue]
    simp only [List.map_cons, leastLoop, hlen]
    split_ifs
    · exact ih _ [x]
    · rw [← ih]
      simp
    · exact ih _ found

theorem least_blank (l : List WorkQueueRef) :
    getWorkqueuesWithLeastAmountOfWork (l.map blankRef) =
      (getWorkqueuesWithLeastAmountOfWork l).map blankRef := by
  cases l with
  | nil => rfl
  | cons x rest =>
    have hlen : (blankRef x).2.Queue.length = x.2.Queue.length := by
      simp [blankRef, blankQueue]
    simp only [getWorkqueuesWithLeastAmountOfWork, List.map_cons, hlen]
    exact leastLoop_blank (x :: rest) _ []

theorem leastRecentLoop_blank (clk : Nat → Int) (l : List WorkQueueRef) (tick : Nat) (hi : Int)
    (best : Option WorkQueueRef) :
    leastRecentLoop clk (l.map blankRef) tick hi (best.map blankRef) =
      ((leastRecentLoop clk l tick hi best).1.map blankRef,
        (leastRecentLoop clk l tick hi best).2) := by
  induction l generalizing tick hi best with
  | nil => rfl
  | cons x rest ih =>
    have htime : (blankRef x).2.LastAssignmentTime = x.2.LastAssignmentTime := rfl
    simp only [List.map_cons, leastRecentLoop, htime]
    cases x.2.LastAssignmentTime with
    | none => rfl
    | some last =>
      simp only
      split_ifs
      · exact ih _ _ (some x)
      · exact ih _ _ best

theorem assignToWorkQueue_blank (clk : Nat → Int) (s : AssignmentSystem) (tick : Nat)
    (w : Option WorkQueueRef) (id : String) :
    (assignToWorkQueue clk s tick w id).map blankOutcome =
      assignToWorkQueue clk (blank s) tick (w.map blankRef) "" := by
  cases w with
  | none => rfl
  | some w =>
    obtain ⟨key, obj⟩ := w
    simp only [assignToWorkQueue, Option.map_some', blankRef, blankOutcome, blank,
      mapModify_blank]
    rfl

theorem assign_blank (clk : Nat → Int) (s : AssignmentSystem) (tick : Nat)
    (c : ConversationToAssign) :
    (assign clk s tick c).map blankOutcome = assign clk (blank s) tick (blankItem c) := by
  unfold assign
  have he := getEligible_blank s c.Account
  simp only [blankItem]
  rw [he]
  cases getEligibleAgentWorkQueues s.accountAgents s.agentAssignments c.Account with
  | none => rfl
  | some elig =>
    simp only [Option.map_some', List.length_map, least_blank]
    by_cases h0 : elig.length = 0
    · simp [h0, blankOutcome]
    · simp only [h0, if_false]
      by_cases h1 : (getWorkqueuesWithLeastAmountOfWork elig).length = 1
      · simp only [h1, if_true]
        rw [assignToWorkQueue_blank]
        congr 1
        cases getWorkqueuesWithLeastAmountOfWork elig <;> rfl
      · simp only [h1, if_false]
        rw [assignToWorkQueue_blank]
        have hl := leastRecentLoop_blank clk (getWorkqueuesWithLeastAmountOfWork elig) tick 0 none
        simp only [getWorkQueueWithTheLeastRecentAssignment]
        simp only [Option.map_none'] at hl
        rw [hl]

theorem assignLoop_blank (clk : Nat → Int) (batch : List ConversationToAssign)
    (st : AssignLoopState) :
    (assignLoop clk st batch).map blankLoop =
      assignLoop clk (blankLoop st) (batch.map blankItem) := by
  induction batch generalizing st with
  | nil => rfl
  | cons c rest ih =>
    have hb := assign_blank clk st.sys st.tick c
    cases ha : assign clk st.sys st.tick c with
    | none =>
      rw [ha] at hb
      rw [assignLoop_cons_panic clk _ c rest ha, List.map_cons,
        assignLoop_cons_panic clk _ _ _ (by simpa [blankLoop] using hb.symm)]
      rfl
    | some r =>
      rw [ha] at hb
      have hb' : assign clk (blankLoop st).sys (blankLoop st).tick (blankItem c) =
          some (blankOutcome r) := by simpa [blankLoop] using hb.symm
      cases herr : r.err with
      | some e =>
        rw [assignLoop_cons_err clk _ c rest r e ha herr, List.map_cons,
          assignLoop_cons_err clk _ _ _ (blankOutcome r) e hb' (by simpa [blankOutcome] using herr),
          ih]
        simp [blankLoop, blankOutcome]
      | none =>
        rw [assignLoop_cons_ok clk _ c rest r ha herr, List.map_cons,
          assignLoop_cons_ok clk _ _ _ (blankOutcome r) hb' (by simpa [blankOutcome] using herr),
          ih]
        simp [blankLoop, blankOutcome]

theorem Assign_blank (clk : Nat → Int) (s : AssignmentSystem) (tick : Nat)
    (batch : List ConversationToAssign) :
    (Assign clk s tick batch).map blankBatch =
      Assign clk (blank s) tick (batch.map blankItem) := by
  have h := assignLoop_blank clk batch ⟨s, tick, [], []⟩
  simp only [Assign]
  have h0 : blankLoop ⟨s, tick, [], []⟩ = ⟨blank s, tick, [], []⟩ := rfl
  rw [h0] at h
  rw [← h]
  cases assignLoop clk ⟨s, tick, [], []⟩ batch with
  | none => rfl
  | some st => simp [blankBatch, blankLoop, constructError]

/-- C24, independence from item identifiers. Take a state, a clock and two batches whose items
carry the same accounts position by position. `Assign` returns on one exactly when it returns
on the other; and then both return the same list of agent names, the same error and the same
number of clock readings, and leave the same account index and, under every name, the same
queue length and `LastAssignmentTime`. -/
theorem identifier_independence (clk : Nat → Int) (s : AssignmentSystem) (tick : Nat)
    (batch1 batch2 : List ConversationToAssign)
    (hacc : batch1.map (fun c => c.Account) = batch2.map (fun c => c.Account)) :
    (Assign clk s tick batch1 = none ↔ Assign clk s tick batch2 = none) ∧
    ∀ (out1 out2 : BatchOutcome),
      Assign clk s tick batch1 = some out1 → Assign clk s tick batch2 = some out2 →
      out1.assignedAgents = out2.assignedAgents ∧ out1.err = out2.err ∧
      out1.tick = out2.tick ∧ out1.sys.accountAgents = out2.sys.accountAgents ∧
      ∀ k, (mapGet out1.sys.agentAssignments k).map
            (fun w => (w.Queue.length, w.LastAssignmentTime)) =
          (mapGet out2.sys.agentAssignments k).map
            (fun w => (w.Queue.length, w.LastAssignmentTime)) := by
  have hitems : batch1.map blankItem = batch2.map blankItem := by
    have h1 : ∀ b : List ConversationToAssign,
        b.map blankItem = (b.map (fun c => c.Account)).map (fun a => ⟨"", a⟩) := by
      intro b
      simp [List.map_map, Function.comp_def, blankItem]
    rw [h1 batch1, h1 batch2, hacc]
  have heq : (Assign clk s tick batch1).map blankBatch =
      (Assign clk s tick batch2).map blankBatch := by
    rw [Assign_blank, Assign_blank, hitems]
  constructor
  · cases h1 : Assign clk s tick batch1 <;> cases h2 : Assign clk s tick batch2 <;>
      simp [h1, h2] at heq ⊢
  · intro out1 out2 h1 h2
    rw [h1, h2] at heq
    simp only [Option.map_some', Option.some.injEq, blankBatch, BatchOutcome.mk.injEq] at heq
    obtain ⟨hsys, htick, hnames, herr⟩ := heq
    refine ⟨hnames, herr, htick, ?_, ?_⟩
    · have := congrArg AssignmentSystem.accountAgents hsys
      simpa [blank] using this
    · intro k
      have hk := congrArg (fun t => mapGet t.agentAssignments k) hsys
      simp only [blank, mapGet_blank] at hk
      have hmap := congrArg
        (fun o : Option AgentWorkQueue =>
          o.map (fun w => (w.Queue.length, w.LastAssignmentTime))) hk
      simp only [Option.map_map] at hmap
      have hfun : ((fun w : AgentWorkQueue => (w.Queue.length, w.LastAssignmentTime)) ∘
          blankQueue) = (fun w => (w.Queue.length, w.LastAssignmentTime)) := by
        funext w
        simp [blankQueue]
      rw [hfun] at hmap
      exact hmap

theorem identifier_independence_witness :
    (Assign tickingClock (NewAssignmentSystem pairRoster) 0 threeForX = none ↔
      Assign tickingClock (NewAssignmentSystem pairRoster) 0 otherThreeForX = none) ∧
    (Assign tickingClock (NewAssignmentSystem pairRoster) 0 otherThreeForX).map
        (fun out => (out.assignedAgents, out.err)) =
      some (["a1", "a2"], some (GoError.failedToAssign 1)) :=
  ⟨(identifier_independence tickingClock (NewAssignmentSystem pairRoster) 0 threeForX
    otherThreeForX (by decide)).1, by decide⟩

/-! ## GenerateAgentWorkQueues -/

theorem accountsLoop_step (rnd : Nat → Nat) (label : String) (minAgents maxAgents : Nat)
    (hmin : 0 < minAgents) (target created accountID idx : Nat) (h : created < target) :
    accountsLoop rnd label minAgents maxAgents hmin target created accountID idx =
      (accountAgentsLoop rnd (label ++ toString accountID)
          (agentsInThisAccount rnd minAgents maxAgents target created idx) 0 (idx + 1) ::
        (accountsLoop rnd label minAgents maxAgents hmin target
          (created + agentsInThisAccount rnd minAgents maxAgents target created idx)
          (accountID + 1)
          (idx + 1 + agentsInThisAccount rnd minAgents maxAgents target created idx)).1,
       (accountsLoop rnd label minAgents maxAgents hmin target
          (created + agentsInThisAccount rnd minAgents maxAgents target created idx)
          (accountID + 1)
          (idx + 1 + agentsInThisAccount rnd minAgents maxAgents target created idx)).2) := by
  rw [accountsLoop]
  simp only [h, dite_true]

theorem accountsLoop_done (rnd : Nat → Nat) (label : String) (minAgents maxAgents : Nat)
    (hmin : 0 < minAgents) (target created accountID idx : Nat) (h : ¬ created < target) :
    accountsLoop rnd label minAgents maxAgents hmin target created accountID idx =
      ([], accountID, idx) := by
  rw [accountsLoop]
  simp only [h, dite_false]

theorem accountAgentsLoop_length (rnd : Nat → Nat) (accountName : String)
    (remaining i idx : Nat) :
    (accountAgentsLoop rnd accountName remaining i idx).length = remaining := by
  induction remaining generalizing i idx with
  | zero => rfl
  | succ n ih => simp [accountAgentsLoop, ih]

theorem agent_name_ne_empty (accountName tail : String) :
    "agent_" ++ accountName ++ "_" ++ tail ≠ "" := by
  intro h
  have hlen := congrArg String.length h
  have h6 : "agent_".length = 6 := by decide
  simp only [String.length_append, h6] at hlen
  have h0 : "".length = 0 := by decide
  omega

theorem accountAgentsLoop_mem (rnd : Nat → Nat) (accountName : String)
    (remaining i idx : Nat) (a : AgentNameAndAccount)
    (ha : a ∈ accountAgentsLoop rnd accountName remaining i idx) :
    a.Account = accountName ∧ 5 ≤ a.Limit ∧ a.Limit ≤ 20 ∧ a.Name ≠ "" := by
  induction remaining generalizing i idx with
  | zero => simp [accountAgentsLoop] at ha
  | succ n ih =>
    simp only [accountAgentsLoop, List.mem_cons] at ha
    rcases ha with rfl | ha
    · refine ⟨rfl, ?_, ?_, agent_name_ne_empty _ _⟩
      · simp only [Intn]
        omega
      · simp only [Intn]
        have := Nat.mod_lt (rnd idx) (show 0 < 20 - 5 + 1 by decide)
        omega
    · exact ih _ _ ha

/-- What one outer loop creates, whatever the draws: as many agents as were left to create,
each of an account named with the loop's label and a number, with a limit from 5 to 20 and a
non-empty name. -/
theorem accountsLoop_spec (rnd : Nat → Nat) (label : String) (minAgents maxAgents : Nat)
    (hmin : 0 < minAgents) (target : Nat) :
    ∀ (d created accountID idx : Nat), target - created = d → created ≤ target →
      ((accountsLoop rnd label minAgents maxAgents hmin target created accountID idx).1.map
        List.length).sum = target - created ∧
      ∀ block ∈ (accountsLoop rnd label minAgents maxAgents hmin target created accountID idx).1,
        ∀ a ∈ block, (∃ id : Nat, a.Account = label ++ toString id) ∧
          5 ≤ a.Limit ∧ a.Limit ≤ 20 ∧ a.Name ≠ "" := by
  intro d
  induction d using Nat.strong_induction_on with
  | _ d ih =>
    intro created accountID idx hd hle
    by_cases h : created < target
    · rw [accountsLoop_step rnd label minAgents maxAgents hmin target created accountID idx h]
      have hsize : agentsInThisAccount rnd minAgents maxAgents target created idx ≤
          target - created ∧
          0 < agentsInThisAccount rnd minAgents maxAgents target created idx := by
        simp only [agentsInThisAccount]
        split_ifs <;> omega
      obtain ⟨h1, h2⟩ := ih
        (target - (created + agentsInThisAccount rnd minAgents maxAgents target created idx))
        (by omega)
        (created + agentsInThisAccount rnd minAgents maxAgents target created idx)
        (accountID + 1)
        (idx + 1 + agentsInThisAccount rnd minAgents maxAgents target created idx) rfl
        (by omega)
      constructor
      · simp only [List.map_cons, List.sum_cons, accountAgentsLoop_length, h1]
        omega
      · intro block hb a ha
        rcases List.mem_cons.mp hb with rfl | hb
        · obtain ⟨ha1, ha2, ha3, ha4⟩ := accountAgentsLoop_mem _ _ _ _ _ a ha
          exact ⟨⟨accountID, ha1⟩, ha2, ha3, ha4⟩
        · exact h2 block hb a ha
    · rw [accountsLoop_done rnd label minAgents maxAgents hmin target created accountID idx h]
      constructor
      · simp
        omega
      · intro block hb
        simp at hb

theorem label_ne_empty (label tail : String) (hl : 0 < label.length) : label ++ tail ≠ "" := by
  intro h
  have hlen := congrArg String.length h
  simp only [String.length_append] at hlen
  have h0 : "".length = 0 := by decide
  omega

theorem large_ne_small (x y : String) : "large_account_" ++ x ≠ "small_account_" ++ y := by
  intro h
  have := congrArg (fun s => s.data.head?) h
  simp [String.data_append] at this

/-- C26, the generated roster. Whatever the draws and however `rand.Shuffle` rearranges the
list, `GenerateAgentWorkQueues` returns (the model is a total function) exactly 1,000,000
agents, each with a limit from 5 to 20 and a non-empty name and account. The agents split into
200,000 of accounts named `large_account_` and a number and 800,000 of accounts named
`small_account_` and a number; no account name is of both kinds. -/
theorem generated_agents (rnd : Nat → Nat)
    (shuffle : List AgentNameAndAccount → List AgentNameAndAccount)
    (hshuffle : ∀ l, (shuffle l).Perm l) :
    (GenerateAgentWorkQueues rnd shuffle).length = 1000000 ∧
    (∀ a ∈ GenerateAgentWorkQueues rnd shuffle,
      5 ≤ a.Limit ∧ a.Limit ≤ 20 ∧ a.Name ≠ "" ∧ a.Account ≠ "") ∧
    (∃ large small : List AgentNameAndAccount,
      (GenerateAgentWorkQueues rnd shuffle).Perm (large ++ small) ∧
      large.length = 200000 ∧ small.length = 800000 ∧
      (∀ a ∈ large, ∃ id : Nat, a.Account = "large_account_" ++ toString id) ∧
      (∀ a ∈ small, ∃ id : Nat, a.Account = "small_account_" ++ toString id)) ∧
    ∀ x y : String, "large_account_" ++ x ≠ "small_account_" ++ y := by
  obtain ⟨hl1, hl2⟩ := accountsLoop_spec rnd "large_account_" 1000 5000 (by decide)
    targetLargeAgents targetLargeAgents 0 1 0 rfl (Nat.zero_le _)
  obtain ⟨hs1, hs2⟩ := accountsLoop_spec rnd "small_account_" 10 100 (by decide)
    (totalAgents - targetLargeAgents) (totalAgents - targetLargeAgents) 0
    (largeAccounts rnd).2.1 (largeAccounts rnd).2.2 rfl (Nat.zero_le _)
  have hlargeLen : (largeAccounts rnd).1.flatten.length = 200000 := by
    rw [List.length_flatten]
    exact hl1
  have hsmallLen : (smallAccounts rnd).1.flatten.length = 800000 := by
    rw [List.length_flatten]
    exact hs1
  have hlargeMem : ∀ a ∈ (largeAccounts rnd).1.flatten,
      (∃ id : Nat, a.Account = "large_account_" ++ toString id) ∧
        5 ≤ a.Limit ∧ a.Limit ≤ 20 ∧ a.Name ≠ "" := by
    intro a ha
    obtain ⟨block, hb, hab⟩ := List.mem_flatten.mp ha
    exact hl2 block hb a hab
  have hsmallMem : ∀ a ∈ (smallAccounts rnd).1.flatten,
      (∃ id : Nat, a.Account = "small_account_" ++ toString id) ∧
        5 ≤ a.Limit ∧ a.Limit ≤ 20 ∧ a.Name ≠ "" := by
    intro a ha
    obtain ⟨block, hb, hab⟩ := List.mem_flatten.mp ha
    exact hs2 block hb a hab
  have hperm := hshuffle ((largeAccounts rnd).1.flatten ++ (smallAccounts rnd).1.flatten)
  refine ⟨?_, ?_, ⟨_, _, hperm, hlargeLen, hsmallLen, fun a ha => (hlargeMem a ha).1,
    fun a ha => (hsmallMem a ha).1⟩, large_ne_small⟩
  · simp only [GenerateAgentWorkQueues]
    rw [hperm.length_eq, List.length_append, hlargeLen, hsmallLen]
  · intro a ha
    simp only [GenerateAgentWorkQueues] at ha
    rcases List.mem_append.mp (hperm.mem_iff.mp ha) with h | h
    · obtain ⟨⟨id, hid⟩, h2, h3, h4⟩ := hlargeMem a h
      exact ⟨h2, h3, h4, by rw [hid]; exact label_ne_empty _ _ (by decide)⟩
    · obtain ⟨⟨id, hid⟩, h2, h3, h4⟩ := hsmallMem a h
      exact ⟨h2, h3, h4, by rw [hid]; exact label_ne_empty _ _ (by decide)⟩

theorem generated_agents_witness :
    (GenerateAgentWorkQueues (fun _ => 0) id).length = 1000000 :=
  (generated_agents (fun _ => 0) id (fun l => List.Perm.refl l)).1

/-! ## The sizes of the generated accounts -/

/-- One outer loop under draws that are all the same: with `n` the size drawn for every
account and `q * n + r` agents left to create, `0 < r < n`, the loop creates `q` accounts of
`n` agents and then a last account of `r` agents. -/
theorem accountsLoop_constant (c : Nat) (label : String) (minAgents maxAgents : Nat)
    (hmin : 0 < minAgents) (target q : Nat) :
    ∀ (created accountID idx r : Nat), 0 < r →
      r < c % (maxAgents - minAgents + 1) + minAgents →
      created + q * (c % (maxAgents - minAgents + 1) + minAgents) + r = target →
      ∃ full last,
        (accountsLoop (fun _ => c) label minAgents maxAgents hmin target created accountID
          idx).1 = full ++ [last] ∧
        full.length = q ∧
        (∀ b ∈ full, b.length = c % (maxAgents - minAgents + 1) + minAgents) ∧
        last.length = r ∧
        (∀ a ∈ last, a.Account = label ++ toString (accountID + q)) ∧
        (accountsLoop (fun _ => c) label minAgents maxAgents hmin target created accountID
          idx).2.1 = accountID + q + 1 := by
  induction q with
  | zero =>
    intro created accountID idx r hr hrn hsum
    have hlt : created < target := by omega
    have hsize : agentsInThisAccount (fun _ => c) minAgents maxAgents target created idx = r := by
      simp only [agentsInThisAccount, Intn]
      split_ifs <;> omega
    rw [accountsLoop_step _ label minAgents maxAgents hmin target created accountID idx hlt,
      hsize, accountsLoop_done _ label minAgents maxAgents hmin target (created + r) _ _
        (by omega)]
    refine ⟨[], _, rfl, rfl, by simp, accountAgentsLoop_length _ _ _ _ _, ?_, rfl⟩
    intro a ha
    exact (accountAgentsLoop_mem _ _ _ _ _ a ha).1
  | succ q ih =>
    intro created accountID idx r hr hrn hsum
    have hmul : (q + 1) * (c % (maxAgents - minAgents + 1) + minAgents) =
        q * (c % (maxAgents - minAgents + 1) + minAgents) +
          (c % (maxAgents - minAgents + 1) + minAgents) := Nat.succ_mul _ _
    have hlt : created < target := by omega
    have hsize : agentsInThisAccount (fun _ => c) minAgents maxAgents target created idx =
        c % (maxAgents - minAgents + 1) + minAgents := by
      simp only [agentsInThisAccount, Intn]
      split_ifs <;> omega
    rw [accountsLoop_step _ label minAgents maxAgents hmin target created accountID idx hlt,
      hsize]
    obtain ⟨full, last, h1, h2, h3, h4, h5, h6⟩ :=
      ih (created + (c % (maxAgents - minAgents + 1) + minAgents)) (accountID + 1)
        (idx + 1 + (c % (maxAgents - minAgents + 1) + minAgents)) r hr hrn (by omega)
    refine ⟨accountAgentsLoop (fun _ => c) (label ++ toString accountID)
        (c % (maxAgents - minAgents + 1) + minAgents) 0 (idx + 1) :: full, last,
      by simp only [h1, List.cons_append], by simp [h2], ?_, h4, ?_, ?_⟩
    · intro b hb
      rcases List.mem_cons.mp hb with rfl | hb
      · exact accountAgentsLoop_length _ _ _ _ _
      · exact h3 b hb
    · intro a ha
      rw [h5 a ha]
      congr 2
      omega
    · simp only [h6]
      omega

/-- C27, under the draws `onesDrawn`: every large account is drawn 1001 agents, so that after
199 accounts 801 agents are left of the 200,000, and the last large account, large_account_200,
is given these 801 agents, fewer than 1000. Every small account is drawn 11 agents, and the
last small account, small_account_72928, is given the 3 agents left of the 800,000, fewer
than 10. -/
theorem last_accounts_cut_short :
    (∃ full last, (largeAccounts onesDrawn).1 = full ++ [last] ∧ full.length = 199 ∧
      (∀ b ∈ full, b.length = 1001) ∧ last.length = 801 ∧
      ∀ a ∈ last, a.Account = "large_account_200") ∧
    (∃ full last, (smallAccounts onesDrawn).1 = full ++ [last] ∧ full.length = 72727 ∧
      (∀ b ∈ full, b.length = 11) ∧ last.length = 3 ∧
      ∀ a ∈ last, a.Account = "small_account_72928") := by
  obtain ⟨full, last, h1, h2, h3, h4, h5, h6⟩ :=
    accountsLoop_constant 1 "large_account_" 1000 5000 (by decide) targetLargeAgents 199
      0 1 0 801 (by decide) (by decide) (by decide)
  have hid : (largeAccounts onesDrawn).2.1 = 201 := h6
  obtain ⟨full', last', h1', h2', h3', h4', h5', _⟩ :=
    accountsLoop_constant 1 "small_account_" 10 100 (by decide)
      (totalAgents - targetLargeAgents) 72727 0 201 (largeAccounts onesDrawn).2.2 3
      (by decide) (by decide) (by decide)
  refine ⟨⟨full, last, h1, h2, h3, h4, ?_⟩, ⟨full', last', ?_, h2', h3', h4', ?_⟩⟩
  · intro a ha
    rw [h5 a ha]
    decide
  · simp only [smallAccounts, hid]
    exact h1'
  · intro a ha
    rw [h5' a ha]
    decide

/-- The sizes of the accounts of one outer loop, whatever the draws: every account receives at
least one agent and at most `maxAgents`; every account but the last one created receives at
least `minAgents`; and the account created at position `i` is named with the loop's label and
the number `accountID + i`. -/
theorem accountsLoop_sizes (rnd : Nat → Nat) (label : String) (minAgents maxAgents : Nat)
    (hmin : 0 < minAgents) (hle : minAgents ≤ maxAgents) (target : Nat) :
    ∀ (d created accountID idx : Nat), target - created = d →
      (∀ block ∈ (accountsLoop rnd label minAgents maxAgents hmin target created accountID
          idx).1, 1 ≤ block.length ∧ block.length ≤ maxAgents) ∧
      (∀ block ∈ (accountsLoop rnd label minAgents maxAgents hmin target created accountID
          idx).1.dropLast, minAgents ≤ block.length) ∧
      ∀ (i : Nat) (block : List AgentNameAndAccount),
        (accountsLoop rnd label minAgents maxAgents hmin target created accountID idx).1[i]? =
          some block →
        ∀ a ∈ block, a.Account = label ++ toString (accountID + i) := by
  intro d
  induction d using Nat.strong_induction_on with
  | _ d ih =>
    intro created accountID idx hd
    by_cases h : created < target
    · rw [accountsLoop_step rnd label minAgents maxAgents hmin target created accountID idx h]
      have hdrawn : Intn rnd idx (maxAgents - minAgents + 1) + minAgents ≤ maxAgents := by
        have := Nat.mod_lt (rnd idx) (show 0 < maxAgents - minAgents + 1 by omega)
        simp only [Intn]
        omega
      have hsize : 1 ≤ agentsInThisAccount rnd minAgents maxAgents target created idx ∧
          agentsInThisAccount rnd minAgents maxAgents target created idx ≤ maxAgents ∧
          created + agentsInThisAccount rnd minAgents maxAgents target created idx ≤ target ∧
          (created + agentsInThisAccount rnd minAgents maxAgents target created idx < target →
            minAgents ≤ agentsInThisAccount rnd minAgents maxAgents target created idx) := by
        simp only [agentsInThisAccount]
        split_ifs <;> refine ⟨?_, ?_, ?_, ?_⟩ <;> omega
      obtain ⟨hs1, hs2, hs3, hs4⟩ := hsize
      obtain ⟨h1, h2, h3⟩ := ih
        (target - (created + agentsInThisAccount rnd minAgents maxAgents target created idx))
        (by omega)
        (created + agentsInThisAccount rnd minAgents maxAgents target created idx)
        (accountID + 1)
        (idx + 1 + agentsInThisAccount rnd minAgents maxAgents target created idx) rfl
      refine ⟨?_, ?_, ?_⟩
      · intro block hb
        rcases List.mem_cons.mp hb with rfl | hb
        · rw [accountAgentsLoop_length]
          exact ⟨hs1, hs2⟩
        · exact h1 block hb
      · intro block hb
        by_cases hcont :
            created + agentsInThisAccount rnd minAgents maxAgents target created idx < target
        · cases hrest : (accountsLoop rnd label minAgents maxAgents hmin target
              (created + agentsInThisAccount rnd minAgents maxAgents target created idx)
              (accountID + 1)
              (idx + 1 + agentsInThisAccount rnd minAgents maxAgents target created idx)).1 with
          | nil =>
            rw [hrest] at hb
            simp at hb
          | cons r rs =>
            rw [hrest] at hb h2
            simp only [List.dropLast_cons₂, List.mem_cons] at hb
            rcases hb with rfl | hb
            · rw [accountAgentsLoop_length]
              exact hs4 hcont
            · exact h2 block hb
        · rw [accountsLoop_done rnd label minAgents maxAgents hmin target _ _ _ hcont] at hb
          simp at hb
      · intro i block hget a ha
        cases i with
        | zero =>
          simp only [List.getElem?_cons_zero, Option.some.injEq] at hget
          rw [← hget] at ha
          exact (accountAgentsLoop_mem _ _ _ _ _ a ha).1
        | succ j =>
          simp only [List.getElem?_cons_succ] at hget
          rw [h3 j block hget a ha]
          congr 2
          omega
    · rw [accountsLoop_done rnd label minAgents maxAgents hmin target created accountID idx h]
      refine ⟨?_, ?_, ?_⟩
      · intro block hb
        simp at hb
      · intro block hb
        simp at hb
      · intro i block hget
        simp at hget

/-- The account sizes that hold whatever the draws: every large account receives at most 5000
agents and at least one, and every large account but the last one created receives at least
1000; every small account receives at most 100 agents and at least one, and every small
account but the last one created receives at least 10. The accounts are those created by the
passes of the two loops: the large account at position `i` is named large_account_ and the
number `1 + i`, and the small accounts are numbered on from there. -/
theorem account_sizes (rnd : Nat → Nat) :
    (∀ block ∈ (largeAccounts rnd).1, 1 ≤ block.length ∧ block.length ≤ 5000) ∧
    (∀ block ∈ (largeAccounts rnd).1.dropLast, 1000 ≤ block.length) ∧
    (∀ (i : Nat) (block : List AgentNameAndAccount), (largeAccounts rnd).1[i]? = some block →
      ∀ a ∈ block, a.Account = "large_account_" ++ toString (1 + i)) ∧
    (∀ block ∈ (smallAccounts rnd).1, 1 ≤ block.length ∧ block.length ≤ 100) ∧
    (∀ block ∈ (smallAccounts rnd).1.dropLast, 10 ≤ block.length) ∧
    (∀ (i : Nat) (block : List AgentNameAndAccount), (smallAccounts rnd).1[i]? = some block →
      ∀ a ∈ block, a.Account = "small_account_" ++ toString ((largeAccounts rnd).2.1 + i)) := by
  obtain ⟨h1, h2, h3⟩ := accountsLoop_sizes rnd "large_account_" 1000 5000 (by decide)
    (by decide) targetLargeAgents _ 0 1 0 rfl
  obtain ⟨h4, h5, h6⟩ := accountsLoop_sizes rnd "small_account_" 10 100 (by decide)
    (by decide) (totalAgents - targetLargeAgents) _ 0 (largeAccounts rnd).2.1
    (largeAccounts rnd).2.2 rfl
  exact ⟨h1, h2, h3, h4, h5, h6⟩

end assignmentsystem
